import Mathlib

/-!
# Round-robin scheduler simulation (`rr.c`)

A shallow embedding of `rr.c`: the median computation (`compareLongs`,
`calculateMedian`), the quantum calculator (`calculateQuantum`), the tick loop of `main`,
and the reading of the input (`next_int`, `init_processes`), followed by theorems about
them.

Modelling conventions.

* The simulation is given twice. In the definitions `calculateMedian`, `calculateQuantum`,
  `tick`, `runLoop`, `simulate` and those they use, C integers (`long`, `int`) are unbounded
  `Int`, so that the conversions between `long` and `int` (the result of `calculateQuantum`,
  its argument `qSize`) lose nothing and the clock never overflows: this is the scheduler
  over unbounded integer ticks, and the invariants are proved for it. The definitions whose
  names end in `C` (`calculateMedianC`, `calculateQuantumC`, `tickC`, `runLoopC`,
  `simulateC` and those they use) are the same code with the widths of the types of `rr.c`:
  an `int` has 32 bits, a `long` has 64 bits, and a conversion to a narrower type or an
  arithmetic result that does not fit is reduced modulo 2^32 or 2^64 (two's complement).
  `tickC_eq_tick` and `simulateC_eq` show that the two agree on every input in range
  (`InRange`); outside that range they differ, and the theorems say where.
* `/` and `%` of C are `Int.tdiv` and `Int.tmod` (truncation toward zero). In the reading of
  the input, where the code checks for overflow, a `long` has 64 bits.
* The process table `ps.process` is a `List Process`; a `struct process *` into the
  table is the index of the entry, `NULL` is `none`.
* The `TAILQ` ready list is the list of the indices of its members, head first. The
  invariant `InvCore` shows that no member is inserted a second time and that the running
  process is not a member, so the links of the intrusive list are never overwritten.
* Undefined behaviour and `exit (1)` inside the simulation are explicit faults. `malloc`
  succeeds whenever it is asked for at least one entry.
* The loop of `main` is run with a fuel argument that bounds the number of
  iterations; the theorems give a fuel for which the loop exits.
* `State.log` is a ghost trace: every `TAILQ_INSERT_TAIL`, every `TAILQ_REMOVE` and
  every assignment to `finish_time` appends one event. The code never reads it.
* The output of `printf` is not modelled.
-/

namespace RR

/-! ## Data model -/

/-- A process table entry (`struct process`, rr.c lines 13-28). -/
structure Process where
  pid : Int
  arrival_time : Int
  burst_time : Int
  remaining_time : Int
  start_exec_time : Int
  waiting_time : Int
  response_time : Int
  finish_time : Int
deriving DecidableEq

instance : Inhabited Process := ⟨⟨0, 0, 0, 0, 0, 0, 0, 0⟩⟩

/-- An entry as `init_processes` leaves it (lines 129-140): `calloc` zeroes the record,
then `pid`, `arrival_time` and `burst_time` are read from the file. -/
def Process.input (pid arrival_time burst_time : Int) : Process :=
  ⟨pid, arrival_time, burst_time, 0, 0, 0, 0, 0⟩

/-- The entry `ps.process[i]`. Every index used by the loop is in range. -/
def getP (procs : List Process) (i : Nat) : Process := procs.getD i default

/-- Apply an assignment `f` to the fields of `ps.process[i]`. -/
def updP (procs : List Process) (i : Nat) (f : Process → Process) : List Process :=
  procs.set i (f (getP procs i))

/-! ## Median (lines 162-188) -/

/-- The comparison callback `compareLongs` (lines 162-169). -/
def compareLongs (a b : Int) : Int :=
  if a < b then -1 else if a > b then 1 else 0

/-- The call `qsort (array, size, sizeof (long), compareLongs)`: the array sorted so that
`compareLongs` never returns a positive value on consecutive elements. -/
def qsort (array : List Int) : List Int :=
  array.insertionSort (fun a b => compareLongs a b ≤ 0)

/-- The function `calculateMedian (array, size)` with `size` the length of `array`
(lines 171-188), with unbounded integers: the sum `middle1 + middle2` is exact
(`calculateMedianC` has the sum of two `long`s). `none` is the out-of-range read `array[0]`
when `size` is 0. -/
def calculateMedian (array : List Int) : Option Int :=
  let size := array.length
  let sorted := qsort array
  if size % 2 = 1 then
    sorted[size / 2]?
  else
    match sorted[(size - 1) / 2]?, sorted[size / 2]? with
    | some middle1, some middle2 =>
      if (middle1 + middle2).tmod 2 = 0 then
        some ((middle1 + middle2).tdiv 2)
      else
        some ((middle1 + middle2 + 1).tdiv 2)
    | _, _ => none

/-! ## Quantum calculator (lines 190-240) -/

/-- The progress value `p->burst_time - p->remaining_time` (lines 224, 228). -/
def progress (p : Process) : Int := p.burst_time - p.remaining_time

/-- The array `x` filled at lines 217-230: the zeros written by the `while` loop, then the
entry of the working process, then one entry for every member of the list. -/
def quantumSample (l : List Process) (working_process : Option Process)
    (num_processes_arrived : Int) (arrived_processes_added : Bool) : List Int :=
  (if arrived_processes_added = false then
      List.replicate num_processes_arrived.toNat (0 : Int) else [])
    ++ (match working_process with
        | some p => [progress p]
        | none => [])
    ++ l.map progress

/-- The function `calculateQuantum` (lines 190-240), with unbounded integers: the parameter
`int qSize` and the result of type `int` hold any integer (`calculateQuantumC` narrows both
to 32 bits). The list `l` and `working_process` are given by the records they point to.
`none` is a fault: `x` (allocated for `num_queued` entries, lines 200-211) is written past
its end, or `calculateMedian` reads out of range. -/
def calculateQuantum (medianMode : Bool) (l : List Process) (working_process : Option Process)
    (num_processes_arrived : Int) (arrived_processes_added : Bool) (qSize : Int) : Option Int :=
  if medianMode = false then
    some qSize
  else
    let num_queued : Int :=
      (if working_process.isSome then 1 else 0) + (l.length : Int)
        + (if num_processes_arrived ≠ 0 ∧ arrived_processes_added = false
            then num_processes_arrived else 0)
    let x := quantumSample l working_process num_processes_arrived arrived_processes_added
    if num_queued < (x.length : Int) then
      none
    else
      match calculateMedian x with
      | none => none
      | some m => some (if m = 0 then 1 else m)

/-! ## The scheduler loop of `main` (lines 260-365) -/

/-- Ghost events: `enq i t` is a `TAILQ_INSERT_TAIL` of process `i` at tick `t`
(lines 302, 326, 344), `deq i t` the `TAILQ_REMOVE` of line 312, `fin i t` the
assignment `finish_time = t` of line 320. -/
inductive Event where
  | enq (i : Nat) (t : Int)
  | deq (i : Nat) (t : Int)
  | fin (i : Nat) (t : Int)
deriving DecidableEq

/-- Faults of the simulation. -/
inductive Fault where
  /-- Line 311-312: `TAILQ_FIRST` of an empty list is `NULL`, which is then removed. -/
  | emptyDequeue
  /-- Line 319: `p` is `NULL` when dereferenced. -/
  | nullRunning
  /-- A call of `calculateQuantum` faults. -/
  | badSample
deriving DecidableEq

/-- The variables of `main` that the loop reads and writes. -/
structure State where
  procs : List Process
  list : List Nat
  p : Option Nat
  t : Int
  num_arrived : Int
  quantum_left : Int
  quantum_length : Int
  median_mode : Bool
  log : List Event
deriving DecidableEq

/-- Lines 268-272: the initialisation loop over the table. -/
def initProcesses (ps : List Process) : List Process :=
  ps.map (fun p => { p with start_exec_time := -1, remaining_time := p.burst_time })

/-- The state on entry to the loop (lines 260-282). `quantum_length` is the value of
lines 252-253: `-1` for the argument `median`, else the number given. -/
def mainInit (ps : List Process) (quantum_length : Int) : State :=
  { procs := initProcesses ps
    list := []
    p := none
    t := 0
    num_arrived := 0
    quantum_left := -1
    quantum_length := if quantum_length = -1 then 1 else quantum_length
    median_mode := decide (quantum_length = -1)
    log := [] }

/-- The loop condition of line 284. -/
def loopCond (s : State) : Prop :=
  s.list ≠ [] ∨ s.p ≠ none ∨ s.num_arrived < (s.procs.length : Int)

instance (s : State) : Decidable (loopCond s) := by
  unfold loopCond; infer_instance

/-- Lines 287-292: count the processes with `arrival_time == t`. -/
def countArrivals (procs : List Process) (t : Int) : Int :=
  (List.range procs.length).foldl
    (fun c i => if (getP procs i).arrival_time = t then c + 1 else c) 0

/-- The body of the loops of lines 299-306 and 341-347 for index `i`. -/
def enqueueArrival (s : State) (i : Nat) : State :=
  if (getP s.procs i).arrival_time = s.t then
    { s with list := s.list ++ [i]
             num_arrived := s.num_arrived + 1
             log := s.log ++ [Event.enq i s.t] }
  else s

/-- Lines 341-347: enqueue the processes with `arrival_time == t`, by ascending index. -/
def enqueueArrivals (s : State) : State :=
  (List.range s.procs.length).foldl enqueueArrival s

/-- Lines 299-306: the same loop, which also sets `arrived_processes_added` in every
iteration (line 305); the flag is returned with the state. -/
def enqueueArrivalsFlag (s : State) : State × Bool :=
  (List.range s.procs.length).foldl
    (fun (sb : State × Bool) i => (enqueueArrival sb.1 i, true)) (s, false)

/-- Lines 313-315: set `start_exec_time` of process `h` to `t` if it is still `-1`. -/
def markStart (procs : List Process) (h : Nat) (t : Int) : List Process :=
  if (getP procs h).start_exec_time = -1 then
    updP procs h (fun p => { p with start_exec_time := t })
  else procs

/-- Lines 332 and 336: `p->remaining_time--` for process `i`. -/
def workProc (procs : List Process) (i : Nat) : List Process :=
  updP procs i (fun p => { p with remaining_time := p.remaining_time - 1 })

/-- Line 320: `p->finish_time = t` for process `i`. -/
def finishProc (procs : List Process) (i : Nat) (t : Int) : List Process :=
  updP procs i (fun p => { p with finish_time := t })

/-- Lines 310-316 once the quantum `q` is computed and the list is `h :: rest`. -/
def dispatchStep (s : State) (h : Nat) (rest : List Nat) (q : Int) : State :=
  { s with
    quantum_length := q
    p := some h
    list := rest
    procs := markStart s.procs h s.t
    quantum_left := q
    log := s.log ++ [Event.deq h s.t] }

/-- Lines 309-317: dispatch the head of the list. -/
def dispatch (s : State) (num_processes_arrived : Int) (arrived_processes_added : Bool) :
    Except Fault State :=
  match calculateQuantum s.median_mode (s.list.map (getP s.procs)) none
      num_processes_arrived arrived_processes_added s.quantum_length with
  | none => .error .badSample
  | some q =>
    match s.list with
    | [] => .error .emptyDequeue
    | h :: rest => .ok (dispatchStep s h rest q)

/-- Lines 320-321: the running process `i` is finished. -/
def finishStep (s : State) (i : Nat) : State :=
  { s with
    procs := finishProc s.procs i s.t
    p := none
    log := s.log ++ [Event.fin i s.t] }

/-- Lines 326-327: the running process `i` goes to the tail of the list. -/
def preemptStep (s : State) (i : Nat) : State :=
  { s with
    list := s.list ++ [i]
    p := none
    log := s.log ++ [Event.enq i s.t] }

/-- Lines 330-333: a new quantum `q` for the running process `i`, and one unit of work. -/
def renewStep (s : State) (i : Nat) (q : Int) : State :=
  { s with
    quantum_length := q
    quantum_left := q - 1
    procs := workProc s.procs i }

/-- Lines 336-337: one unit of work of the running process `i`. -/
def workStep (s : State) (i : Nat) : State :=
  { s with
    procs := workProc s.procs i
    quantum_left := s.quantum_left - 1 }

/-- Lines 319-338: the execution decision for the running process `i`. -/
def execute (s : State) (i : Nat) (num_processes_arrived : Int)
    (arrived_processes_added : Bool) : Except Fault State :=
  if (getP s.procs i).remaining_time = 0 then
    .ok (finishStep s i)
  else if s.quantum_left = 0 then
    if s.list ≠ [] then
      .ok (preemptStep s i)
    else
      match calculateQuantum s.median_mode (s.list.map (getP s.procs)) (some (getP s.procs i))
          num_processes_arrived arrived_processes_added s.quantum_length with
      | none => .error .badSample
      | some q => .ok (renewStep s i q)
  else
    .ok (workStep s i)

/-- Line 349 (and line 296): `t++`, on a clock without a bound (`advanceClockC` has the
`int` clock of line 274). -/
def advanceClock (s : State) : State := { s with t := s.t + 1 }

/-- Lines 319-349: the execution decision for the running process, the late admission
of the arrivals and the advance of the clock. -/
def executeAndEnqueue (s : State) (num_processes_arrived : Int)
    (arrived_processes_added : Bool) : Except Fault State :=
  match s.p with
  | none => .error .nullRunning
  | some i =>
    match execute s i num_processes_arrived arrived_processes_added with
    | .error e => .error e
    | .ok s3 =>
      .ok (advanceClock (if arrived_processes_added = false then enqueueArrivals s3 else s3))

/-- Lines 294-307: when nothing runs and the list is empty, either there is no arrival and
the iteration ends at once (`none`, the `continue` of line 297), or the arrivals are
inserted. The result is the state at line 309 with the flag `arrived_processes_added`. -/
def idleAdmission (s : State) (num_processes_arrived : Int) : Option (State × Bool) :=
  if s.list = [] ∧ s.p = none then
    if num_processes_arrived = 0 then none
    else some (enqueueArrivalsFlag s)
  else some (s, false)

/-- One iteration of the loop body (lines 285-349). -/
def tick (s : State) : Except Fault State :=
  let num_processes_arrived := countArrivals s.procs s.t
  match idleAdmission s num_processes_arrived with
  | none => .ok (advanceClock s)
  | some (s1, arrived_processes_added) =>
    match s1.p with
    | none =>
      match dispatch s1 num_processes_arrived arrived_processes_added with
      | .error e => .error e
      | .ok s2 => executeAndEnqueue s2 num_processes_arrived arrived_processes_added
    | some _ => executeAndEnqueue s1 num_processes_arrived arrived_processes_added

/-- What a bounded run of the loop gives. -/
inductive Outcome where
  | done (s : State)
  | fault (e : Fault)
  | outOfFuel
deriving DecidableEq

/-- The `while` loop of lines 284-351, for at most `fuel` iterations. -/
def runLoop : Nat → State → Outcome
  | 0, _ => .outOfFuel
  | fuel + 1, s =>
    if loopCond s then
      match tick s with
      | .ok s' => runLoop fuel s'
      | .error e => .fault e
    else .done s

/-- Lines 354-359: the derived times of every process. -/
def finalize (procs : List Process) : List Process :=
  procs.map (fun p => { p with
    waiting_time := p.finish_time - p.arrival_time - p.burst_time
    response_time := p.start_exec_time - p.arrival_time })

/-- Lines 361-365: the totals behind the two averages. -/
def total_wait_time (procs : List Process) : Int := (procs.map (·.waiting_time)).sum

/-- Lines 361-365: the total of the response times. -/
def total_response_time (procs : List Process) : Int := (procs.map (·.response_time)).sum

/-- The simulation of `main` from the loaded table to the finished table (lines 260-359),
with a bound on the number of loop iterations. -/
def simulate (fuel : Nat) (ps : List Process) (quantum_length : Int) :
    Option (List Process) :=
  match runLoop fuel (mainInit ps quantum_length) with
  | .done s => some (finalize s.procs)
  | _ => none

/-! ## The quantum as the specification words it -/

/-- The indices of the processes with `arrival_time == t`, ascending. -/
def arrivingNow (procs : List Process) (t : Int) : List Nat :=
  (List.range procs.length).filter (fun i => decide ((getP procs i).arrival_time = t))

/-- The indices of the processes with `arrival_time < h`, ascending. -/
def arrivedBefore (procs : List Process) (h : Int) : List Nat :=
  (List.range procs.length).filter (fun i => decide ((getP procs i).arrival_time < h))

/-- The processes inserted at the tail of the list, in the order of the insertions. -/
def enqs (log : List Event) : List Nat :=
  log.filterMap (fun e => match e with
    | .enq i _ => some i
    | _ => none)

/-- The processes removed from the head of the list, in the order of the removals. -/
def deqs (log : List Event) : List Nat :=
  log.filterMap (fun e => match e with
    | .deq i _ => some i
    | _ => none)

/-- The ticks at which process `i` was dispatched, in order. -/
def deqTimes (log : List Event) (i : Nat) : List Int :=
  log.filterMap (fun e => match e with
    | .deq j t => if j = i then some t else none
    | _ => none)

/-- The values assigned to `finish_time` of process `i`, in order. -/
def finTimes (log : List Event) (i : Nat) : List Int :=
  log.filterMap (fun e => match e with
    | .fin j t => if j = i then some t else none
    | _ => none)

/-- A valid table: at least one process, no negative arrival time, no burst time below 1. -/
def ValidInput (ps : List Process) : Prop :=
  ps ≠ [] ∧ ∀ p ∈ ps, 0 ≤ p.arrival_time ∧ 1 ≤ p.burst_time

instance (ps : List Process) : Decidable (ValidInput ps) := by
  unfold ValidInput; infer_instance

/-- A valid quantum argument: `-1` for median mode, or a fixed quantum of at least 1. -/
def ValidQuantum (quantum_length : Int) : Prop :=
  quantum_length = -1 ∨ 1 ≤ quantum_length

instance (q : Int) : Decidable (ValidQuantum q) := by
  unfold ValidQuantum; infer_instance

/-- The states the loop reaches from `s0`: `s0` itself, and the state after an iteration
from a reached state in which the loop condition holds. -/
inductive Reach (s0 : State) : State → Prop where
  | start : Reach s0 s0
  | step {s s' : State} : Reach s0 s → loopCond s → tick s = .ok s' → Reach s0 s'

/-- The invariant of the loop that the safety and termination arguments rest on. `H` is the
admission horizon: the processes with `arrival_time < H` are those already inserted in the
list once. At the head of the loop `H` is `t`; after the arrivals of tick `t` have been
inserted it is `t + 1`. -/
structure InvCore (H : Int) (s : State) : Prop where
  valid : ∀ i, i < s.procs.length →
    0 ≤ (getP s.procs i).arrival_time ∧ 1 ≤ (getP s.procs i).burst_time
  t_nonneg : 0 ≤ s.t
  horizon : s.t ≤ H ∧ H ≤ s.t + 1
  rem_range : ∀ i, i < s.procs.length →
    0 ≤ (getP s.procs i).remaining_time ∧
      (getP s.procs i).remaining_time ≤ (getP s.procs i).burst_time
  qlen : 1 ≤ s.quantum_length
  qleft : s.p ≠ none → 0 ≤ s.quantum_left
  list_ok : ∀ i, i ∈ s.list →
    i < s.procs.length ∧ (getP s.procs i).arrival_time < H ∧
      0 < (getP s.procs i).remaining_time
  list_nodup : s.list.Nodup
  p_ok : ∀ i, s.p = some i →
    i < s.procs.length ∧ (getP s.procs i).arrival_time < H ∧ i ∉ s.list
  num_arr : s.num_arrived = ((arrivedBefore s.procs H).length : Int)
  unarrived : ∀ i, i < s.procs.length → H ≤ (getP s.procs i).arrival_time →
    (getP s.procs i).remaining_time = (getP s.procs i).burst_time
  done_rem : ∀ i, i < s.procs.length → (getP s.procs i).arrival_time < H →
    i ∉ s.list → s.p ≠ some i → (getP s.procs i).remaining_time = 0

/-- The sum of the remaining times of the table. -/
def remSum (procs : List Process) : Nat :=
  (procs.map (fun p => p.remaining_time.toNat)).sum

/-- The part of the termination measure that does not depend on the clock. -/
def workLeft (s : State) : Nat :=
  2 * remSum s.procs + 2 * (if s.p.isSome then 1 else 0) + s.list.length
    + ((s.procs.length : Int) - s.num_arrived).toNat

/-- The latest arrival time of the table (0 for an empty table). -/
def maxArrival (procs : List Process) : Int :=
  procs.foldr (fun p m => max p.arrival_time m) 0

/-- The termination measure of the loop for a table whose arrival times are at most `A`:
it decreases in every iteration. -/
def ticksLeft (A : Int) (s : State) : Nat :=
  workLeft s + (A + 1 - s.t).toNat

/-- A number of iterations within which the loop of `main` exits on the table `ps`. -/
def fuelBound (ps : List Process) : Nat :=
  2 * (ps.map (fun p => p.burst_time.toNat)).sum + ps.length + (maxArrival ps + 1).toNat + 1

/-- The iterations that the loop performs from a state that satisfies the invariant: what
is decided and in which order the list is changed. -/
inductive TickShape (s : State) : State → Prop where
  /-- Lines 295-298: nothing to run and no arrival. -/
  | idle : s.list = [] → s.p = none → arrivingNow s.procs s.t = [] →
      TickShape s (advanceClock s)
  /-- The running process is found finished. -/
  | finish (i : Nat) : s.p = some i → (getP s.procs i).remaining_time = 0 →
      TickShape s (advanceClock (enqueueArrivals (finishStep s i)))
  /-- The quantum is used up and the list is not empty: the running process is preempted. -/
  | preempt (i : Nat) : s.p = some i → (getP s.procs i).remaining_time ≠ 0 →
      s.quantum_left = 0 → s.list ≠ [] →
      TickShape s (advanceClock (enqueueArrivals (preemptStep s i)))
  /-- The quantum is used up and the list is empty: a new quantum and one unit of work. -/
  | renew (i : Nat) (q : Int) : s.p = some i → (getP s.procs i).remaining_time ≠ 0 →
      s.quantum_left = 0 → s.list = [] → 1 ≤ q →
      calculateQuantum s.median_mode [] (some (getP s.procs i))
        ((arrivingNow s.procs s.t).length : Int) false s.quantum_length = some q →
      TickShape s (advanceClock (enqueueArrivals (renewStep s i q)))
  /-- The running process does one unit of work. -/
  | work (i : Nat) : s.p = some i → (getP s.procs i).remaining_time ≠ 0 →
      s.quantum_left ≠ 0 →
      TickShape s (advanceClock (enqueueArrivals (workStep s i)))
  /-- No process is running and the list is not empty: its head is dispatched and does
  one unit of work, then the arrivals are inserted. -/
  | late (hd : Nat) (rest : List Nat) (q : Int) : s.p = none → s.list = hd :: rest → 1 ≤ q →
      calculateQuantum s.median_mode (s.list.map (getP s.procs)) none
        ((arrivingNow s.procs s.t).length : Int) false s.quantum_length = some q →
      TickShape s
        (advanceClock (enqueueArrivals (workStep (dispatchStep s hd rest q) hd)))
  /-- No process is running and the list is empty: the arrivals are inserted, the first of
  them is dispatched and does one unit of work. -/
  | early (hd : Nat) (rest : List Nat) (q : Int) : s.p = none → s.list = [] →
      arrivingNow s.procs s.t = hd :: rest → 1 ≤ q →
      calculateQuantum s.median_mode ((arrivingNow s.procs s.t).map (getP s.procs)) none
        ((arrivingNow s.procs s.t).length : Int) true s.quantum_length = some q →
      TickShape s
        (advanceClock (workStep (dispatchStep (enqueueArrivals s) hd rest q) hd))

/-- The invariant of the loop about the times recorded in the table. `H` is the admission
horizon of `InvCore`; `T` bounds the work done: it is `t` before the execution decision of
tick `t` and `t + 1` after it. -/
structure InvTime (H T : Int) (s : State) : Prop where
  started : ∀ i, i < s.procs.length →
    (getP s.procs i).start_exec_time = -1 ∨
      (getP s.procs i).arrival_time ≤ (getP s.procs i).start_exec_time
  run_started : ∀ i, s.p = some i → (getP s.procs i).start_exec_time ≠ -1
  done_times : ∀ i, i < s.procs.length → (getP s.procs i).arrival_time < H →
    i ∉ s.list → s.p ≠ some i →
    (getP s.procs i).start_exec_time ≠ -1 ∧
      (getP s.procs i).arrival_time + (getP s.procs i).burst_time
        ≤ (getP s.procs i).finish_time
  work_bound : ∀ i, i < s.procs.length →
    progress (getP s.procs i) ≤ 0 ∨
      (getP s.procs i).arrival_time + progress (getP s.procs i) ≤ T

/-- The invariant of the loop about the ghost trace. `H` is the admission horizon of
`InvCore`. -/
structure InvLog (H : Int) (s : State) : Prop where
  fifo : enqs s.log = deqs s.log ++ s.list
  fin_none : ∀ i, i < s.procs.length →
    (H ≤ (getP s.procs i).arrival_time ∨ i ∈ s.list ∨ s.p = some i) →
    finTimes s.log i = []
  fin_done : ∀ i, i < s.procs.length → (getP s.procs i).arrival_time < H →
    i ∉ s.list → s.p ≠ some i → finTimes s.log i = [(getP s.procs i).finish_time]
  deq_start : ∀ i, i < s.procs.length →
    (deqTimes s.log i = [] ∧ (getP s.procs i).start_exec_time = -1) ∨
    (∃ τ rest, deqTimes s.log i = τ :: rest ∧ (getP s.procs i).start_exec_time = τ ∧ 0 ≤ τ)

/-- The invariant of the loop, at the head of an iteration. -/
structure Inv (s : State) : Prop where
  core : InvCore s.t s
  time : InvTime s.t s.t s
  log : InvLog s.t s

/-- The process that the iteration from `s` puts back at the tail of the list (line 326):
the running process, when it has work left, its quantum is used up and the list is not
empty. -/
def preempted (s : State) : List Nat :=
  match s.p with
  | some i =>
    if (getP s.procs i).remaining_time ≠ 0 ∧ s.quantum_left = 0 ∧ s.list ≠ [] then [i] else []
  | none => []

/-- The run in median mode on one process (pid 1, arrival 2, burst 3) after the two idle
iterations of ticks 0 and 1. -/
def exampleWaiting : State := { mainInit [Process.input 1 2 3] (-1) with t := 2 }

/-- The state after the iteration of tick 2 from `exampleWaiting`: the process is inserted
and dispatched with quantum 1, and has done one unit of work. -/
def exampleStarted : State :=
  { procs := [⟨1, 2, 3, 2, 2, 0, 0, 0⟩]
    list := []
    p := some 0
    t := 3
    num_arrived := 1
    quantum_left := 0
    quantum_length := 1
    median_mode := true
    log := [Event.enq 0 2, Event.deq 0 2] }

/-! ## The calls seen from the caller -/

/-- A call of `calculateMedian (array, size)` seen from the caller: the array after the call,
which `qsort` has sorted in place (line 172), and the value returned. -/
def calculateMedianCall (array : List Int) : List Int × Option Int :=
  (qsort array, calculateMedian array)

/-- A call of `calculateQuantum` seen from `main`: the value returned, and the process table
and the list after the call. The function reads the table and the list (lines 203, 224,
227-228) and assigns only to its locals and to the array `x`, which it allocates and frees
(lines 211-238). `working_process` is the index of the running process. -/
def calculateQuantumCall (medianMode : Bool) (procs : List Process) (l : List Nat)
    (working_process : Option Nat) (num_processes_arrived : Int)
    (arrived_processes_added : Bool) (qSize : Int) :
    Option Int × List Process × List Nat :=
  (calculateQuantum medianMode (l.map (getP procs)) (working_process.map (getP procs))
      num_processes_arrived arrived_processes_added qSize,
    procs, l)

/-- The run with fixed quantum 2 on two processes (pid 1: arrival 0, burst 2; pid 2: arrival 2,
burst 1) at the head of the iteration of tick 2: the first process runs and has no work left,
the second arrives in this tick. -/
def exampleRelease : State :=
  { procs := [⟨1, 0, 2, 0, 0, 0, 0, 0⟩, ⟨2, 2, 1, 1, -1, 0, 0, 0⟩]
    list := []
    p := some 0
    t := 2
    num_arrived := 1
    quantum_left := 0
    quantum_length := 2
    median_mode := false
    log := [Event.enq 0 0, Event.deq 0 0] }

/-- The same run at the head of the iteration of tick 1: the first process runs and has one
unit of work left. -/
def exampleRunning : State :=
  { procs := [⟨1, 0, 2, 1, 0, 0, 0, 0⟩, ⟨2, 2, 1, 1, -1, 0, 0, 0⟩]
    list := []
    p := some 0
    t := 1
    num_arrived := 1
    quantum_left := 1
    quantum_length := 2
    median_mode := false
    log := [Event.enq 0 0, Event.deq 0 0] }

/-! ## Processes that all arrive at tick 0, with a quantum that never expires -/

/-- The value `LONG_MAX` of a 64-bit `long`. -/
def LONG_MAX : Int := 9223372036854775807

/-- The value `LONG_MIN` of a 64-bit `long`. -/
def LONG_MIN : Int := -9223372036854775808

/-- Modelled from the spec: the macro `ckd_mul` of `stdckdint.h`, a header of the repository
that is not among the sources. The specification says of it only that an overflowing integer
is fatal (sections 6 and 7), so on the type `long` it is taken to report an overflow (`none`)
exactly when the product does not fit in a `long`, and to store the product otherwise. -/
def ckd_mul (a b : Int) : Option Int :=
  if LONG_MIN ≤ a * b ∧ a * b ≤ LONG_MAX then some (a * b) else none

/-- Modelled from the spec: the macro `ckd_add` of `stdckdint.h`, as `ckd_mul`: it reports an
overflow (`none`) exactly when the sum does not fit in a `long`. -/
def ckd_add (a b : Int) : Option Int :=
  if LONG_MIN ≤ a + b ∧ a + b ≤ LONG_MAX then some (a + b) else none

/-- The test `'0' <= c && c <= '9'` of line 46. -/
def isDigit (c : Nat) : Bool := decide (48 ≤ c ∧ c ≤ 57)

/-- The ways in which `main` ends before the simulation: the messages of lines 53, 63, 128,
143 and 255. -/
inductive LoadError where
  | integerOverflow
  | missingInteger
  | noProcesses
  | zeroBurst (pid : Int)
  | zeroQuantum
deriving DecidableEq

/-- The loop of lines 43-58 of `next_int`, from the pointer `d` with the values of `current`
and `int_start`: the values of `current`, `int_start` and `d` at the exit of the loop. -/
def next_int_scan : List Nat → Int → Bool → Except LoadError (Int × Bool × List Nat)
  | [], current, int_start => .ok (current, int_start, [])
  | c :: d, current, int_start =>
    if isDigit c then
      match ckd_mul current 10 with
      | none => .error .integerOverflow
      | some m =>
        match ckd_add m ((c : Int) - 48) with
        | none => .error .integerOverflow
        | some a => next_int_scan d a true
    else if int_start then .ok (current, int_start, c :: d)
    else next_int_scan d current int_start

/-- The function `next_int` (lines 36-68): the value returned and the new value of `*data`. -/
def next_int (data : List Nat) : Except LoadError (Int × List Nat) :=
  match next_int_scan data 0 false with
  | .error e => .error e
  | .ok (current, int_start, d) =>
    if int_start = false then .error .missingInteger else .ok (current, d)

/-- The function `next_int_from_c_str` (lines 72-76); `data` is the string up to its
terminating zero byte. -/
def next_int_from_c_str (data : List Nat) : Except LoadError Int :=
  match next_int data with
  | .error e => .error e
  | .ok (current, _) => .ok current

/-- The loop of lines 136-147 of `init_processes` with `n` iterations left: the records
`process[i]` read from `data`, the other fields zero as `calloc` leaves them. -/
def init_processes_loop : Nat → List Nat → Except LoadError (List Process)
  | 0, _ => .ok []
  | n + 1, data =>
    match next_int data with
    | .error e => .error e
    | .ok (pid, d1) =>
      match next_int d1 with
      | .error e => .error e
      | .ok (arrival_time, d2) =>
        match next_int d2 with
        | .error e => .error e
        | .ok (burst_time, d3) =>
          if burst_time = 0 then .error (.zeroBurst pid)
          else
            match init_processes_loop n d3 with
            | .error e => .error e
            | .ok rest => .ok (Process.input pid arrival_time burst_time :: rest)

/-- The function `init_processes` (lines 90-160) on the bytes `data` of the file. -/
def init_processes (data : List Nat) : Except LoadError (List Process) :=
  match next_int data with
  | .error e => .error e
  | .ok (nprocesses, d) =>
    if nprocesses ≤ 0 then .error .noProcesses
    else init_processes_loop nprocesses.toNat d

/-- The bytes of the string `median`. -/
def medianToken : List Nat := [109, 101, 100, 105, 97, 110]

/-- The function `main` (lines 243-366) on the bytes of the file and of the second argument,
with a bound on the number of loop iterations: the finished table and the two totals behind
the averages that are printed. -/
def main (fuel : Nat) (file arg : List Nat) :
    Except LoadError (Option (List Process × Int × Int)) :=
  match init_processes file with
  | .error e => .error e
  | .ok ps =>
    match (if arg = medianToken then .ok (-1) else next_int_from_c_str arg) with
    | .error e => .error e
    | .ok quantum_length =>
      if quantum_length = 0 then .error .zeroQuantum
      else
        .ok ((simulate fuel ps quantum_length).map
          (fun res => (res, total_wait_time res, total_response_time res)))

/-! ## The integers of a text, as the specification words them -/

/-- The bytes of a text before its first decimal digit. -/
def skipped (data : List Nat) : List Nat := data.takeWhile (fun c => !isDigit c)

/-- The first maximal run of decimal digits of a text. -/
def firstRun (data : List Nat) : List Nat :=
  (data.dropWhile (fun c => !isDigit c)).takeWhile isDigit

/-- The bytes of a text after its first maximal run of decimal digits. -/
def afterFirstRun (data : List Nat) : List Nat :=
  (data.dropWhile (fun c => !isDigit c)).dropWhile isDigit

/-- The number denoted by a run of decimal digits extended by the digit `c`, when the run
denotes `v`. -/
def digitStep (v : Int) (c : Nat) : Int := v * 10 + ((c : Int) - 48)

/-- The number that a run of decimal digits denotes. -/
def decimalValue (run : List Nat) : Int := run.foldl digitStep 0

/-- The maximal runs of decimal digits of a text after a run `cur` already begun. -/
def digitRunsFrom : List Nat → List Nat → List (List Nat)
  | cur, [] => if cur = [] then [] else [cur]
  | cur, c :: cs =>
    if isDigit c then digitRunsFrom (cur ++ [c]) cs
    else if cur = [] then digitRunsFrom [] cs
    else cur :: digitRunsFrom [] cs

/-- The maximal runs of decimal digits of a text, in order: the integers that the text
contains. -/
def digitRuns (data : List Nat) : List (List Nat) := digitRunsFrom [] data

/-- The `n` triples `(pid, arrival_time, burst_time)` that the runs `rs` denote, in order. -/
def triples (n : Nat) (rs : List (List Nat)) : List Process :=
  (List.range n).map (fun i =>
    Process.input (decimalValue (rs.getD (3 * i) [])) (decimalValue (rs.getD (3 * i + 1) []))
      (decimalValue (rs.getD (3 * i + 2) [])))

/-- The condition of the specification on the integers `rs` that follow the count `n` in the
text, with the table `ps` that is loaded: there are at least `3 * n` of them, none of the
first `3 * n` overflows a `long`, every third one is not zero, and `ps` is the `n` triples. -/
def LoadSpec (n : Nat) (rs : List (List Nat)) (ps : List Process) : Prop :=
  3 * n ≤ rs.length ∧ (∀ r ∈ rs.take (3 * n), decimalValue r ≤ LONG_MAX) ∧
    (∀ i, i < n → decimalValue (rs.getD (3 * i + 2) []) ≠ 0) ∧ ps = triples n rs

/-! ## The widths of `int` and `long`

The definitions above take the integers of the simulation as unbounded. The definitions
that follow, with names that end in `C`, are the same code with the widths of the platform:
an `int` has 32 bits and a `long` 64 bits, a conversion to a narrower type and an arithmetic
result that does not fit are reduced modulo 2^32 or 2^64 (two's complement). The counters
that wrap are the `int`s `t`, `num_arrived`, `num_processes_arrived` and `quantum_left` of
`main`, the parameter `qSize` and the result of `calculateQuantum`, and the `long`s of the
table and of `calculateMedian`. Indices into the table and into the array `x` are natural
numbers. -/

/-- The value `INT_MAX` of a 32-bit `int`. -/
def INT_MAX : Int := 2147483647

/-- The `int` nearest to `x` modulo 2^32: the conversion of a `long` to `int`, and the result
of an `int` operation whose exact value is `x`. -/
def toInt (x : Int) : Int := (x + 2147483648) % 4294967296 - 2147483648

/-- The `long` nearest to `x` modulo 2^64: the result of a `long` operation whose exact value
is `x`. -/
def toLong (x : Int) : Int :=
  (x + 9223372036854775808) % 18446744073709551616 - 9223372036854775808

/-- The function `calculateMedian (array, size)` (lines 171-188) with `long` arithmetic:
`middle1 + middle2` and `middle1 + middle2 + 1` are sums of two `long`s. -/
def calculateMedianC (array : List Int) : Option Int :=
  let size := array.length
  let sorted := qsort array
  if size % 2 = 1 then
    sorted[size / 2]?
  else
    match sorted[(size - 1) / 2]?, sorted[size / 2]? with
    | some middle1, some middle2 =>
      if (toLong (middle1 + middle2)).tmod 2 = 0 then
        some ((toLong (middle1 + middle2)).tdiv 2)
      else
        some ((toLong (toLong (middle1 + middle2) + 1)).tdiv 2)
    | _, _ => none

/-- The progress value `p->burst_time - p->remaining_time` (lines 224, 228), a difference
of two `long`s. -/
def progressC (p : Process) : Int := toLong (p.burst_time - p.remaining_time)

/-- The array `x` filled at lines 217-230, with `long` arithmetic. -/
def quantumSampleC (l : List Process) (working_process : Option Process)
    (num_processes_arrived : Int) (arrived_processes_added : Bool) : List Int :=
  (if arrived_processes_added = false then
      List.replicate num_processes_arrived.toNat (0 : Int) else [])
    ++ (match working_process with
        | some p => [progressC p]
        | none => [])
    ++ l.map progressC

/-- The function `calculateQuantum` (lines 190-240) with the widths of its types: the
argument for the parameter `int qSize` is converted to `int`, and so is the `long` value `m`
that the function, of result type `int`, returns at line 239. -/
def calculateQuantumC (medianMode : Bool) (l : List Process) (working_process : Option Process)
    (num_processes_arrived : Int) (arrived_processes_added : Bool) (qSize : Int) : Option Int :=
  if medianMode = false then
    some (toInt qSize)
  else
    let num_queued : Int :=
      (if working_process.isSome then 1 else 0) + (l.length : Int)
        + (if num_processes_arrived ≠ 0 ∧ arrived_processes_added = false
            then num_processes_arrived else 0)
    let x := quantumSampleC l working_process num_processes_arrived arrived_processes_added
    if num_queued < (x.length : Int) then
      none
    else
      match calculateMedianC x with
      | none => none
      | some m => some (toInt (if m = 0 then 1 else m))

/-- Lines 287-292 with the `int` counter `num_processes_arrived`. -/
def countArrivalsC (procs : List Process) (t : Int) : Int :=
  (List.range procs.length).foldl
    (fun c i => if (getP procs i).arrival_time = t then toInt (c + 1) else c) 0

/-- The body of the loops of lines 299-306 and 341-347 for index `i`, with the `int`
counter `num_arrived`. -/
def enqueueArrivalC (s : State) (i : Nat) : State :=
  if (getP s.procs i).arrival_time = s.t then
    { s with list := s.list ++ [i]
             num_arrived := toInt (s.num_arrived + 1)
             log := s.log ++ [Event.enq i s.t] }
  else s

/-- Lines 341-347 with the `int` counter `num_arrived`. -/
def enqueueArrivalsC (s : State) : State :=
  (List.range s.procs.length).foldl enqueueArrivalC s

/-- Lines 299-306 with the `int` counter `num_arrived`; the flag `arrived_processes_added`
is returned with the state. -/
def enqueueArrivalsFlagC (s : State) : State × Bool :=
  (List.range s.procs.length).foldl
    (fun (sb : State × Bool) i => (enqueueArrivalC sb.1 i, true)) (s, false)

/-- Lines 332 and 336: `p->remaining_time--` on a `long`. -/
def workProcC (procs : List Process) (i : Nat) : List Process :=
  updP procs i (fun p => { p with remaining_time := toLong (p.remaining_time - 1) })

/-- Lines 310-316 once the quantum `q` is computed and the list is `h :: rest`: the `long`
`quantum_length` is assigned to the `int` `quantum_left`. -/
def dispatchStepC (s : State) (h : Nat) (rest : List Nat) (q : Int) : State :=
  { s with
    quantum_length := q
    p := some h
    list := rest
    procs := markStart s.procs h s.t
    quantum_left := toInt q
    log := s.log ++ [Event.deq h s.t] }

/-- Lines 309-317 with the widths of the types. -/
def dispatchC (s : State) (num_processes_arrived : Int) (arrived_processes_added : Bool) :
    Except Fault State :=
  match calculateQuantumC s.median_mode (s.list.map (getP s.procs)) none
      num_processes_arrived arrived_processes_added s.quantum_length with
  | none => .error .badSample
  | some q =>
    match s.list with
    | [] => .error .emptyDequeue
    | h :: rest => .ok (dispatchStepC s h rest q)

/-- Lines 330-333 with the widths of the types. -/
def renewStepC (s : State) (i : Nat) (q : Int) : State :=
  { s with
    quantum_length := q
    quantum_left := toInt (toInt q - 1)
    procs := workProcC s.procs i }

/-- Lines 336-337 with the widths of the types. -/
def workStepC (s : State) (i : Nat) : State :=
  { s with
    procs := workProcC s.procs i
    quantum_left := toInt (s.quantum_left - 1) }

/-- Lines 319-338 with the widths of the types. -/
def executeC (s : State) (i : Nat) (num_processes_arrived : Int)
    (arrived_processes_added : Bool) : Except Fault State :=
  if (getP s.procs i).remaining_time = 0 then
    .ok (finishStep s i)
  else if s.quantum_left = 0 then
    if s.list ≠ [] then
      .ok (preemptStep s i)
    else
      match calculateQuantumC s.median_mode (s.list.map (getP s.procs)) (some (getP s.procs i))
          num_processes_arrived arrived_processes_added s.quantum_length with
      | none => .error .badSample
      | some q => .ok (renewStepC s i q)
  else
    .ok (workStepC s i)

/-- Line 349 (and line 296): `t++` on the `int` clock. -/
def advanceClockC (s : State) : State := { s with t := toInt (s.t + 1) }

/-- Lines 319-349 with the widths of the types. -/
def executeAndEnqueueC (s : State) (num_processes_arrived : Int)
    (arrived_processes_added : Bool) : Except Fault State :=
  match s.p with
  | none => .error .nullRunning
  | some i =>
    match executeC s i num_processes_arrived arrived_processes_added with
    | .error e => .error e
    | .ok s3 =>
      .ok (advanceClockC (if arrived_processes_added = false then enqueueArrivalsC s3 else s3))

/-- Lines 294-307 with the widths of the types. -/
def idleAdmissionC (s : State) (num_processes_arrived : Int) : Option (State × Bool) :=
  if s.list = [] ∧ s.p = none then
    if num_processes_arrived = 0 then none
    else some (enqueueArrivalsFlagC s)
  else some (s, false)

/-- One iteration of the loop body (lines 285-349) with the widths of the types. -/
def tickC (s : State) : Except Fault State :=
  let num_processes_arrived := countArrivalsC s.procs s.t
  match idleAdmissionC s num_processes_arrived with
  | none => .ok (advanceClockC s)
  | some (s1, arrived_processes_added) =>
    match s1.p with
    | none =>
      match dispatchC s1 num_processes_arrived arrived_processes_added with
      | .error e => .error e
      | .ok s2 => executeAndEnqueueC s2 num_processes_arrived arrived_processes_added
    | some _ => executeAndEnqueueC s1 num_processes_arrived arrived_processes_added

/-- The `while` loop of lines 284-351 with the widths of the types, for at most `fuel`
iterations. -/
def runLoopC : Nat → State → Outcome
  | 0, _ => .outOfFuel
  | fuel + 1, s =>
    if loopCond s then
      match tickC s with
      | .ok s' => runLoopC fuel s'
      | .error e => .fault e
    else .done s

/-- Lines 354-359 with `long` arithmetic. -/
def finalizeC (procs : List Process) : List Process :=
  procs.map (fun p => { p with
    waiting_time := toLong (toLong (p.finish_time - p.arrival_time) - p.burst_time)
    response_time := toLong (p.start_exec_time - p.arrival_time) })

/-- Lines 361-365 with `long` arithmetic: the total of the waiting times. -/
def total_wait_timeC (procs : List Process) : Int :=
  procs.foldl (fun total p => toLong (total + p.waiting_time)) 0

/-- Lines 361-365 with `long` arithmetic: the total of the response times. -/
def total_response_timeC (procs : List Process) : Int :=
  procs.foldl (fun total p => toLong (total + p.response_time)) 0

/-- The simulation of `main` (lines 260-359) with the widths of the types, with a bound on
the number of loop iterations. -/
def simulateC (fuel : Nat) (ps : List Process) (quantum_length : Int) :
    Option (List Process) :=
  match runLoopC fuel (mainInit ps quantum_length) with
  | .done s => some (finalizeC s.procs)
  | _ => none

/-- The states the loop reaches from `s0` with the widths of the types. -/
inductive ReachC (s0 : State) : State → Prop where
  | start : ReachC s0 s0
  | step {s s' : State} : ReachC s0 s → loopCond s → tickC s = .ok s' → ReachC s0 s'

/-- A state from which the rest of an iteration overflows no `int` and no `long`:
`arrived_processes_added` is the flag of the iteration, and the bound on `num_arrived` is
needed only while the arrivals of the tick are not inserted yet. -/
structure Fits (arrived_processes_added : Bool) (s : State) : Prop where
  t_lo : 0 ≤ s.t
  t_hi : s.t < 2147483647
  len : (s.procs.length : Int) ≤ 2147483647
  arr : arrived_processes_added = false →
    0 ≤ s.num_arrived ∧
      s.num_arrived + ((arrivingNow s.procs s.t).length : Int) ≤ 2147483647
  rem : ∀ i, 0 ≤ (getP s.procs i).remaining_time ∧
    (getP s.procs i).remaining_time ≤ (getP s.procs i).burst_time ∧
    (getP s.procs i).burst_time ≤ 2147483647
  qlen : 1 ≤ s.quantum_length ∧ s.quantum_length ≤ 2147483647
  qleft : s.p ≠ none → 0 ≤ s.quantum_left ∧ s.quantum_left ≤ 2147483647

/-- A table and a quantum argument on which no `int` of the simulation overflows: the bound
`fuelBound` on the number of iterations, which is twice the sum of the burst times plus the
number of processes plus the latest arrival time plus 2, is at most `INT_MAX`, and so is the
quantum argument. -/
def InRange (ps : List Process) (quantum_length : Int) : Prop :=
  (fuelBound ps : Int) ≤ INT_MAX ∧ quantum_length ≤ INT_MAX

instance (ps : List Process) (q : Int) : Decidable (InRange ps q) := by
  unfold InRange; infer_instance

/-! ## Example states of runs with the widths of the types -/

/-- The run on one process with arrival time `INT_MAX` and burst time 1, fixed quantum 1,
after `INT_MAX` iterations without an arrival. -/
def exampleLastTick : State :=
  { mainInit [Process.input 1 2147483647 1] 1 with t := 2147483647 }

/-- The next state of that run: the process was dispatched at tick `INT_MAX`, has done its
unit of work, and the clock has overflowed. -/
def exampleWrapped : State :=
  { procs := [⟨1, 2147483647, 1, 0, 2147483647, 0, 0, 0⟩], list := [], p := some 0,
    t := -2147483648, num_arrived := 1, quantum_left := 0, quantum_length := 1,
    median_mode := false, log := [Event.enq 0 2147483647, Event.deq 0 2147483647] }

/-- The state of that run at the exit of the loop. -/
def exampleWrappedExit : State :=
  { procs := [⟨1, 2147483647, 1, 0, 2147483647, 0, 0, -2147483648⟩], list := [], p := none,
    t := -2147483647, num_arrived := 1, quantum_left := 0, quantum_length := 1,
    median_mode := false,
    log := [Event.enq 0 2147483647, Event.deq 0 2147483647, Event.fin 0 (-2147483648)] }

/-- At most `n` iterations of the loop with the widths of the types: the state after `n`
iterations, if the loop condition holds at each of them and none fails. -/
def ticksC : Nat → State → Option State
  | 0, s => some s
  | n + 1, s =>
    if loopCond s then
      match tickC s with
      | .ok s' => ticksC n s'
      | .error _ => none
    else none

/-- The run with fixed quantum 1 on two processes (pid 1: arrival 0, burst 3; pid 2:
arrival 0, burst 2) at the head of the iteration of tick 1: the first process runs, its
quantum is used up, and the second process waits in the list. -/
def examplePreempting : State :=
  { procs := [⟨1, 0, 3, 2, 0, 0, 0, 0⟩, ⟨2, 0, 2, 2, -1, 0, 0, 0⟩], list := [1], p := some 0,
    t := 1, num_arrived := 2, quantum_left := 0, quantum_length := 1, median_mode := false,
    log := [Event.enq 0 0, Event.enq 1 0, Event.deq 0 0] }

/-- The run with fixed quantum 2 on three processes that arrive at tick 0 (burst times 1, 2
and 1) at the head of the iteration of tick 3: the first process is finished, the second
runs, the third waits in the list. -/
def examplePartition : State :=
  { procs := [⟨1, 0, 1, 0, 0, 0, 0, 1⟩, ⟨2, 0, 2, 1, 2, 0, 0, 0⟩, ⟨3, 0, 1, 1, -1, 0, 0, 0⟩],
    list := [2], p := some 1, t := 3, num_arrived := 3, quantum_left := 1,
    quantum_length := 2, median_mode := false,
    log := [Event.enq 0 0, Event.enq 1 0, Event.enq 2 0, Event.deq 0 0, Event.fin 0 1,
      Event.deq 1 2] }

/-- The run with the quantum argument 4294967296 on two processes that arrive at tick 0 with
burst time 1, after the iteration of tick 0: the quantum was narrowed to 0, the first process
was dispatched and went back to the list in the same iteration, behind the second. -/
def exampleLivelock : State :=
  { procs := [⟨1, 0, 1, 1, 0, 0, 0, 0⟩, ⟨2, 0, 1, 1, -1, 0, 0, 0⟩], list := [1, 0], p := none,
    t := 1, num_arrived := 2, quantum_left := 0, quantum_length := 0, median_mode := false,
    log := [Event.enq 0 0, Event.enq 1 0, Event.deq 0 0, Event.enq 0 0] }

/-- A state from which the loop with the widths of the types never ends: the quantum is fixed
at 0, nothing runs, at least two processes wait in the list, every process has work left and
an arrival time that is not negative, and no `finish_time` was assigned. Every iteration
dispatches the head of the list and puts it back at the tail without any work done. -/
structure Livelock (s : State) : Prop where
  p_none : s.p = none
  two : 2 ≤ s.list.length
  list_ok : ∀ i ∈ s.list, i < s.procs.length
  rem : ∀ i, i < s.procs.length → (getP s.procs i).remaining_time ≠ 0
  arrived : ∀ i, 0 ≤ (getP s.procs i).arrival_time
  qlen : s.quantum_length = 0
  fixed : s.median_mode = false
  unfinished : ∀ i, finTimes s.log i = []

/-- The run with the quantum argument 4294967296 on one process (arrival 0, burst 2) after
the iteration of tick 0: the quantum granted at the dispatch is 0, it is renewed at once
with 0 again, and the counter is -1 after the unit of work. -/
def exampleZeroQuantum : State :=
  { procs := [⟨1, 0, 2, 1, 0, 0, 0, 0⟩], list := [], p := some 0, t := 1, num_arrived := 1,
    quantum_left := -1, quantum_length := 0, median_mode := false,
    log := [Event.enq 0 0, Event.deq 0 0] }

/-- The run with fixed quantum 1 on two processes (pid 1: arrival `INT_MAX - 1`, burst 1;
pid 2: arrival `INT_MAX`, burst 1) at the head of the iteration of tick `INT_MAX`: the first
process runs and has no work left, the second arrives in this tick. -/
def exampleLateRelease : State :=
  { procs := [⟨1, 2147483646, 1, 0, 2147483646, 0, 0, 0⟩, ⟨2, 2147483647, 1, 1, -1, 0, 0, 0⟩],
    list := [], p := some 0, t := 2147483647, num_arrived := 1, quantum_left := 0,
    quantum_length := 1, median_mode := false,
    log := [Event.enq 0 2147483646, Event.deq 0 2147483646] }

/-- The run on two processes (pid 1: arrival 0, burst 4; pid 2: arrival 1, burst 2) with a
fixed quantum that is `v` as an `int`, after the iteration of tick 0: the first process was
dispatched and has done one unit of work. -/
def examplePair (v : Int) : State :=
  { procs := [⟨1, 0, 4, 3, 0, 0, 0, 0⟩, ⟨2, 1, 2, 2, -1, 0, 0, 0⟩], list := [], p := some 0,
    t := 1, num_arrived := 1, quantum_left := toInt (v - 1), quantum_length := v,
    median_mode := false, log := [Event.enq 0 0, Event.deq 0 0] }

/-- The run with fixed quantum 1 on two processes (pid 1: arrival 0, burst 1; pid 2: arrival
2147483648, which no value of the `int` clock equals, burst 1) at the head of the iteration
of tick 2: the first process is finished, nothing runs and the list is empty. -/
def exampleReleased : State :=
  { procs := [⟨1, 0, 1, 0, 0, 0, 0, 1⟩, ⟨2, 2147483648, 1, 1, -1, 0, 0, 0⟩], list := [],
    p := none, t := 2, num_arrived := 1, quantum_left := 0, quantum_length := 1,
    median_mode := false, log := [Event.enq 0 0, Event.deq 0 0, Event.fin 0 1] }

/-- The state of that run at the exit of the loop, 4294967296 iterations after the start:
the clock has come back to 0, the first process was inserted and dispatched a second time,
and its `finish_time` was assigned a second time. -/
def exampleReadmitted : State :=
  { procs := [⟨1, 0, 1, 0, 0, 0, 0, 0⟩, ⟨2, 2147483648, 1, 1, -1, 0, 0, 0⟩], list := [],
    p := none, t := 1, num_arrived := 2, quantum_left := 1, quantum_length := 1,
    median_mode := false,
    log := [Event.enq 0 0, Event.deq 0 0, Event.fin 0 1, Event.enq 0 0, Event.deq 0 0,
      Event.fin 0 0] }

/-- A state from which the loop with the widths of the types never ends: the quantum is fixed
at 0, nothing runs, and at least two processes of the list have work left. -/
structure Stuck (s : State) : Prop where
  p_none : s.p = none
  qlen : s.quantum_length = 0
  fixed : s.median_mode = false
  two : 2 ≤ (s.list.filter (fun i => decide ((getP s.procs i).remaining_time ≠ 0))).length

/-- The run with the quantum argument 4294967296 on three processes (pid 1: arrival 0,
burst 1; pids 2 and 3: arrival 1, burst 1) at the head of the iteration of tick 1: the first
process runs and has no work left, the list is empty, and the other two arrive. -/
def exampleCrowded : State :=
  { procs := [⟨1, 0, 1, 0, 0, 0, 0, 0⟩, ⟨2, 1, 1, 1, -1, 0, 0, 0⟩, ⟨3, 1, 1, 1, -1, 0, 0, 0⟩],
    list := [], p := some 0, t := 1, num_arrived := 1, quantum_left := -1,
    quantum_length := 0, median_mode := false, log := [Event.enq 0 0, Event.deq 0 0] }

/-! ## The median -/

theorem compareLongs_le_zero (a b : Int) : compareLongs a b ≤ 0 ↔ a ≤ b := by
  unfold compareLongs
  split_ifs <;> omega

theorem orderedInsert_compareLongs (a : Int) (l : List Int) :
    l.orderedInsert (fun a b => compareLongs a b ≤ 0) a = l.orderedInsert (· ≤ ·) a := by
  induction l with
  | nil => rfl
  | cons b l ih =>
    by_cases h : a ≤ b
    · simp [List.orderedInsert, compareLongs_le_zero, h]
    · simp [List.orderedInsert, compareLongs_le_zero, h, ih]

theorem qsort_eq (xs : List Int) : qsort xs = xs.insertionSort (· ≤ ·) := by
  unfold qsort
  induction xs with
  | nil => rfl
  | cons a l ih => simp only [List.insertionSort, ih, orderedInsert_compareLongs]

theorem qsort_perm (xs : List Int) : (qsort xs).Perm xs := by
  rw [qsort_eq]; exact List.perm_insertionSort _ xs

theorem qsort_sorted (xs : List Int) : (qsort xs).Sorted (· ≤ ·) := by
  rw [qsort_eq]; exact List.sorted_insertionSort _ xs

theorem qsort_length (xs : List Int) : (qsort xs).length = xs.length :=
  (qsort_perm xs).length_eq

theorem qsort_unique (xs s : List Int) (hperm : s.Perm xs) (hsorted : s.Sorted (· ≤ ·)) :
    s = qsort xs :=
  List.eq_of_perm_of_sorted (hperm.trans (qsort_perm xs).symm) hsorted (qsort_sorted xs)

theorem tmod_two_eq_zero (x : Int) : x.tmod 2 = 0 ↔ x % 2 = 0 := by
  rw [← Int.dvd_iff_tmod_eq_zero, Int.dvd_iff_emod_eq_zero]

theorem tdiv_two_of_even (x : Int) (h : x % 2 = 0) : x.tdiv 2 = x / 2 := by
  have h1 : x.tdiv 2 * 2 = x := Int.tdiv_mul_cancel (Int.dvd_of_emod_eq_zero h)
  omega

/-- The value of `calculateMedian` read off the sorted array. -/
theorem calculateMedian_eq (xs : List Int) (hne : xs ≠ []) :
    ∃ a b, (qsort xs)[(xs.length - 1) / 2]? = some a ∧ (qsort xs)[xs.length / 2]? = some b ∧
      a ≤ b ∧
      calculateMedian xs = some
        (if xs.length % 2 = 1 then b
         else if (a + b) % 2 = 0 then (a + b) / 2 else (a + b + 1) / 2) := by
  have hlen : 0 < xs.length := List.length_pos.mpr hne
  have hq := qsort_length xs
  have h1 : (xs.length - 1) / 2 < (qsort xs).length := by omega
  have h2 : xs.length / 2 < (qsort xs).length := by omega
  refine ⟨(qsort xs)[(xs.length - 1) / 2], (qsort xs)[xs.length / 2],
    List.getElem?_eq_getElem h1, List.getElem?_eq_getElem h2, ?_, ?_⟩
  · have hs := qsort_sorted xs
    rcases Nat.lt_or_ge ((xs.length - 1) / 2) (xs.length / 2) with hlt | hge
    · exact List.pairwise_iff_getElem.mp hs _ _ h1 h2 hlt
    · have : (xs.length - 1) / 2 = xs.length / 2 := by omega
      simp [this]
  · unfold calculateMedian
    simp only [List.getElem?_eq_getElem h1, List.getElem?_eq_getElem h2]
    simp only [tmod_two_eq_zero]
    split_ifs with hodd hev
    · rfl
    · rw [tdiv_two_of_even _ hev]
    · rw [tdiv_two_of_even _ (by omega)]

theorem calculateMedian_isSome (xs : List Int) (hne : xs ≠ []) :
    ∃ m, calculateMedian xs = some m := by
  obtain ⟨a, b, -, -, -, h⟩ := calculateMedian_eq xs hne
  exact ⟨_, h⟩

theorem calculateMedian_nil : calculateMedian [] = none := by
  simp [calculateMedian, qsort]

theorem calculateMedian_nonneg (xs : List Int) (hpos : ∀ x ∈ xs, 0 ≤ x) (m : Int)
    (h : calculateMedian xs = some m) : 0 ≤ m := by
  have hne : xs ≠ [] := by
    rintro rfl
    simp [calculateMedian_nil] at h
  obtain ⟨a, b, ha, hb, hab, hm⟩ := calculateMedian_eq xs hne
  have ha0 : 0 ≤ a := hpos a ((qsort_perm xs).subset (List.getElem?_mem ha))
  have hb0 : 0 ≤ b := hpos b ((qsort_perm xs).subset (List.getElem?_mem hb))
  rw [hm] at h
  injection h with h
  subst h
  split_ifs <;> omega

/-- With unbounded integers:
for a non-empty array, `calculateMedian` returns the middle element of the ascending
sorted array when the size is odd; when the size is even, with `a ≤ b` the two middle elements
of the sorted array, it returns `(a+b)/2` if `a+b` is even and `(a+b+1)/2` if `a+b` is odd,
that is the average of `a` and `b` rounded up to the next integer. -/
theorem calculateMedian_spec (xs s : List Int) (hne : xs ≠ []) (hperm : s.Perm xs)
    (hsorted : s.Sorted (· ≤ ·)) :
    (xs.length % 2 = 1 →
      ∃ m, s[xs.length / 2]? = some m ∧ calculateMedian xs = some m) ∧
    (xs.length % 2 = 0 →
      ∃ a b, s[xs.length / 2 - 1]? = some a ∧ s[xs.length / 2]? = some b ∧ a ≤ b ∧
        ((a + b) % 2 = 0 → calculateMedian xs = some ((a + b) / 2)) ∧
        ((a + b) % 2 = 1 → calculateMedian xs = some ((a + b + 1) / 2)) ∧
        ∃ m, calculateMedian xs = some m ∧ a + b ≤ 2 * m ∧ 2 * m < a + b + 2) := by
  obtain rfl := qsort_unique xs s hperm hsorted
  obtain ⟨a, b, ha, hb, hab, hm⟩ := calculateMedian_eq xs hne
  constructor
  · intro hodd
    exact ⟨b, hb, by rw [hm, if_pos hodd]⟩
  · intro hev
    have hidx : (xs.length - 1) / 2 = xs.length / 2 - 1 := by
      have : 0 < xs.length := List.length_pos.mpr hne
      omega
    rw [hidx] at ha
    have hodd : ¬ xs.length % 2 = 1 := by omega
    rw [if_neg hodd] at hm
    refine ⟨a, b, ha, hb, hab, ?_, ?_, ?_⟩
    · intro h; rw [hm, if_pos h]
    · intro h; rw [hm, if_neg (by omega)]
    · refine ⟨_, hm, ?_, ?_⟩ <;> split_ifs <;> omega

/-! ## The quantum calculator -/

theorem quantumSample_length (l : List Process) (wp : Option Process) (npa : Int)
    (added : Bool) (hn : 0 ≤ npa) :
    ((quantumSample l wp npa added).length : Int)
      = (if wp.isSome then 1 else 0) + (l.length : Int)
        + (if npa ≠ 0 ∧ added = false then npa else 0) := by
  unfold quantumSample
  cases wp <;> cases added <;> simp <;> omega

/-- The value of `calculateQuantum` when the count of arrivals is not negative. -/
theorem calculateQuantum_eq (mm : Bool) (l : List Process) (wp : Option Process) (npa : Int)
    (added : Bool) (qSize : Int) (hn : 0 ≤ npa) :
    calculateQuantum mm l wp npa added qSize =
      if mm = false then some qSize
      else (calculateMedian (quantumSample l wp npa added)).map
        (fun m => if m = 0 then 1 else m) := by
  unfold calculateQuantum
  have hlen := quantumSample_length l wp npa added hn
  cases mm
  · rfl
  · have hlt : ¬ ((if wp.isSome then 1 else 0) + (l.length : Int)
        + (if npa ≠ 0 ∧ added = false then npa else 0)
        < ((quantumSample l wp npa added).length : Int)) := by omega
    simp only [if_neg hlt, Bool.true_eq_false, if_false]
    cases calculateMedian (quantumSample l wp npa added) <;> rfl

theorem quantumSample_nonneg (l : List Process) (wp : Option Process) (npa : Int)
    (added : Bool) (hl : ∀ p ∈ l, p.remaining_time ≤ p.burst_time)
    (hw : ∀ p, wp = some p → p.remaining_time ≤ p.burst_time) :
    ∀ x ∈ quantumSample l wp npa added, 0 ≤ x := by
  intro x hx
  unfold quantumSample at hx
  simp only [List.mem_append, List.mem_map] at hx
  rcases hx with (hx | hx) | ⟨p, hp, rfl⟩
  · split_ifs at hx
    · rw [List.mem_replicate] at hx; omega
    · simp at hx
  · cases wp with
    | none => simp at hx
    | some p =>
      simp only [List.mem_singleton] at hx
      have := hw p rfl
      unfold progress at hx; omega
  · have := hl p hp
    unfold progress; omega

theorem length_updP (procs : List Process) (i : Nat) (f : Process → Process) :
    (updP procs i f).length = procs.length := by
  simp [updP]

theorem getP_updP_self (procs : List Process) (i : Nat) (f : Process → Process)
    (hi : i < procs.length) : getP (updP procs i f) i = f (getP procs i) := by
  simp [updP, getP, List.getD_eq_getElem?_getD, List.getElem?_set, hi]

theorem getP_updP_ne (procs : List Process) (i j : Nat) (f : Process → Process)
    (hij : j ≠ i) : getP (updP procs i f) j = getP procs j := by
  simp [updP, getP, List.getD_eq_getElem?_getD, List.getElem?_set, Ne.symm hij]

theorem getP_updP (procs : List Process) (i j : Nat) (f : Process → Process)
    (hi : i < procs.length) :
    getP (updP procs i f) j = if j = i then f (getP procs i) else getP procs j := by
  split_ifs with h
  · subst h; exact getP_updP_self procs j f hi
  · exact getP_updP_ne procs i j f h

theorem getP_mem (procs : List Process) (i : Nat) (hi : i < procs.length) :
    getP procs i ∈ procs := by
  simp only [getP, List.getD_eq_getElem?_getD, List.getElem?_eq_getElem hi, Option.getD_some]
  exact List.getElem_mem hi

theorem getP_initProcesses (ps : List Process) (i : Nat) (hi : i < ps.length) :
    getP (initProcesses ps) i =
      { getP ps i with start_exec_time := -1, remaining_time := (getP ps i).burst_time } := by
  simp [getP, initProcesses, List.getD_eq_getElem?_getD, List.getElem?_eq_getElem hi]

/-! ## The arrival loops -/

theorem mem_arrivingNow (procs : List Process) (t : Int) (i : Nat) :
    i ∈ arrivingNow procs t ↔ i < procs.length ∧ (getP procs i).arrival_time = t := by
  simp [arrivingNow]

theorem mem_arrivedBefore (procs : List Process) (h : Int) (i : Nat) :
    i ∈ arrivedBefore procs h ↔ i < procs.length ∧ (getP procs i).arrival_time < h := by
  simp [arrivedBefore]

theorem arrivingNow_nodup (procs : List Process) (t : Int) : (arrivingNow procs t).Nodup :=
  (List.nodup_range _).filter _

theorem arrivingNow_sorted (procs : List Process) (t : Int) :
    (arrivingNow procs t).Sorted (· < ·) :=
  (List.sorted_lt_range _).filter _

theorem arrivingNow_congr (p1 p2 : List Process) (t : Int) (hlen : p1.length = p2.length)
    (h : ∀ i, (getP p1 i).arrival_time = (getP p2 i).arrival_time) :
    arrivingNow p1 t = arrivingNow p2 t := by
  simp [arrivingNow, hlen, h]

theorem arrivedBefore_succ_length (procs : List Process) (h : Int) :
    (arrivedBefore procs (h + 1)).length
      = (arrivedBefore procs h).length + (arrivingNow procs h).length := by
  unfold arrivedBefore arrivingNow
  induction List.range procs.length with
  | nil => rfl
  | cons a l ih =>
    simp only [List.filter_cons]
    by_cases h1 : (getP procs a).arrival_time < h
    · have h2 : (getP procs a).arrival_time < h + 1 := by omega
      have h3 : ¬ (getP procs a).arrival_time = h := by omega
      simp [h1, h2, h3, ih]; omega
    · by_cases h3 : (getP procs a).arrival_time = h
      · have h2 : (getP procs a).arrival_time < h + 1 := by omega
        simp [h1, h2, h3]
        simp [h3] at ih
        omega
      · have h2 : ¬ (getP procs a).arrival_time < h + 1 := by omega
        simp [h1, h2, h3, ih]

theorem arrivedBefore_length_le (procs : List Process) (h : Int) :
    (arrivedBefore procs h).length ≤ procs.length := by
  unfold arrivedBefore
  exact (List.length_filter_le _ _).trans (by simp)

theorem countArrivals_eq (procs : List Process) (t : Int) :
    countArrivals procs t = ((arrivingNow procs t).length : Int) := by
  unfold countArrivals arrivingNow
  have key : ∀ (l : List Nat) (c : Int),
      l.foldl (fun c i => if (getP procs i).arrival_time = t then c + 1 else c) c
        = c + ((l.filter (fun i => decide ((getP procs i).arrival_time = t))).length : Int) := by
    intro l
    induction l with
    | nil => intro c; simp
    | cons a l ih =>
      intro c
      simp only [List.foldl_cons, List.filter_cons]
      rw [ih]
      by_cases h : (getP procs a).arrival_time = t
      · simp [h]; omega
      · simp [h]
  rw [key]; simp

theorem foldl_enqueueArrival (l : List Nat) (s : State) :
    l.foldl enqueueArrival s =
      { s with
        list := s.list ++ l.filter (fun i => decide ((getP s.procs i).arrival_time = s.t))
        num_arrived := s.num_arrived
          + ((l.filter (fun i => decide ((getP s.procs i).arrival_time = s.t))).length : Int)
        log := s.log
          ++ (l.filter (fun i => decide ((getP s.procs i).arrival_time = s.t))).map
              (fun i => Event.enq i s.t) } := by
  induction l generalizing s with
  | nil => simp
  | cons a l ih =>
    simp only [List.foldl_cons, List.filter_cons]
    rw [ih]
    by_cases h : (getP s.procs a).arrival_time = s.t
    · simp [enqueueArrival, h]; omega
    · simp [enqueueArrival, h]

theorem enqueueArrivals_eq (s : State) :
    enqueueArrivals s =
      { s with
        list := s.list ++ arrivingNow s.procs s.t
        num_arrived := s.num_arrived + ((arrivingNow s.procs s.t).length : Int)
        log := s.log ++ (arrivingNow s.procs s.t).map (fun i => Event.enq i s.t) } := by
  unfold enqueueArrivals arrivingNow
  exact foldl_enqueueArrival _ s

theorem enqueueArrivalsFlag_eq (s : State) :
    enqueueArrivalsFlag s = (enqueueArrivals s, decide (0 < s.procs.length)) := by
  unfold enqueueArrivalsFlag enqueueArrivals
  have key : ∀ (l : List Nat) (sb : State × Bool),
      l.foldl (fun (sb : State × Bool) i => (enqueueArrival sb.1 i, true)) sb
        = (l.foldl enqueueArrival sb.1, sb.2 || decide (0 < l.length)) := by
    intro l
    induction l with
    | nil => intro sb; simp
    | cons a l ih => intro sb; simp [ih]
  rw [key]; simp

/-! ## The loop -/

theorem runLoop_add (k : Nat) (fuel : Nat) (s s' : State) (h : runLoop fuel s = .done s') :
    runLoop (fuel + k) s = .done s' := by
  induction fuel generalizing s with
  | zero => simp [runLoop] at h
  | succ n ih =>
    rw [Nat.add_right_comm]
    unfold runLoop at h ⊢
    split_ifs at h ⊢ with hc
    · cases ht : tick s with
      | error e => simp [ht] at h
      | ok s1 =>
        simp only [ht] at h ⊢
        exact ih s1 h
    · exact h

theorem runLoop_unique (f1 f2 : Nat) (s s1 s2 : State) (h1 : runLoop f1 s = .done s1)
    (h2 : runLoop f2 s = .done s2) : s1 = s2 := by
  have a := runLoop_add f2 f1 s s1 h1
  have b := runLoop_add f1 f2 s s2 h2
  rw [Nat.add_comm] at b
  rw [a] at b
  injection b

theorem Reach.head {s s1 s' : State} (hc : loopCond s) (ht : tick s = .ok s1)
    (h : Reach s1 s') : Reach s s' := by
  induction h with
  | start => exact Reach.step Reach.start hc ht
  | step _ hc2 ht2 ih2 => exact Reach.step ih2 hc2 ht2

theorem Reach.trans {s0 s1 s2 : State} (h1 : Reach s0 s1) (h2 : Reach s1 s2) :
    Reach s0 s2 := by
  induction h2 with
  | start => exact h1
  | step _ hc ht ih => exact Reach.step ih hc ht

theorem runLoop_exit (fuel : Nat) (s s' : State) (h : runLoop fuel s = .done s') :
    ¬ loopCond s' ∧ Reach s s' := by
  induction fuel generalizing s with
  | zero => simp [runLoop] at h
  | succ n ih =>
    unfold runLoop at h
    split_ifs at h with hc
    · cases ht : tick s with
      | error e => simp [ht] at h
      | ok s1 =>
        simp only [ht] at h
        obtain ⟨h1, h2⟩ := ih s1 h
        exact ⟨h1, Reach.head hc ht h2⟩
    · injection h with h
      subst h
      exact ⟨hc, Reach.start⟩

theorem simulate_add (k fuel : Nat) (ps : List Process) (q : Int) (res : List Process)
    (h : simulate fuel ps q = some res) : simulate (fuel + k) ps q = some res := by
  unfold simulate at h ⊢
  cases hr : runLoop fuel (mainInit ps q) with
  | done s =>
    rw [hr] at h
    rw [runLoop_add k fuel _ s hr]
    exact h
  | fault e => simp [hr] at h
  | outOfFuel => simp [hr] at h

theorem simulate_unique (f1 f2 : Nat) (ps : List Process) (q : Int) (r1 r2 : List Process)
    (h1 : simulate f1 ps q = some r1) (h2 : simulate f2 ps q = some r2) : r1 = r2 := by
  have a := simulate_add f2 f1 ps q r1 h1
  have b := simulate_add f1 f2 ps q r2 h2
  rw [Nat.add_comm] at b
  rw [a] at b
  injection b

/-! ## Two processes, fixed quantum 2 -/

theorem simulate_two_equal : simulate 13 [Process.input 1 0 4, Process.input 2 0 4] 2
    = some [⟨1, 0, 4, 0, 0, 4, 0, 8⟩, ⟨2, 0, 4, 0, 3, 7, 3, 11⟩] := by
  decide

/-- C3 fails as stated: no run on the two processes (arrival 0, burst 4) with quantum 2
gives B a response time of 2, both finish times at most 8 and both waiting times 2. -/
theorem two_equal_counterexample :
    ¬ ∃ (fuel : Nat) (res : List Process),
      simulate fuel [Process.input 1 0 4, Process.input 2 0 4] 2 = some res ∧
      (getP res 0).response_time = 0 ∧ (getP res 1).response_time = 2 ∧
      (getP res 0).finish_time ≤ 8 ∧ (getP res 1).finish_time ≤ 8 ∧
      (getP res 0).waiting_time = 2 ∧ (getP res 1).waiting_time = 2 := by
  rintro ⟨fuel, res, hres, -, h, -⟩
  obtain rfl := simulate_unique _ _ _ _ _ _ hres simulate_two_equal
  revert h
  decide

/-- C3, as amended. On the two processes A and B (arrival 0, burst 4) with fixed quantum 2
the run ends, A has response time 0 and B response time 3, A finishes at 8 and B at 11, and
the waiting times are 4 for A and 7 for B. -/
theorem two_equal_result :
    ∃ res, (∀ k, simulate (13 + k) [Process.input 1 0 4, Process.input 2 0 4] 2 = some res) ∧
      (getP res 0).response_time = 0 ∧ (getP res 1).response_time = 3 ∧
      (getP res 0).finish_time = 8 ∧ (getP res 1).finish_time = 11 ∧
      (getP res 0).waiting_time = 4 ∧ (getP res 1).waiting_time = 7 :=
  ⟨_, fun k => simulate_add k 13 _ _ _ simulate_two_equal,
    by decide, by decide, by decide, by decide, by decide, by decide⟩

/-! ## The quantum granted -/

theorem calculateQuantum_ge_one (mm : Bool) (l : List Process) (wp : Option Process)
    (npa : Int) (added : Bool) (qSize : Int) (hn : 0 ≤ npa) (hq : 1 ≤ qSize)
    (hl : ∀ p ∈ l, p.remaining_time ≤ p.burst_time)
    (hw : ∀ p, wp = some p → p.remaining_time ≤ p.burst_time)
    (hne : l ≠ [] ∨ wp ≠ none) :
    ∃ q, calculateQuantum mm l wp npa added qSize = some q ∧ 1 ≤ q ∧
      (mm = false → q = qSize) := by
  rw [calculateQuantum_eq mm l wp npa added qSize hn]
  cases mm
  · exact ⟨qSize, rfl, hq, fun _ => rfl⟩
  · have hsne : quantumSample l wp npa added ≠ [] := by
      unfold quantumSample
      rcases hne with h | h
      · simp [h]
      · cases wp with
        | none => exact absurd rfl h
        | some p => simp
    obtain ⟨m, hm⟩ := calculateMedian_isSome _ hsne
    have h0 := calculateMedian_nonneg _ (quantumSample_nonneg l wp npa added hl hw) m hm
    refine ⟨if m = 0 then 1 else m, by simp [hm], ?_, fun h => by simp at h⟩
    split_ifs <;> omega

/-! ## The core invariant -/

theorem InvCore.core_init (ps : List Process) (q : Int) (hv : ValidInput ps)
    (hq : ValidQuantum q) : InvCore 0 (mainInit ps q) := by
  have hlen : (initProcesses ps).length = ps.length := by simp [initProcesses]
  have hget : ∀ i, i < ps.length → 0 ≤ (getP ps i).arrival_time ∧ 1 ≤ (getP ps i).burst_time :=
    fun i hi => hv.2 _ (getP_mem ps i hi)
  constructor
  · intro i hi
    simp only [mainInit, hlen] at hi ⊢
    rw [getP_initProcesses ps i hi]
    exact hget i hi
  · simp [mainInit]
  · simp [mainInit]
  · intro i hi
    simp only [mainInit, hlen] at hi ⊢
    rw [getP_initProcesses ps i hi]
    have := hget i hi
    simp only
    omega
  · simp only [mainInit]
    rcases hq with h | h
    · simp [h]
    · split_ifs <;> omega
  · simp [mainInit]
  · simp [mainInit]
  · simp [mainInit]
  · simp [mainInit]
  · simp only [mainInit]
    have : arrivedBefore (initProcesses ps) 0 = [] := by
      rw [List.eq_nil_iff_forall_not_mem]
      intro i hi
      rw [mem_arrivedBefore, hlen] at hi
      rw [getP_initProcesses ps i hi.1] at hi
      have := hget i hi.1
      simp only at hi
      omega
    simp [this]
  · intro i hi _
    simp only [mainInit, hlen] at hi ⊢
    rw [getP_initProcesses ps i hi]
  · intro i hi h
    simp only [mainInit, hlen] at hi h
    rw [getP_initProcesses ps i hi] at h
    have := hget i hi
    simp only at h
    omega

theorem InvCore.core_enqueue {s : State} (h : InvCore s.t s) :
    InvCore (s.t + 1) (enqueueArrivals s) := by
  rw [enqueueArrivals_eq]
  constructor
  · exact h.valid
  · exact h.t_nonneg
  · simp
  · exact h.rem_range
  · exact h.qlen
  · exact h.qleft
  · intro i hi
    simp only [List.mem_append] at hi
    dsimp only
    rcases hi with hi | hi
    · have := h.list_ok i hi
      exact ⟨this.1, by omega, this.2.2⟩
    · rw [mem_arrivingNow] at hi
      have h1 := h.unarrived i hi.1 (by omega)
      have h2 := h.valid i hi.1
      exact ⟨hi.1, by omega, by omega⟩
  · simp only
    rw [List.nodup_append]
    refine ⟨h.list_nodup, arrivingNow_nodup _ _, ?_⟩
    intro i hi hi2
    have := h.list_ok i hi
    rw [mem_arrivingNow] at hi2
    omega
  · intro i hi
    have := h.p_ok i hi
    dsimp only
    refine ⟨this.1, by omega, ?_⟩
    simp only [List.mem_append, mem_arrivingNow]
    rintro (h1 | h1)
    · exact this.2.2 h1
    · omega
  · simp only
    rw [arrivedBefore_succ_length, h.num_arr]
    push_cast
    rfl
  · intro i hi hi2
    exact h.unarrived i hi (by simp only at hi2; omega)
  · intro i hi hi2 hi3 hi4
    simp only [List.mem_append, mem_arrivingNow, not_or, not_and] at hi3
    have := hi3.2 hi
    exact h.done_rem i hi (by simp only at hi2; omega) hi3.1 hi4

theorem InvCore.core_advance {s : State} (h : InvCore (s.t + 1) s) :
    InvCore (advanceClock s).t (advanceClock s) := by
  constructor
  · exact h.valid
  · have := h.t_nonneg; simp only [advanceClock]; omega
  · simp [advanceClock]
  · exact h.rem_range
  · exact h.qlen
  · exact h.qleft
  · exact h.list_ok
  · exact h.list_nodup
  · exact h.p_ok
  · exact h.num_arr
  · exact h.unarrived
  · exact h.done_rem

/-! ## The assignments to the table -/

theorem getP_updP_field {α : Type} (g : Process → α) (procs : List Process) (i j : Nat)
    (f : Process → Process) (hg : ∀ p, g (f p) = g p) :
    g (getP (updP procs i f) j) = g (getP procs j) := by
  by_cases hi : i < procs.length
  · rw [getP_updP procs i j f hi]
    split_ifs with h
    · subst h; exact hg _
    · rfl
  · have : updP procs i f = procs := by
      unfold updP
      exact List.set_eq_of_length_le (by omega)
    rw [this]

@[simp] theorem length_markStart (procs : List Process) (h : Nat) (t : Int) :
    (markStart procs h t).length = procs.length := by
  unfold markStart; split_ifs <;> simp [length_updP]

@[simp] theorem length_workProc (procs : List Process) (i : Nat) :
    (workProc procs i).length = procs.length := length_updP _ _ _

@[simp] theorem length_finishProc (procs : List Process) (i : Nat) (t : Int) :
    (finishProc procs i t).length = procs.length := length_updP _ _ _

@[simp] theorem markStart_arrival (procs : List Process) (h j : Nat) (t : Int) :
    (getP (markStart procs h t) j).arrival_time = (getP procs j).arrival_time := by
  unfold markStart; split_ifs
  · exact getP_updP_field (·.arrival_time) procs h j _ (fun _ => rfl)
  · rfl

@[simp] theorem markStart_burst (procs : List Process) (h j : Nat) (t : Int) :
    (getP (markStart procs h t) j).burst_time = (getP procs j).burst_time := by
  unfold markStart; split_ifs
  · exact getP_updP_field (·.burst_time) procs h j _ (fun _ => rfl)
  · rfl

@[simp] theorem markStart_remaining (procs : List Process) (h j : Nat) (t : Int) :
    (getP (markStart procs h t) j).remaining_time = (getP procs j).remaining_time := by
  unfold markStart; split_ifs
  · exact getP_updP_field (·.remaining_time) procs h j _ (fun _ => rfl)
  · rfl

@[simp] theorem markStart_finish (procs : List Process) (h j : Nat) (t : Int) :
    (getP (markStart procs h t) j).finish_time = (getP procs j).finish_time := by
  unfold markStart; split_ifs
  · exact getP_updP_field (·.finish_time) procs h j _ (fun _ => rfl)
  · rfl

theorem markStart_start (procs : List Process) (h j : Nat) (t : Int)
    (hh : h < procs.length) :
    (getP (markStart procs h t) j).start_exec_time =
      if j = h ∧ (getP procs h).start_exec_time = -1 then t
      else (getP procs j).start_exec_time := by
  unfold markStart
  by_cases h1 : (getP procs h).start_exec_time = -1
  · rw [if_pos h1, getP_updP procs h j _ hh]
    by_cases h2 : j = h
    · simp [h2, h1]
    · simp [h2]
  · rw [if_neg h1]; simp [h1]

@[simp] theorem workProc_arrival (procs : List Process) (i j : Nat) :
    (getP (workProc procs i) j).arrival_time = (getP procs j).arrival_time :=
  getP_updP_field (·.arrival_time) procs i j _ (fun _ => rfl)

@[simp] theorem workProc_burst (procs : List Process) (i j : Nat) :
    (getP (workProc procs i) j).burst_time = (getP procs j).burst_time :=
  getP_updP_field (·.burst_time) procs i j _ (fun _ => rfl)

@[simp] theorem workProc_start (procs : List Process) (i j : Nat) :
    (getP (workProc procs i) j).start_exec_time = (getP procs j).start_exec_time :=
  getP_updP_field (·.start_exec_time) procs i j _ (fun _ => rfl)

@[simp] theorem workProc_finish (procs : List Process) (i j : Nat) :
    (getP (workProc procs i) j).finish_time = (getP procs j).finish_time :=
  getP_updP_field (·.finish_time) procs i j _ (fun _ => rfl)

theorem workProc_remaining (procs : List Process) (i j : Nat) (hi : i < procs.length) :
    (getP (workProc procs i) j).remaining_time =
      if j = i then (getP procs i).remaining_time - 1 else (getP procs j).remaining_time := by
  unfold workProc
  rw [getP_updP procs i j _ hi]
  split_ifs <;> rfl

@[simp] theorem finishProc_arrival (procs : List Process) (i j : Nat) (t : Int) :
    (getP (finishProc procs i t) j).arrival_time = (getP procs j).arrival_time :=
  getP_updP_field (·.arrival_time) procs i j _ (fun _ => rfl)

@[simp] theorem finishProc_burst (procs : List Process) (i j : Nat) (t : Int) :
    (getP (finishProc procs i t) j).burst_time = (getP procs j).burst_time :=
  getP_updP_field (·.burst_time) procs i j _ (fun _ => rfl)

@[simp] theorem finishProc_remaining (procs : List Process) (i j : Nat) (t : Int) :
    (getP (finishProc procs i t) j).remaining_time = (getP procs j).remaining_time :=
  getP_updP_field (·.remaining_time) procs i j _ (fun _ => rfl)

@[simp] theorem finishProc_start (procs : List Process) (i j : Nat) (t : Int) :
    (getP (finishProc procs i t) j).start_exec_time = (getP procs j).start_exec_time :=
  getP_updP_field (·.start_exec_time) procs i j _ (fun _ => rfl)

theorem finishProc_finish (procs : List Process) (i j : Nat) (t : Int)
    (hi : i < procs.length) :
    (getP (finishProc procs i t) j).finish_time =
      if j = i then t else (getP procs j).finish_time := by
  unfold finishProc
  rw [getP_updP procs i j _ hi]
  split_ifs <;> rfl

theorem arrivedBefore_congr (p1 p2 : List Process) (h : Int) (hlen : p1.length = p2.length)
    (ha : ∀ i, (getP p1 i).arrival_time = (getP p2 i).arrival_time) :
    arrivedBefore p1 h = arrivedBefore p2 h := by
  simp [arrivedBefore, hlen, ha]

@[simp] theorem arrivedBefore_markStart (procs : List Process) (h : Nat) (t H : Int) :
    arrivedBefore (markStart procs h t) H = arrivedBefore procs H :=
  arrivedBefore_congr _ _ _ (by simp) (by simp)

@[simp] theorem arrivedBefore_workProc (procs : List Process) (i : Nat) (H : Int) :
    arrivedBefore (workProc procs i) H = arrivedBefore procs H :=
  arrivedBefore_congr _ _ _ (by simp) (by simp)

@[simp] theorem arrivedBefore_finishProc (procs : List Process) (i : Nat) (t H : Int) :
    arrivedBefore (finishProc procs i t) H = arrivedBefore procs H :=
  arrivedBefore_congr _ _ _ (by simp) (by simp)

@[simp] theorem arrivingNow_markStart (procs : List Process) (h : Nat) (t H : Int) :
    arrivingNow (markStart procs h t) H = arrivingNow procs H :=
  arrivingNow_congr _ _ _ (by simp) (by simp)

@[simp] theorem arrivingNow_workProc (procs : List Process) (i : Nat) (H : Int) :
    arrivingNow (workProc procs i) H = arrivingNow procs H :=
  arrivingNow_congr _ _ _ (by simp) (by simp)

@[simp] theorem arrivingNow_finishProc (procs : List Process) (i : Nat) (t H : Int) :
    arrivingNow (finishProc procs i t) H = arrivingNow procs H :=
  arrivingNow_congr _ _ _ (by simp) (by simp)

/-! ## The steps of an iteration -/

theorem dispatch_ok {s s2 : State} {npa : Int} {added : Bool}
    (h : dispatch s npa added = .ok s2) :
    ∃ hd rest q, s.list = hd :: rest ∧
      calculateQuantum s.median_mode (s.list.map (getP s.procs)) none npa added
        s.quantum_length = some q ∧
      s2 = dispatchStep s hd rest q := by
  unfold dispatch at h
  cases hq : calculateQuantum s.median_mode (s.list.map (getP s.procs)) none npa added
      s.quantum_length with
  | none => simp [hq] at h
  | some q =>
    rw [hq] at h
    dsimp only at h
    split at h
    · simp at h
    · rename_i hd rest hl
      injection h with h
      exact ⟨hd, rest, q, hl, rfl, h.symm⟩

theorem execute_ok {s s3 : State} {i : Nat} {npa : Int} {added : Bool}
    (h : execute s i npa added = .ok s3) :
    ((getP s.procs i).remaining_time = 0 ∧ s3 = finishStep s i) ∨
    ((getP s.procs i).remaining_time ≠ 0 ∧ s.quantum_left = 0 ∧ s.list ≠ [] ∧
      s3 = preemptStep s i) ∨
    ((getP s.procs i).remaining_time ≠ 0 ∧ s.quantum_left = 0 ∧ s.list = [] ∧
      ∃ q, calculateQuantum s.median_mode (s.list.map (getP s.procs)) (some (getP s.procs i))
          npa added s.quantum_length = some q ∧ s3 = renewStep s i q) ∨
    ((getP s.procs i).remaining_time ≠ 0 ∧ s.quantum_left ≠ 0 ∧ s3 = workStep s i) := by
  unfold execute at h
  split_ifs at h with h1 h2 h3
  · injection h with h; exact Or.inl ⟨h1, h.symm⟩
  · injection h with h; exact Or.inr (Or.inl ⟨h1, h2, h3, h.symm⟩)
  · cases hq : calculateQuantum s.median_mode (s.list.map (getP s.procs))
        (some (getP s.procs i)) npa added s.quantum_length with
    | none => simp [hq] at h
    | some q =>
      simp only [hq] at h
      injection h with h
      exact Or.inr (Or.inr (Or.inl ⟨h1, h2, not_not.mp h3, q, rfl, h.symm⟩))
  · injection h with h; exact Or.inr (Or.inr (Or.inr ⟨h1, h2, h.symm⟩))

theorem InvCore.core_step_dispatch {H : Int} {s : State} {hd : Nat} {rest : List Nat} {q : Int}
    (h : InvCore H s) (hp : s.p = none) (hl : s.list = hd :: rest) (hq : 1 ≤ q) :
    InvCore H (dispatchStep s hd rest q) := by
  have hnd : (hd :: rest).Nodup := hl ▸ h.list_nodup
  have hmem : ∀ i, i ∈ rest → i ∈ s.list := fun i hi => hl ▸ List.mem_cons_of_mem _ hi
  have hhd : hd ∈ s.list := hl ▸ List.mem_cons_self _ _
  constructor <;> dsimp only [dispatchStep]
  · intro i hi
    simp only [length_markStart, markStart_arrival, markStart_burst] at hi ⊢
    exact h.valid i hi
  · exact h.t_nonneg
  · exact h.horizon
  · intro i hi
    simp only [length_markStart, markStart_remaining, markStart_burst] at hi ⊢
    exact h.rem_range i hi
  · exact hq
  · intro _; omega
  · intro i hi
    simp only [length_markStart, markStart_remaining, markStart_arrival]
    exact h.list_ok i (hmem i hi)
  · exact (List.nodup_cons.mp hnd).2
  · intro i hi
    injection hi with hi
    subst hi
    simp only [length_markStart, markStart_arrival]
    have := h.list_ok hd hhd
    exact ⟨this.1, this.2.1, (List.nodup_cons.mp hnd).1⟩
  · simp only [arrivedBefore_markStart]
    exact h.num_arr
  · intro i hi hi2
    simp only [length_markStart, markStart_remaining, markStart_arrival, markStart_burst]
      at hi hi2 ⊢
    exact h.unarrived i hi hi2
  · intro i hi hi2 hi3 hi4
    simp only [length_markStart, markStart_remaining, markStart_arrival] at hi hi2 ⊢
    refine h.done_rem i hi hi2 ?_ (by simp [hp])
    rw [hl]
    simp only [List.mem_cons, not_or]
    refine ⟨?_, hi3⟩
    rintro rfl
    exact hi4 rfl

theorem InvCore.core_step_finish {H : Int} {s : State} {i : Nat} (h : InvCore H s)
    (hp : s.p = some i) (hr : (getP s.procs i).remaining_time = 0) :
    InvCore H (finishStep s i) := by
  constructor <;> dsimp only [finishStep]
  · intro j hj
    simp only [length_finishProc, finishProc_arrival, finishProc_burst] at hj ⊢
    exact h.valid j hj
  · exact h.t_nonneg
  · exact h.horizon
  · intro j hj
    simp only [length_finishProc, finishProc_remaining, finishProc_burst] at hj ⊢
    exact h.rem_range j hj
  · exact h.qlen
  · intro hne; exact absurd rfl hne
  · intro j hj
    simp only [length_finishProc, finishProc_remaining, finishProc_arrival]
    exact h.list_ok j hj
  · exact h.list_nodup
  · intro j hj; simp at hj
  · simp only [arrivedBefore_finishProc]
    exact h.num_arr
  · intro j hj hj2
    simp only [length_finishProc, finishProc_remaining, finishProc_arrival, finishProc_burst]
      at hj hj2 ⊢
    exact h.unarrived j hj hj2
  · intro j hj hj2 hj3 _
    simp only [length_finishProc, finishProc_remaining, finishProc_arrival] at hj hj2 ⊢
    by_cases hji : j = i
    · subst hji; exact hr
    · exact h.done_rem j hj hj2 hj3 (by rw [hp]; simpa using Ne.symm hji)

theorem InvCore.core_step_preempt {H : Int} {s : State} {i : Nat} (h : InvCore H s)
    (hp : s.p = some i) (hr : (getP s.procs i).remaining_time ≠ 0) :
    InvCore H (preemptStep s i) := by
  have hpi := h.p_ok i hp
  have hri := h.rem_range i hpi.1
  constructor <;> dsimp only [preemptStep]
  · exact h.valid
  · exact h.t_nonneg
  · exact h.horizon
  · exact h.rem_range
  · exact h.qlen
  · intro hne; exact absurd rfl hne
  · intro j hj
    simp only [List.mem_append, List.mem_singleton] at hj
    rcases hj with hj | rfl
    · exact h.list_ok j hj
    · exact ⟨hpi.1, hpi.2.1, by omega⟩
  · rw [List.nodup_append]
    refine ⟨h.list_nodup, List.nodup_singleton _, ?_⟩
    intro j hj hj2
    simp only [List.mem_singleton] at hj2
    subst hj2
    exact hpi.2.2 hj
  · intro j hj; simp at hj
  · exact h.num_arr
  · exact h.unarrived
  · intro j hj hj2 hj3 _
    simp only [List.mem_append, List.mem_singleton, not_or] at hj3
    exact h.done_rem j hj hj2 hj3.1 (by rw [hp]; simpa using Ne.symm hj3.2)

theorem InvCore.core_step_workProc {H : Int} {s : State} {i : Nat} {q ql : Int} (h : InvCore H s)
    (hp : s.p = some i) (hr : (getP s.procs i).remaining_time ≠ 0) (hq : 1 ≤ q)
    (hql : 0 ≤ ql) :
    InvCore H { s with quantum_length := q, quantum_left := ql, procs := workProc s.procs i } := by
  have hpi := h.p_ok i hp
  have hri := h.rem_range i hpi.1
  constructor <;> dsimp only
  · intro j hj
    simp only [length_workProc, workProc_arrival, workProc_burst] at hj ⊢
    exact h.valid j hj
  · exact h.t_nonneg
  · exact h.horizon
  · intro j hj
    simp only [length_workProc, workProc_burst] at hj ⊢
    rw [workProc_remaining _ _ _ hpi.1]
    have := h.rem_range j hj
    split_ifs with hji
    · subst hji; omega
    · exact this
  · exact hq
  · intro _; exact hql
  · intro j hj
    have := h.list_ok j hj
    have hji : j ≠ i := fun e => hpi.2.2 (e ▸ hj)
    simp only [length_workProc, workProc_arrival]
    rw [workProc_remaining _ _ _ hpi.1, if_neg hji]
    exact this
  · exact h.list_nodup
  · intro j hj
    simp only [length_workProc, workProc_arrival]
    exact h.p_ok j hj
  · simp only [arrivedBefore_workProc]
    exact h.num_arr
  · intro j hj hj2
    simp only [length_workProc, workProc_arrival, workProc_burst] at hj hj2 ⊢
    have hji : j ≠ i := by rintro rfl; omega
    rw [workProc_remaining _ _ _ hpi.1, if_neg hji]
    exact h.unarrived j hj hj2
  · intro j hj hj2 hj3 hj4
    simp only [length_workProc, workProc_arrival] at hj hj2 ⊢
    have hji : j ≠ i := by rintro rfl; exact hj4 hp
    rw [workProc_remaining _ _ _ hpi.1, if_neg hji]
    exact h.done_rem j hj hj2 hj3 hj4

theorem InvCore.step_renew {H : Int} {s : State} {i : Nat} {q : Int} (h : InvCore H s)
    (hp : s.p = some i) (hr : (getP s.procs i).remaining_time ≠ 0) (hq : 1 ≤ q) :
    InvCore H (renewStep s i q) :=
  InvCore.core_step_workProc h hp hr hq (by omega)

theorem InvCore.step_work {H : Int} {s : State} {i : Nat} (h : InvCore H s)
    (hp : s.p = some i) (hr : (getP s.procs i).remaining_time ≠ 0)
    (hql : s.quantum_left ≠ 0) : InvCore H (workStep s i) := by
  have := h.qleft (by simp [hp])
  exact InvCore.core_step_workProc h hp hr h.qlen (by omega)

theorem InvCore.list_rem_le {H : Int} {s : State} (h : InvCore H s) :
    ∀ p ∈ s.list.map (getP s.procs), p.remaining_time ≤ p.burst_time := by
  intro p hp
  rw [List.mem_map] at hp
  obtain ⟨i, hi, rfl⟩ := hp
  exact (h.rem_range i (h.list_ok i hi).1).2

theorem InvCore.quantum_dispatch {H : Int} {s : State} (h : InvCore H s) (npa : Int)
    (added : Bool) (hn : 0 ≤ npa) (hl : s.list ≠ []) :
    ∃ q, calculateQuantum s.median_mode (s.list.map (getP s.procs)) none npa added
        s.quantum_length = some q ∧ 1 ≤ q ∧ (s.median_mode = false → q = s.quantum_length) :=
  calculateQuantum_ge_one _ _ _ _ _ _ hn h.qlen h.list_rem_le (fun _ hp => by simp at hp)
    (Or.inl (by simpa using hl))

theorem InvCore.quantum_renew {H : Int} {s : State} (h : InvCore H s) (npa : Int)
    (added : Bool) (hn : 0 ≤ npa) (i : Nat) (hp : s.p = some i) :
    ∃ q, calculateQuantum s.median_mode (s.list.map (getP s.procs)) (some (getP s.procs i))
        npa added s.quantum_length = some q ∧ 1 ≤ q ∧
        (s.median_mode = false → q = s.quantum_length) := by
  refine calculateQuantum_ge_one _ _ _ _ _ _ hn h.qlen h.list_rem_le ?_ (Or.inr (by simp))
  intro p hpp
  injection hpp with hpp
  subst hpp
  exact (h.rem_range i (h.p_ok i hp).1).2

/-- Under the invariant a dispatch does not fault, and the process it dispatches has work
left and a quantum of at least 1. -/
theorem InvCore.dispatch_total {H : Int} {s : State} (h : InvCore H s) (npa : Int)
    (added : Bool) (hn : 0 ≤ npa) (hp : s.p = none) (hl : s.list ≠ []) :
    ∃ hd rest q, s.list = hd :: rest ∧ 1 ≤ q ∧
      calculateQuantum s.median_mode (s.list.map (getP s.procs)) none npa added
        s.quantum_length = some q ∧
      dispatch s npa added = .ok (dispatchStep s hd rest q) ∧
      InvCore H (dispatchStep s hd rest q) ∧
      0 < (getP s.procs hd).remaining_time := by
  obtain ⟨q, hq, hq1, -⟩ := h.quantum_dispatch npa added hn hl
  cases hl2 : s.list with
  | nil => exact absurd hl2 hl
  | cons hd rest =>
    refine ⟨hd, rest, q, rfl, hq1, hl2 ▸ hq, ?_, InvCore.core_step_dispatch h hp hl2 hq1, ?_⟩
    · unfold dispatch
      rw [hq]
      dsimp only
      rw [hl2]
    · exact (h.list_ok hd (hl2 ▸ List.mem_cons_self _ _)).2.2

/-- Under the invariant the execution decision does not fault and keeps the invariant. -/
theorem InvCore.execute_total {H : Int} {s : State} (h : InvCore H s) (npa : Int) (added : Bool)
    (hn : 0 ≤ npa) (i : Nat) (hp : s.p = some i) :
    ∃ s3, execute s i npa added = .ok s3 ∧ InvCore H s3 := by
  unfold execute
  split_ifs with h1 h2 h3
  · exact ⟨_, rfl, InvCore.core_step_finish h hp h1⟩
  · exact ⟨_, rfl, InvCore.core_step_preempt h hp h1⟩
  · obtain ⟨q, hq, hq1, -⟩ := h.quantum_renew npa added hn i hp
    rw [hq]
    exact ⟨_, rfl, InvCore.step_renew h hp h1 hq1⟩
  · exact ⟨_, rfl, InvCore.step_work h hp h1 h2⟩

/-! ## The termination measure -/

theorem getP_cons_zero (a : Process) (l : List Process) : getP (a :: l) 0 = a := rfl

theorem getP_cons_succ (a : Process) (l : List Process) (i : Nat) :
    getP (a :: l) (i + 1) = getP l i := rfl

theorem remSum_updP (procs : List Process) (i : Nat) (f : Process → Process)
    (hi : i < procs.length) :
    remSum (updP procs i f) + (getP procs i).remaining_time.toNat
      = remSum procs + (f (getP procs i)).remaining_time.toNat := by
  induction procs generalizing i with
  | nil => simp at hi
  | cons a l ih =>
    cases i with
    | zero =>
      simp only [updP, getP_cons_zero, List.set_cons_zero, remSum, List.map_cons, List.sum_cons]
      omega
    | succ k =>
      have := ih k (by simpa using hi)
      simp only [updP, getP_cons_succ, List.set_cons_succ, remSum, List.map_cons,
        List.sum_cons] at this ⊢
      omega

theorem remSum_updP_same (procs : List Process) (i : Nat) (f : Process → Process)
    (hf : ∀ p, (f p).remaining_time = p.remaining_time) :
    remSum (updP procs i f) = remSum procs := by
  by_cases hi : i < procs.length
  · have := remSum_updP procs i f hi
    rw [hf] at this
    omega
  · have : updP procs i f = procs := by
      unfold updP
      exact List.set_eq_of_length_le (by omega)
    rw [this]

@[simp] theorem remSum_markStart (procs : List Process) (h : Nat) (t : Int) :
    remSum (markStart procs h t) = remSum procs := by
  unfold markStart; split_ifs
  · exact remSum_updP_same _ _ _ (fun _ => rfl)
  · rfl

@[simp] theorem remSum_finishProc (procs : List Process) (i : Nat) (t : Int) :
    remSum (finishProc procs i t) = remSum procs :=
  remSum_updP_same _ _ _ (fun _ => rfl)

theorem remSum_workProc (procs : List Process) (i : Nat) (hi : i < procs.length)
    (hr : 0 < (getP procs i).remaining_time) :
    remSum (workProc procs i) + 1 = remSum procs := by
  have := remSum_updP procs i (fun p => { p with remaining_time := p.remaining_time - 1 }) hi
  unfold workProc
  dsimp only at this
  omega

theorem remSum_initProcesses (ps : List Process) :
    remSum (initProcesses ps) = (ps.map (fun p => p.burst_time.toNat)).sum := by
  simp [remSum, initProcesses, Function.comp_def]

theorem workLeft_enqueue {s : State} (h : InvCore s.t s) :
    workLeft (enqueueArrivals s) = workLeft s := by
  have h1 := arrivedBefore_succ_length s.procs s.t
  have h2 := arrivedBefore_length_le s.procs (s.t + 1)
  have h3 := h.num_arr
  rw [enqueueArrivals_eq]
  unfold workLeft
  simp only [List.length_append]
  omega

theorem workLeft_dispatchStep (s : State) (hd : Nat) (rest : List Nat) (q : Int)
    (hp : s.p = none) (hl : s.list = hd :: rest) :
    workLeft (dispatchStep s hd rest q) = workLeft s + 1 := by
  unfold workLeft dispatchStep
  simp [hp, hl]
  omega

theorem workLeft_finishStep (s : State) (i : Nat) (hp : s.p = some i) :
    workLeft (finishStep s i) + 2 = workLeft s := by
  unfold workLeft finishStep
  simp [hp]
  omega

theorem workLeft_preemptStep (s : State) (i : Nat) (hp : s.p = some i) :
    workLeft (preemptStep s i) + 1 = workLeft s := by
  unfold workLeft preemptStep
  simp [hp]
  omega

theorem workLeft_renewStep (s : State) (i : Nat) (q : Int) (hi : i < s.procs.length)
    (hr : 0 < (getP s.procs i).remaining_time) :
    workLeft (renewStep s i q) + 2 = workLeft s := by
  have := remSum_workProc s.procs i hi hr
  unfold workLeft renewStep
  simp
  omega

theorem workLeft_workStep (s : State) (i : Nat) (hi : i < s.procs.length)
    (hr : 0 < (getP s.procs i).remaining_time) :
    workLeft (workStep s i) + 2 = workLeft s := by
  have := remSum_workProc s.procs i hi hr
  unfold workLeft workStep
  simp
  omega

theorem workLeft_execute {H : Int} {s s3 : State} {i : Nat} {npa : Int} {added : Bool}
    (h : InvCore H s) (hp : s.p = some i) (he : execute s i npa added = .ok s3) :
    workLeft s3 + 1 ≤ workLeft s ∧
      ((getP s.procs i).remaining_time ≠ 0 → s.quantum_left ≠ 0 →
        workLeft s3 + 2 = workLeft s) := by
  have hpi := h.p_ok i hp
  have hri := h.rem_range i hpi.1
  rcases execute_ok he with ⟨h1, rfl⟩ | ⟨h1, h2, h3, rfl⟩ | ⟨h1, h2, h3, q, -, rfl⟩ | ⟨h1, h2, rfl⟩
  · have := workLeft_finishStep s i hp
    exact ⟨by omega, fun h => absurd h1 h⟩
  · have := workLeft_preemptStep s i hp
    exact ⟨by omega, fun _ h => absurd h2 h⟩
  · have := workLeft_renewStep s i q hpi.1 (by omega)
    exact ⟨by omega, fun _ _ => this⟩
  · have := workLeft_workStep s i hpi.1 (by omega)
    exact ⟨by omega, fun _ _ => this⟩

/-! ## One iteration -/

@[simp] theorem enqueueArrivals_t (s : State) : (enqueueArrivals s).t = s.t := by
  rw [enqueueArrivals_eq]

@[simp] theorem enqueueArrivals_procs (s : State) : (enqueueArrivals s).procs = s.procs := by
  rw [enqueueArrivals_eq]

@[simp] theorem enqueueArrivals_p (s : State) : (enqueueArrivals s).p = s.p := by
  rw [enqueueArrivals_eq]

@[simp] theorem enqueueArrivals_list (s : State) :
    (enqueueArrivals s).list = s.list ++ arrivingNow s.procs s.t := by
  rw [enqueueArrivals_eq]

@[simp] theorem enqueueArrivals_log (s : State) :
    (enqueueArrivals s).log
      = s.log ++ (arrivingNow s.procs s.t).map (fun i => Event.enq i s.t) := by
  rw [enqueueArrivals_eq]

@[simp] theorem enqueueArrivals_median_mode (s : State) :
    (enqueueArrivals s).median_mode = s.median_mode := by
  rw [enqueueArrivals_eq]

@[simp] theorem enqueueArrivals_quantum_length (s : State) :
    (enqueueArrivals s).quantum_length = s.quantum_length := by
  rw [enqueueArrivals_eq]

@[simp] theorem enqueueArrivals_quantum_left (s : State) :
    (enqueueArrivals s).quantum_left = s.quantum_left := by
  rw [enqueueArrivals_eq]

@[simp] theorem enqueueArrivals_num_arrived (s : State) :
    (enqueueArrivals s).num_arrived
      = s.num_arrived + ((arrivingNow s.procs s.t).length : Int) := by
  rw [enqueueArrivals_eq]

theorem enqueueArrivals_none (s : State) (ha : arrivingNow s.procs s.t = []) :
    enqueueArrivals s = s := by
  rw [enqueueArrivals_eq, ha]
  simp

theorem arrivingNow_length_nonneg (procs : List Process) (t : Int) :
    (0 : Int) ≤ ((arrivingNow procs t).length : Int) := Int.ofNat_nonneg _

theorem idleAdmission_idle (s : State) (hl : s.list = []) (hp : s.p = none)
    (ha : arrivingNow s.procs s.t = []) :
    idleAdmission s ((arrivingNow s.procs s.t).length : Int) = none := by
  unfold idleAdmission
  rw [ha]
  simp [hl, hp]

theorem idleAdmission_early (s : State) (hl : s.list = []) (hp : s.p = none)
    (ha : arrivingNow s.procs s.t ≠ []) :
    idleAdmission s ((arrivingNow s.procs s.t).length : Int)
      = some (enqueueArrivals s, true) := by
  have hn : 0 < s.procs.length := by
    rcases List.exists_mem_of_ne_nil _ ha with ⟨i, hi⟩
    rw [mem_arrivingNow] at hi
    omega
  have hlen : ¬ ((arrivingNow s.procs s.t).length : Int) = 0 := by
    have := List.length_pos.mpr ha
    omega
  unfold idleAdmission
  simp only [hl, hp, hlen, and_self, if_true, if_false, enqueueArrivalsFlag_eq, hn,
    decide_True]

theorem idleAdmission_busy (s : State) (npa : Int) (h : ¬ (s.list = [] ∧ s.p = none)) :
    idleAdmission s npa = some (s, false) := by
  unfold idleAdmission
  rw [if_neg h]

theorem tick_idle (s : State) (hl : s.list = []) (hp : s.p = none)
    (ha : arrivingNow s.procs s.t = []) : tick s = .ok (advanceClock s) := by
  unfold tick
  simp only [countArrivals_eq, idleAdmission_idle s hl hp ha]

theorem tick_early (s : State) (hl : s.list = []) (hp : s.p = none)
    (ha : arrivingNow s.procs s.t ≠ []) :
    tick s =
      match dispatch (enqueueArrivals s) ((arrivingNow s.procs s.t).length : Int) true with
      | .error e => .error e
      | .ok s2 => executeAndEnqueue s2 ((arrivingNow s.procs s.t).length : Int) true := by
  unfold tick
  simp only [countArrivals_eq, idleAdmission_early s hl hp ha, enqueueArrivals_p, hp]

theorem tick_late (s : State) (hl : s.list ≠ []) (hp : s.p = none) :
    tick s =
      match dispatch s ((arrivingNow s.procs s.t).length : Int) false with
      | .error e => .error e
      | .ok s2 => executeAndEnqueue s2 ((arrivingNow s.procs s.t).length : Int) false := by
  unfold tick
  simp only [countArrivals_eq, idleAdmission_busy s _ (fun h => hl h.1), hp]

theorem tick_running (s : State) (i : Nat) (hp : s.p = some i) :
    tick s = executeAndEnqueue s ((arrivingNow s.procs s.t).length : Int) false := by
  unfold tick
  simp only [countArrivals_eq, idleAdmission_busy s _ (fun h => by simp [hp] at h), hp]

theorem executeAndEnqueue_eq (s : State) (i : Nat) (npa : Int) (added : Bool)
    (hp : s.p = some i) :
    executeAndEnqueue s npa added =
      match execute s i npa added with
      | .error e => .error e
      | .ok s3 => .ok (advanceClock (if added = false then enqueueArrivals s3 else s3)) := by
  unfold executeAndEnqueue
  rw [hp]

theorem execute_finish (s : State) (i : Nat) (npa : Int) (added : Bool)
    (hr : (getP s.procs i).remaining_time = 0) :
    execute s i npa added = .ok (finishStep s i) := by
  unfold execute; rw [if_pos hr]

theorem execute_preempt (s : State) (i : Nat) (npa : Int) (added : Bool)
    (hr : (getP s.procs i).remaining_time ≠ 0) (hq : s.quantum_left = 0) (hl : s.list ≠ []) :
    execute s i npa added = .ok (preemptStep s i) := by
  unfold execute; rw [if_neg hr, if_pos hq, if_pos hl]

theorem execute_renew (s : State) (i : Nat) (npa : Int) (added : Bool) (q : Int)
    (hr : (getP s.procs i).remaining_time ≠ 0) (hq : s.quantum_left = 0) (hl : s.list = [])
    (hc : calculateQuantum s.median_mode (s.list.map (getP s.procs)) (some (getP s.procs i))
      npa added s.quantum_length = some q) :
    execute s i npa added = .ok (renewStep s i q) := by
  unfold execute; rw [if_neg hr, if_pos hq, if_neg (by simp [hl]), hc]

theorem execute_work (s : State) (i : Nat) (npa : Int) (added : Bool)
    (hr : (getP s.procs i).remaining_time ≠ 0) (hq : s.quantum_left ≠ 0) :
    execute s i npa added = .ok (workStep s i) := by
  unfold execute; rw [if_neg hr, if_neg hq]

theorem exists_unarrived (procs : List Process) (H : Int)
    (h : (arrivedBefore procs H).length < procs.length) :
    ∃ i, i < procs.length ∧ H ≤ (getP procs i).arrival_time := by
  by_contra hcon
  push_neg at hcon
  have : (arrivedBefore procs H).length = (List.range procs.length).length := by
    unfold arrivedBefore
    rw [List.filter_length_eq_length]
    intro i hi
    rw [List.mem_range] at hi
    simpa using hcon i hi
  rw [List.length_range] at this
  omega

/-- Under the invariant an iteration of the loop does not fault, and it is one of the seven
iterations of `TickShape`. -/
theorem tick_shape {s : State} (h : InvCore s.t s) :
    ∃ s', tick s = .ok s' ∧ TickShape s s' := by
  have hnpa := arrivingNow_length_nonneg s.procs s.t
  cases hp : s.p with
  | some i =>
    rw [tick_running s i hp, executeAndEnqueue_eq s i _ _ hp]
    by_cases hr : (getP s.procs i).remaining_time = 0
    · rw [execute_finish s i _ _ hr]
      exact ⟨_, rfl, TickShape.finish i hp hr⟩
    · by_cases hq : s.quantum_left = 0
      · by_cases hl : s.list = []
        · obtain ⟨q, hc, hq1, -⟩ := h.quantum_renew _ false hnpa i hp
          rw [execute_renew s i _ _ q hr hq hl hc]
          rw [hl] at hc
          exact ⟨_, rfl, TickShape.renew i q hp hr hq hl hq1 hc⟩
        · rw [execute_preempt s i _ _ hr hq hl]
          exact ⟨_, rfl, TickShape.preempt i hp hr hq hl⟩
      · rw [execute_work s i _ _ hr hq]
        exact ⟨_, rfl, TickShape.work i hp hr hq⟩
  | none =>
    by_cases hl : s.list = []
    · by_cases ha : arrivingNow s.procs s.t = []
      · exact ⟨_, tick_idle s hl hp ha, TickShape.idle hl hp ha⟩
      · have h1 := InvCore.core_enqueue h
        have hl1 : (enqueueArrivals s).list ≠ [] := by simp [hl, ha]
        have hp1 : (enqueueArrivals s).p = none := by simp [hp]
        obtain ⟨hd, rest, q, hl2, hq1, hc, hd2, h2, hr2⟩ :=
          h1.dispatch_total _ true hnpa hp1 hl1
        have hp2 : (dispatchStep (enqueueArrivals s) hd rest q).p = some hd := rfl
        rw [tick_early s hl hp ha, hd2]
        dsimp only
        rw [executeAndEnqueue_eq _ hd _ _ hp2, execute_work _ hd _ _
          (by simp only [dispatchStep, markStart_remaining]; omega)
          (by simp only [dispatchStep]; omega)]
        refine ⟨_, rfl, TickShape.early hd rest q hp hl ?_ hq1 ?_⟩
        · simpa [hl] using hl2
        · simpa [hl] using hc
    · obtain ⟨hd, rest, q, hl2, hq1, hc, hd2, h2, hr2⟩ := h.dispatch_total _ false hnpa hp hl
      have hp2 : (dispatchStep s hd rest q).p = some hd := rfl
      rw [tick_late s hl hp, hd2]
      dsimp only
      rw [executeAndEnqueue_eq _ hd _ _ hp2, execute_work _ hd _ _
        (by simp only [dispatchStep, markStart_remaining]; omega)
        (by simp only [dispatchStep]; omega)]
      exact ⟨_, rfl, TickShape.late hd rest q hp hl2 hq1 hc⟩

theorem tick_shape_of_ok {s s' : State} (h : InvCore s.t s) (ht : tick s = .ok s') :
    TickShape s s' := by
  obtain ⟨s'', h1, h2⟩ := tick_shape h
  rw [h1] at ht
  injection ht with ht
  exact ht ▸ h2

theorem InvCore.core_late_arrivals {s x : State} (hx : InvCore s.t x) (ht : x.t = s.t) :
    InvCore (advanceClock (enqueueArrivals x)).t (advanceClock (enqueueArrivals x)) := by
  rw [← ht] at hx
  have h4 : InvCore ((enqueueArrivals x).t + 1) (enqueueArrivals x) := by
    rw [enqueueArrivals_t]; exact InvCore.core_enqueue hx
  exact InvCore.core_advance h4

theorem InvCore.core_dispatch_work {H : Int} {s : State} {hd : Nat} {rest : List Nat} {q : Int}
    (h : InvCore H s) (hp : s.p = none) (hl : s.list = hd :: rest) (hq : 1 ≤ q) :
    InvCore H (workStep (dispatchStep s hd rest q) hd) := by
  have h2 := InvCore.core_step_dispatch h hp hl hq
  have hr := (h.list_ok hd (hl ▸ List.mem_cons_self _ _)).2.2
  exact InvCore.step_work h2 rfl
    (by simp only [dispatchStep, markStart_remaining]; omega)
    (by simp only [dispatchStep]; omega)

/-- The invariant is kept by every iteration, and the clock advances by one. -/
theorem TickShape.inv {s s' : State} (h : InvCore s.t s) (hs : TickShape s s') :
    InvCore s'.t s' := by
  cases hs with
  | idle hl hp ha =>
    have h1 : InvCore (s.t + 1) s := by
      have := InvCore.core_enqueue h
      rwa [enqueueArrivals_none s ha] at this
    exact InvCore.core_advance h1
  | finish i hp hr => exact InvCore.core_late_arrivals (InvCore.core_step_finish h hp hr) rfl
  | preempt i hp hr hq hl => exact InvCore.core_late_arrivals (InvCore.core_step_preempt h hp hr) rfl
  | renew i q hp hr hq hl hq1 hc => exact InvCore.core_late_arrivals (InvCore.step_renew h hp hr hq1) rfl
  | work i hp hr hq => exact InvCore.core_late_arrivals (InvCore.step_work h hp hr hq) rfl
  | late hd rest q hp hl hq1 hc =>
    exact InvCore.core_late_arrivals (InvCore.core_dispatch_work h hp hl hq1) rfl
  | early hd rest q hp hl ha hq1 hc =>
    have h1 := InvCore.core_enqueue h
    have h3 := InvCore.core_dispatch_work h1 (by simpa using hp)
      (by simpa [hl] using ha : (enqueueArrivals s).list = hd :: rest) hq1
    have ht : (workStep (dispatchStep (enqueueArrivals s) hd rest q) hd).t = s.t := by
      simp [workStep, dispatchStep]
    rw [← ht] at h3
    exact InvCore.core_advance h3

theorem TickShape.t_eq {s s' : State} (hs : TickShape s s') : s'.t = s.t + 1 := by
  cases hs <;> simp [advanceClock, finishStep, preemptStep, renewStep, workStep, dispatchStep]

theorem TickShape.length_eq {s s' : State} (hs : TickShape s s') :
    s'.procs.length = s.procs.length := by
  cases hs <;> simp [advanceClock, finishStep, preemptStep, renewStep, workStep, dispatchStep]

theorem TickShape.arrival_eq {s s' : State} (hs : TickShape s s') (j : Nat) :
    (getP s'.procs j).arrival_time = (getP s.procs j).arrival_time := by
  cases hs <;> simp [advanceClock, finishStep, preemptStep, renewStep, workStep, dispatchStep]

theorem TickShape.burst_eq {s s' : State} (hs : TickShape s s') (j : Nat) :
    (getP s'.procs j).burst_time = (getP s.procs j).burst_time := by
  cases hs <;> simp [advanceClock, finishStep, preemptStep, renewStep, workStep, dispatchStep]

theorem TickShape.median_mode_eq {s s' : State} (hs : TickShape s s') :
    s'.median_mode = s.median_mode := by
  cases hs <;> simp [advanceClock, finishStep, preemptStep, renewStep, workStep, dispatchStep]

theorem workLeft_advanceClock (s : State) : workLeft (advanceClock s) = workLeft s := rfl

theorem workLeft_late_arrivals {s x : State} (hx : InvCore s.t x) (ht : x.t = s.t) :
    workLeft (advanceClock (enqueueArrivals x)) = workLeft x := by
  rw [← ht] at hx
  rw [workLeft_advanceClock, workLeft_enqueue hx]

theorem workLeft_dispatch_work {H : Int} {s : State} {hd : Nat} {rest : List Nat} {q : Int}
    (h : InvCore H s) (hp : s.p = none) (hl : s.list = hd :: rest) :
    workLeft (workStep (dispatchStep s hd rest q) hd) + 1 = workLeft s := by
  have hm := h.list_ok hd (hl ▸ List.mem_cons_self _ _)
  have h1 := workLeft_dispatchStep s hd rest q hp hl
  have h2 := workLeft_workStep (dispatchStep s hd rest q) hd
    (by simp only [dispatchStep, length_markStart]; exact hm.1)
    (by simp only [dispatchStep, markStart_remaining]; exact hm.2.2)
  omega

/-- The termination measure decreases in every iteration. -/
theorem TickShape.ticksLeft_lt {s s' : State} {A : Int} (h : InvCore s.t s) (hc : loopCond s)
    (hA : ∀ i, i < s.procs.length → (getP s.procs i).arrival_time ≤ A)
    (hs : TickShape s s') : ticksLeft A s' < ticksLeft A s := by
  have hle : (A + 1 - s'.t).toNat ≤ (A + 1 - s.t).toNat := by
    rw [hs.t_eq]; omega
  unfold ticksLeft
  cases hs with
  | idle hl hp ha =>
    have hlt : (arrivedBefore s.procs s.t).length < s.procs.length := by
      rcases hc with hc | hc | hc
      · exact absurd hl hc
      · exact absurd hp hc
      · have := h.num_arr
        omega
    obtain ⟨i, hi, hi2⟩ := exists_unarrived _ _ hlt
    have := hA i hi
    rw [workLeft_advanceClock]
    simp only [advanceClock]
    omega
  | finish i hp hr =>
    have := workLeft_late_arrivals (InvCore.core_step_finish h hp hr) rfl
    have := workLeft_finishStep s i hp
    omega
  | preempt i hp hr hq hl =>
    have := workLeft_late_arrivals (InvCore.core_step_preempt h hp hr) rfl
    have := workLeft_preemptStep s i hp
    omega
  | renew i q hp hr hq hl hq1 hc =>
    have := workLeft_late_arrivals (InvCore.step_renew h hp hr hq1) rfl
    have hpi := h.p_ok i hp
    have := h.rem_range i hpi.1
    have := workLeft_renewStep s i q hpi.1 (by omega)
    omega
  | work i hp hr hq =>
    have := workLeft_late_arrivals (InvCore.step_work h hp hr hq) rfl
    have hpi := h.p_ok i hp
    have := h.rem_range i hpi.1
    have := workLeft_workStep s i hpi.1 (by omega)
    omega
  | late hd rest q hp hl hq1 hc =>
    have := workLeft_late_arrivals (InvCore.core_dispatch_work h hp hl hq1) rfl
    have := @workLeft_dispatch_work _ _ _ _ q h hp hl
    omega
  | early hd rest q hp hl ha hq1 hc =>
    have h1 := InvCore.core_enqueue h
    have := @workLeft_dispatch_work _ _ _ _ q h1 (by simpa using hp)
      (by simpa [hl] using ha : (enqueueArrivals s).list = hd :: rest)
    have := workLeft_enqueue h
    rw [workLeft_advanceClock]
    omega

/-! ## The invariant about the recorded times -/

theorem InvTime.time_init (ps : List Process) (q : Int) (hv : ValidInput ps) :
    InvTime 0 0 (mainInit ps q) := by
  have hlen : (initProcesses ps).length = ps.length := by simp [initProcesses]
  constructor
  · intro i hi
    simp only [mainInit, hlen] at hi ⊢
    rw [getP_initProcesses ps i hi]
    exact Or.inl rfl
  · intro i hi; simp [mainInit] at hi
  · intro i hi hi2
    simp only [mainInit, hlen] at hi hi2
    rw [getP_initProcesses ps i hi] at hi2
    have := (hv.2 _ (getP_mem ps i hi)).1
    simp only at hi2
    omega
  · intro i hi
    simp only [mainInit, hlen] at hi ⊢
    rw [getP_initProcesses ps i hi]
    left
    simp [progress]

theorem InvTime.mono {H T T' : Int} {s : State} (h : InvTime H T s) (hT : T ≤ T') :
    InvTime H T' s := by
  refine ⟨h.started, h.run_started, h.done_times, fun i hi => ?_⟩
  rcases h.work_bound i hi with h1 | h1
  · exact Or.inl h1
  · exact Or.inr (by omega)

theorem InvTime.time_enqueue {s : State} {T : Int} (h : InvTime s.t T s) :
    InvTime (s.t + 1) T (enqueueArrivals s) := by
  constructor
  · simpa using h.started
  · simpa using h.run_started
  · intro i hi hi2 hi3 hi4
    simp only [enqueueArrivals_procs, enqueueArrivals_list, enqueueArrivals_p,
      List.mem_append, mem_arrivingNow, not_or, not_and] at hi hi2 hi3 hi4 ⊢
    have := hi3.2 hi
    exact h.done_times i hi (by omega) hi3.1 hi4
  · simpa using h.work_bound

theorem InvTime.time_step_dispatch {H T : Int} {s : State} {hd : Nat} {rest : List Nat} {q : Int}
    (hc : InvCore H s) (h : InvTime H T s) (hp : s.p = none) (hl : s.list = hd :: rest) :
    InvTime H T (dispatchStep s hd rest q) := by
  have hhd := hc.list_ok hd (hl ▸ List.mem_cons_self _ _)
  have hH := hc.horizon
  have ht0 := hc.t_nonneg
  constructor <;> dsimp only [dispatchStep]
  · intro i hi
    simp only [length_markStart, markStart_arrival] at hi ⊢
    rw [markStart_start _ _ _ _ hhd.1]
    split_ifs with h1
    · right; rw [h1.1]; omega
    · exact h.started i hi
  · intro i hi
    injection hi with hi
    subst hi
    rw [markStart_start _ _ _ _ hhd.1]
    split_ifs with h1
    · omega
    · simpa using h1
  · intro i hi hi2 hi3 hi4
    simp only [length_markStart, markStart_arrival, markStart_burst, markStart_finish]
      at hi hi2 ⊢
    have hne : i ≠ hd := by rintro rfl; exact hi4 rfl
    rw [markStart_start _ _ _ _ hhd.1, if_neg (by simp [hne])]
    refine h.done_times i hi hi2 ?_ (by simp [hp])
    rw [hl]
    simp only [List.mem_cons, not_or]
    exact ⟨hne, hi3⟩
  · intro i hi
    simp only [length_markStart, progress, markStart_arrival, markStart_burst,
      markStart_remaining] at hi ⊢
    exact h.work_bound i hi

theorem InvTime.time_step_finish {H T : Int} {s : State} {i : Nat} (hc : InvCore H s)
    (h : InvTime H T s) (hT : T ≤ s.t) (hp : s.p = some i)
    (hr : (getP s.procs i).remaining_time = 0) : InvTime H (s.t + 1) (finishStep s i) := by
  have hpi := hc.p_ok i hp
  constructor <;> dsimp only [finishStep]
  · intro j hj
    simp only [length_finishProc, finishProc_arrival, finishProc_start] at hj ⊢
    exact h.started j hj
  · intro j hj; simp at hj
  · intro j hj hj2 hj3 _
    simp only [length_finishProc, finishProc_arrival, finishProc_start, finishProc_burst]
      at hj hj2 ⊢
    rw [finishProc_finish _ _ _ _ hpi.1]
    split_ifs with hji
    · subst hji
      refine ⟨h.run_started j hp, ?_⟩
      have hv := hc.valid j hj
      rcases h.work_bound j hj with h1 | h1
      · unfold progress at h1; omega
      · unfold progress at h1; omega
    · exact h.done_times j hj hj2 hj3 (by rw [hp]; simpa using Ne.symm hji)
  · intro j hj
    simp only [length_finishProc, progress, finishProc_arrival, finishProc_burst,
      finishProc_remaining] at hj ⊢
    have := h.work_bound j hj
    unfold progress at this
    omega

theorem InvTime.time_step_preempt {H T : Int} {s : State} {i : Nat}
    (h : InvTime H T s) (hT : T ≤ s.t) (hp : s.p = some i) :
    InvTime H (s.t + 1) (preemptStep s i) := by
  constructor <;> dsimp only [preemptStep]
  · exact h.started
  · intro j hj; simp at hj
  · intro j hj hj2 hj3 _
    simp only [List.mem_append, List.mem_singleton, not_or] at hj3
    exact h.done_times j hj hj2 hj3.1 (by rw [hp]; simpa using Ne.symm hj3.2)
  · intro j hj
    have := h.work_bound j hj
    omega

theorem InvTime.time_step_workProc {H T : Int} {s : State} {i : Nat} {q ql : Int}
    (hc : InvCore H s) (h : InvTime H T s) (hT : T ≤ s.t) (hp : s.p = some i) :
    InvTime H (s.t + 1)
      { s with quantum_length := q, quantum_left := ql, procs := workProc s.procs i } := by
  have hpi := hc.p_ok i hp
  have hH := hc.horizon
  constructor <;> dsimp only
  · intro j hj
    simp only [length_workProc, workProc_arrival, workProc_start] at hj ⊢
    exact h.started j hj
  · intro j hj
    simp only [workProc_start]
    exact h.run_started j hj
  · intro j hj hj2 hj3 hj4
    simp only [length_workProc, workProc_arrival, workProc_start, workProc_burst,
      workProc_finish] at hj hj2 ⊢
    exact h.done_times j hj hj2 hj3 hj4
  · intro j hj
    simp only [length_workProc, progress, workProc_arrival, workProc_burst] at hj ⊢
    rw [workProc_remaining _ _ _ hpi.1]
    have h1 := h.work_bound j hj
    have h2 := hc.rem_range j hj
    unfold progress at h1
    split_ifs with hji
    · subst hji; right; omega
    · omega

theorem InvTime.time_dispatch_work {H T : Int} {s : State} {hd : Nat} {rest : List Nat} {q : Int}
    (hc : InvCore H s) (h : InvTime H T s) (hT : T ≤ s.t) (hp : s.p = none)
    (hl : s.list = hd :: rest) (hq : 1 ≤ q) :
    InvTime H (s.t + 1) (workStep (dispatchStep s hd rest q) hd) :=
  InvTime.time_step_workProc (InvCore.core_step_dispatch hc hp hl hq)
    (InvTime.time_step_dispatch hc h hp hl) hT rfl

theorem InvTime.time_advance {x : State} (h : InvTime (x.t + 1) (x.t + 1) x) :
    InvTime (advanceClock x).t (advanceClock x).t (advanceClock x) :=
  ⟨h.started, h.run_started, h.done_times, h.work_bound⟩

theorem InvTime.time_late_arrivals {s x : State} (hx : InvTime s.t (s.t + 1) x) (ht : x.t = s.t) :
    InvTime (advanceClock (enqueueArrivals x)).t (advanceClock (enqueueArrivals x)).t
      (advanceClock (enqueueArrivals x)) := by
  rw [← ht] at hx
  have := InvTime.time_enqueue hx
  simp only [advanceClock, enqueueArrivals_t]
  exact ⟨this.started, this.run_started, this.done_times, this.work_bound⟩

/-- The invariant about the recorded times is kept by every iteration. -/
theorem TickShape.time {s s' : State} (hc : InvCore s.t s) (h : InvTime s.t s.t s)
    (hs : TickShape s s') : InvTime s'.t s'.t s' := by
  cases hs with
  | idle hl hp ha =>
    have h1 : InvTime (s.t + 1) s.t s := by
      have := InvTime.time_enqueue h
      rwa [enqueueArrivals_none s ha] at this
    have h2 := h1.mono (show s.t ≤ s.t + 1 by omega)
    exact ⟨h2.started, h2.run_started, h2.done_times, h2.work_bound⟩
  | finish i hp hr =>
    exact InvTime.time_late_arrivals (InvTime.time_step_finish hc h le_rfl hp hr) rfl
  | preempt i hp hr hq hl =>
    exact InvTime.time_late_arrivals (InvTime.time_step_preempt h le_rfl hp) rfl
  | renew i q hp hr hq hl hq1 hcq =>
    exact InvTime.time_late_arrivals (InvTime.time_step_workProc hc h le_rfl hp) rfl
  | work i hp hr hq =>
    exact InvTime.time_late_arrivals (InvTime.time_step_workProc hc h le_rfl hp) rfl
  | late hd rest q hp hl hq1 hcq =>
    exact InvTime.time_late_arrivals (InvTime.time_dispatch_work hc h le_rfl hp hl hq1) rfl
  | early hd rest q hp hl ha hq1 hcq =>
    have hc1 := InvCore.core_enqueue hc
    have h1 := InvTime.time_enqueue h
    have h3 := InvTime.time_dispatch_work hc1 h1 (by simp) (by simpa using hp)
      (by simpa [hl] using ha : (enqueueArrivals s).list = hd :: rest) hq1
    have ht : (workStep (dispatchStep (enqueueArrivals s) hd rest q) hd).t = s.t := by
      simp [workStep, dispatchStep]
    simp only [enqueueArrivals_t] at h3
    rw [← ht] at h3
    exact InvTime.time_advance h3

/-! ## The ghost trace -/

@[simp] theorem enqs_append (l1 l2 : List Event) : enqs (l1 ++ l2) = enqs l1 ++ enqs l2 := by
  simp [enqs, List.filterMap_append]

@[simp] theorem deqs_append (l1 l2 : List Event) : deqs (l1 ++ l2) = deqs l1 ++ deqs l2 := by
  simp [deqs, List.filterMap_append]

@[simp] theorem deqTimes_append (l1 l2 : List Event) (i : Nat) :
    deqTimes (l1 ++ l2) i = deqTimes l1 i ++ deqTimes l2 i := by
  simp [deqTimes, List.filterMap_append]

@[simp] theorem finTimes_append (l1 l2 : List Event) (i : Nat) :
    finTimes (l1 ++ l2) i = finTimes l1 i ++ finTimes l2 i := by
  simp [finTimes, List.filterMap_append]

@[simp] theorem enqs_arrivals (l : List Nat) (t : Int) :
    enqs (l.map (fun i => Event.enq i t)) = l := by
  induction l with
  | nil => rfl
  | cons a l ih => simpa [enqs, List.filterMap_cons] using ih

@[simp] theorem deqs_arrivals (l : List Nat) (t : Int) :
    deqs (l.map (fun i => Event.enq i t)) = [] := by
  induction l with
  | nil => rfl
  | cons a l ih => simp [deqs, List.filterMap_cons]

@[simp] theorem deqTimes_arrivals (l : List Nat) (t : Int) (i : Nat) :
    deqTimes (l.map (fun i => Event.enq i t)) i = [] := by
  induction l with
  | nil => rfl
  | cons a l ih => simp [deqTimes, List.filterMap_cons]

@[simp] theorem finTimes_arrivals (l : List Nat) (t : Int) (i : Nat) :
    finTimes (l.map (fun i => Event.enq i t)) i = [] := by
  induction l with
  | nil => rfl
  | cons a l ih => simp [finTimes, List.filterMap_cons]

@[simp] theorem enqs_enq (i : Nat) (t : Int) : enqs [Event.enq i t] = [i] := rfl

@[simp] theorem enqs_deq (i : Nat) (t : Int) : enqs [Event.deq i t] = [] := rfl

@[simp] theorem enqs_fin (i : Nat) (t : Int) : enqs [Event.fin i t] = [] := rfl

@[simp] theorem deqs_enq (i : Nat) (t : Int) : deqs [Event.enq i t] = [] := rfl

@[simp] theorem deqs_deq (i : Nat) (t : Int) : deqs [Event.deq i t] = [i] := rfl

@[simp] theorem deqs_fin (i : Nat) (t : Int) : deqs [Event.fin i t] = [] := rfl

@[simp] theorem deqTimes_enq (i j : Nat) (t : Int) : deqTimes [Event.enq i t] j = [] := rfl

@[simp] theorem deqTimes_fin (i j : Nat) (t : Int) : deqTimes [Event.fin i t] j = [] := rfl

theorem deqTimes_deq (i j : Nat) (t : Int) :
    deqTimes [Event.deq i t] j = if i = j then [t] else [] := by
  by_cases h : i = j <;> simp [deqTimes, List.filterMap_cons, h]

@[simp] theorem finTimes_enq (i j : Nat) (t : Int) : finTimes [Event.enq i t] j = [] := rfl

@[simp] theorem finTimes_deq (i j : Nat) (t : Int) : finTimes [Event.deq i t] j = [] := rfl

theorem finTimes_fin (i j : Nat) (t : Int) :
    finTimes [Event.fin i t] j = if i = j then [t] else [] := by
  by_cases h : i = j <;> simp [finTimes, List.filterMap_cons, h]

@[simp] theorem enqs_cons_enq (i : Nat) (t : Int) (l : List Event) :
    enqs (Event.enq i t :: l) = i :: enqs l := rfl

@[simp] theorem enqs_cons_deq (i : Nat) (t : Int) (l : List Event) :
    enqs (Event.deq i t :: l) = enqs l := rfl

@[simp] theorem enqs_cons_fin (i : Nat) (t : Int) (l : List Event) :
    enqs (Event.fin i t :: l) = enqs l := rfl

@[simp] theorem deqs_cons_enq (i : Nat) (t : Int) (l : List Event) :
    deqs (Event.enq i t :: l) = deqs l := rfl

@[simp] theorem deqs_cons_deq (i : Nat) (t : Int) (l : List Event) :
    deqs (Event.deq i t :: l) = i :: deqs l := rfl

@[simp] theorem deqs_cons_fin (i : Nat) (t : Int) (l : List Event) :
    deqs (Event.fin i t :: l) = deqs l := rfl

@[simp] theorem deqTimes_cons_enq (i j : Nat) (t : Int) (l : List Event) :
    deqTimes (Event.enq i t :: l) j = deqTimes l j := rfl

@[simp] theorem deqTimes_cons_fin (i j : Nat) (t : Int) (l : List Event) :
    deqTimes (Event.fin i t :: l) j = deqTimes l j := rfl

theorem deqTimes_cons_deq (i j : Nat) (t : Int) (l : List Event) :
    deqTimes (Event.deq i t :: l) j = (if i = j then [t] else []) ++ deqTimes l j := by
  by_cases h : i = j <;> simp [deqTimes, List.filterMap_cons, h]

@[simp] theorem finTimes_cons_enq (i j : Nat) (t : Int) (l : List Event) :
    finTimes (Event.enq i t :: l) j = finTimes l j := rfl

@[simp] theorem finTimes_cons_deq (i j : Nat) (t : Int) (l : List Event) :
    finTimes (Event.deq i t :: l) j = finTimes l j := rfl

theorem finTimes_cons_fin (i j : Nat) (t : Int) (l : List Event) :
    finTimes (Event.fin i t :: l) j = (if i = j then [t] else []) ++ finTimes l j := by
  by_cases h : i = j <;> simp [finTimes, List.filterMap_cons, h]

@[simp] theorem enqs_nil : enqs [] = [] := rfl

@[simp] theorem deqs_nil : deqs [] = [] := rfl

@[simp] theorem deqTimes_nil (j : Nat) : deqTimes [] j = [] := rfl

@[simp] theorem finTimes_nil (j : Nat) : finTimes [] j = [] := rfl

theorem InvLog.log_init (ps : List Process) (q : Int) (hv : ValidInput ps) :
    InvLog 0 (mainInit ps q) := by
  have hlen : (initProcesses ps).length = ps.length := by simp [initProcesses]
  constructor
  · rfl
  · intro i _ _; rfl
  · intro i hi hi2
    simp only [mainInit, hlen] at hi hi2
    rw [getP_initProcesses ps i hi] at hi2
    have := (hv.2 _ (getP_mem ps i hi)).1
    simp only at hi2
    omega
  · intro i hi
    simp only [mainInit, hlen] at hi ⊢
    rw [getP_initProcesses ps i hi]
    exact Or.inl ⟨rfl, rfl⟩

theorem InvLog.log_enqueue {s : State} (h : InvLog s.t s) : InvLog (s.t + 1) (enqueueArrivals s) := by
  constructor
  · simp [h.fifo]
  · intro i hi hi2
    simp only [enqueueArrivals_procs, enqueueArrivals_list, enqueueArrivals_p, List.mem_append,
      mem_arrivingNow, enqueueArrivals_log, finTimes_append, finTimes_arrivals,
      List.append_nil] at hi hi2 ⊢
    refine h.fin_none i hi ?_
    rcases hi2 with h1 | (h1 | h1) | h1
    · exact Or.inl (by omega)
    · exact Or.inr (Or.inl h1)
    · exact Or.inl (by omega)
    · exact Or.inr (Or.inr h1)
  · intro i hi hi2 hi3 hi4
    simp only [enqueueArrivals_procs, enqueueArrivals_list, enqueueArrivals_p, List.mem_append,
      mem_arrivingNow, enqueueArrivals_log, finTimes_append, finTimes_arrivals,
      List.append_nil, not_or, not_and] at hi hi2 hi3 hi4 ⊢
    have := hi3.2 hi
    exact h.fin_done i hi (by omega) hi3.1 hi4
  · simpa using h.deq_start

theorem InvLog.log_step_dispatch {H : Int} {s : State} {hd : Nat} {rest : List Nat} {q : Int}
    (hc : InvCore H s) (h : InvLog H s) (hp : s.p = none) (hl : s.list = hd :: rest) :
    InvLog H (dispatchStep s hd rest q) := by
  have hhd := hc.list_ok hd (hl ▸ List.mem_cons_self _ _)
  have ht0 := hc.t_nonneg
  constructor <;> dsimp only [dispatchStep]
  · simp [h.fifo, hl]
  · intro i hi hi2
    simp only [length_markStart, markStart_arrival, finTimes_append, finTimes_deq,
      List.append_nil] at hi hi2 ⊢
    refine h.fin_none i hi ?_
    rcases hi2 with h1 | h1 | h1
    · exact Or.inl h1
    · exact Or.inr (Or.inl (hl ▸ List.mem_cons_of_mem _ h1))
    · injection h1 with h1
      subst h1
      exact Or.inr (Or.inl (hl ▸ List.mem_cons_self _ _))
  · intro i hi hi2 hi3 hi4
    simp only [length_markStart, markStart_arrival, markStart_finish, finTimes_append,
      finTimes_deq, List.append_nil] at hi hi2 ⊢
    have hne : i ≠ hd := by rintro rfl; exact hi4 rfl
    refine h.fin_done i hi hi2 ?_ (by simp [hp])
    rw [hl]
    simp only [List.mem_cons, not_or]
    exact ⟨hne, hi3⟩
  · intro i hi
    simp only [length_markStart, deqTimes_append, deqTimes_deq] at hi ⊢
    rw [markStart_start _ _ _ _ hhd.1]
    by_cases hih : hd = i
    · subst hih
      rcases h.deq_start hd hi with ⟨h1, h2⟩ | ⟨τ, r, h1, h2, h3⟩
      · right
        exact ⟨s.t, [], by simp [h1], by simp [h2], ht0⟩
      · right
        refine ⟨τ, r ++ [s.t], by simp [h1], ?_, h3⟩
        rw [if_neg (by omega)]
        exact h2
    · have hih2 : ¬ i = hd := fun e => hih e.symm
      simp only [hih, hih2, if_false, false_and, List.append_nil]
      exact h.deq_start i hi

theorem InvLog.log_step_finish {H : Int} {s : State} {i : Nat} (hc : InvCore H s)
    (h : InvLog H s) (hp : s.p = some i) : InvLog H (finishStep s i) := by
  have hpi := hc.p_ok i hp
  constructor <;> dsimp only [finishStep]
  · simp [h.fifo]
  · intro j hj hj2
    simp only [length_finishProc, finishProc_arrival, finTimes_append, finTimes_fin]
      at hj hj2 ⊢
    have hne : i ≠ j := by
      rintro rfl
      rcases hj2 with h1 | h1 | h1
      · omega
      · exact hpi.2.2 h1
      · simp at h1
    rw [if_neg hne, List.append_nil]
    refine h.fin_none j hj ?_
    rcases hj2 with h1 | h1 | h1
    · exact Or.inl h1
    · exact Or.inr (Or.inl h1)
    · simp at h1
  · intro j hj hj2 hj3 _
    simp only [length_finishProc, finishProc_arrival, finTimes_append, finTimes_fin]
      at hj hj2 ⊢
    rw [finishProc_finish _ _ _ _ hpi.1]
    by_cases hji : j = i
    · subst hji
      rw [h.fin_none j hj (Or.inr (Or.inr hp))]
      simp
    · have hij : ¬ i = j := fun e => hji e.symm
      rw [if_neg hij, if_neg hji, List.append_nil]
      exact h.fin_done j hj hj2 hj3 (by rw [hp]; simpa using hij)
  · intro j hj
    simp only [length_finishProc, finishProc_start, deqTimes_append, deqTimes_fin,
      List.append_nil] at hj ⊢
    exact h.deq_start j hj

theorem InvLog.log_step_preempt {H : Int} {s : State} {i : Nat}
    (h : InvLog H s) (hp : s.p = some i) : InvLog H (preemptStep s i) := by
  constructor <;> dsimp only [preemptStep]
  · simp [h.fifo]
  · intro j hj hj2
    simp only [finTimes_append, finTimes_enq, List.append_nil, List.mem_append,
      List.mem_singleton] at hj2 ⊢
    refine h.fin_none j hj ?_
    rcases hj2 with h1 | (h1 | h1) | h1
    · exact Or.inl h1
    · exact Or.inr (Or.inl h1)
    · exact Or.inr (Or.inr (h1 ▸ hp))
    · simp at h1
  · intro j hj hj2 hj3 _
    simp only [finTimes_append, finTimes_enq, List.append_nil, List.mem_append,
      List.mem_singleton, not_or] at hj3 ⊢
    exact h.fin_done j hj hj2 hj3.1 (by rw [hp]; simpa using Ne.symm hj3.2)
  · intro j hj
    simp only [deqTimes_append, deqTimes_enq, List.append_nil]
    exact h.deq_start j hj

theorem InvLog.log_step_workProc {H : Int} {s : State} {i : Nat} {q ql : Int} (h : InvLog H s) :
    InvLog H { s with quantum_length := q, quantum_left := ql, procs := workProc s.procs i } := by
  constructor <;> dsimp only
  · exact h.fifo
  · intro j hj hj2
    simp only [length_workProc, workProc_arrival] at hj hj2
    exact h.fin_none j hj hj2
  · intro j hj hj2 hj3 hj4
    simp only [length_workProc, workProc_arrival, workProc_finish] at hj hj2 ⊢
    exact h.fin_done j hj hj2 hj3 hj4
  · intro j hj
    simp only [length_workProc, workProc_start] at hj ⊢
    exact h.deq_start j hj

theorem InvLog.log_dispatch_work {H : Int} {s : State} {hd : Nat} {rest : List Nat} {q : Int}
    (hc : InvCore H s) (h : InvLog H s) (hp : s.p = none) (hl : s.list = hd :: rest) :
    InvLog H (workStep (dispatchStep s hd rest q) hd) :=
  InvLog.log_step_workProc (InvLog.log_step_dispatch hc h hp hl)

theorem InvLog.log_advance {x : State} (h : InvLog (x.t + 1) x) :
    InvLog (advanceClock x).t (advanceClock x) :=
  ⟨h.fifo, h.fin_none, h.fin_done, h.deq_start⟩

theorem InvLog.log_late_arrivals {s x : State} (hx : InvLog s.t x) (ht : x.t = s.t) :
    InvLog (advanceClock (enqueueArrivals x)).t (advanceClock (enqueueArrivals x)) := by
  rw [← ht] at hx
  have h4 : InvLog ((enqueueArrivals x).t + 1) (enqueueArrivals x) := by
    rw [enqueueArrivals_t]; exact InvLog.log_enqueue hx
  exact InvLog.log_advance h4

/-- The invariant about the ghost trace is kept by every iteration. -/
theorem TickShape.log {s s' : State} (hc : InvCore s.t s) (h : InvLog s.t s)
    (hs : TickShape s s') : InvLog s'.t s' := by
  cases hs with
  | idle hl hp ha =>
    have h1 : InvLog (s.t + 1) s := by
      have := InvLog.log_enqueue h
      rwa [enqueueArrivals_none s ha] at this
    exact InvLog.log_advance h1
  | finish i hp hr => exact InvLog.log_late_arrivals (InvLog.log_step_finish hc h hp) rfl
  | preempt i hp hr hq hl => exact InvLog.log_late_arrivals (InvLog.log_step_preempt h hp) rfl
  | renew i q hp hr hq hl hq1 hcq => exact InvLog.log_late_arrivals (InvLog.log_step_workProc h) rfl
  | work i hp hr hq => exact InvLog.log_late_arrivals (InvLog.log_step_workProc h) rfl
  | late hd rest q hp hl hq1 hcq =>
    exact InvLog.log_late_arrivals (InvLog.log_dispatch_work hc h hp hl) rfl
  | early hd rest q hp hl ha hq1 hcq =>
    have hc1 := InvCore.core_enqueue hc
    have h3 := @InvLog.log_dispatch_work _ _ hd rest q hc1 (InvLog.log_enqueue h) (by simpa using hp)
      (by simpa [hl] using ha : (enqueueArrivals s).list = hd :: rest)
    have ht : (workStep (dispatchStep (enqueueArrivals s) hd rest q) hd).t = s.t := by
      simp [workStep, dispatchStep]
    rw [← ht] at h3
    exact InvLog.log_advance h3

/-! ## The invariant along a run -/

theorem Inv.at_start (ps : List Process) (q : Int) (hv : ValidInput ps) (hq : ValidQuantum q) :
    Inv (mainInit ps q) :=
  ⟨InvCore.core_init ps q hv hq, InvTime.time_init ps q hv, InvLog.log_init ps q hv⟩

theorem Inv.of_shape {s s' : State} (h : Inv s) (hs : TickShape s s') : Inv s' :=
  ⟨hs.inv h.core, hs.time h.core h.time, hs.log h.core h.log⟩

theorem Inv.tick {s s' : State} (h : Inv s) (ht : tick s = .ok s') : Inv s' :=
  h.of_shape (tick_shape_of_ok h.core ht)

theorem Inv.of_reach {s0 s : State} (h : Inv s0) (hr : Reach s0 s) : Inv s := by
  induction hr with
  | start => exact h
  | step _ _ ht ih => exact ih.tick ht

/-- The fields read from the input do not change along a run. -/
theorem Reach.static {s0 s : State} (h : Inv s0) (hr : Reach s0 s) :
    s.procs.length = s0.procs.length ∧ s.median_mode = s0.median_mode ∧
    ∀ j, (getP s.procs j).arrival_time = (getP s0.procs j).arrival_time ∧
      (getP s.procs j).burst_time = (getP s0.procs j).burst_time := by
  induction hr with
  | start => exact ⟨rfl, rfl, fun _ => ⟨rfl, rfl⟩⟩
  | step hr' _ ht ih =>
    have hs := tick_shape_of_ok (h.of_reach hr').core ht
    refine ⟨hs.length_eq.trans ih.1, hs.median_mode_eq.trans ih.2.1, fun j => ?_⟩
    exact ⟨(hs.arrival_eq j).trans (ih.2.2 j).1, (hs.burst_eq j).trans (ih.2.2 j).2⟩

theorem mainInit_static (ps : List Process) (q : Int) :
    (mainInit ps q).procs.length = ps.length ∧
    ∀ j, (getP (mainInit ps q).procs j).arrival_time = (getP ps j).arrival_time ∧
      (getP (mainInit ps q).procs j).burst_time = (getP ps j).burst_time := by
  have hlen : (initProcesses ps).length = ps.length := by simp [initProcesses]
  refine ⟨hlen, fun j => ?_⟩
  simp only [mainInit]
  by_cases hj : j < ps.length
  · rw [getP_initProcesses ps j hj]
    exact ⟨rfl, rfl⟩
  · have h1 : getP (initProcesses ps) j = default := by
      simp [getP, List.getD_eq_getElem?_getD, hlen, List.getElem?_eq_none (by omega : (initProcesses ps).length ≤ j)]
    have h2 : getP ps j = default := by
      simp [getP, List.getD_eq_getElem?_getD, List.getElem?_eq_none (by omega : ps.length ≤ j)]
    rw [h1, h2]
    exact ⟨rfl, rfl⟩

/-- When the loop condition fails, every process has arrived, is out of the list and is
not running. -/
theorem Inv.at_exit {s : State} (h : Inv s) (hc : ¬ loopCond s) :
    s.list = [] ∧ s.p = none ∧
    ∀ i, i < s.procs.length → (getP s.procs i).arrival_time < s.t := by
  unfold loopCond at hc
  push_neg at hc
  obtain ⟨h1, h2, h3⟩ := hc
  refine ⟨h1, h2, fun i hi => ?_⟩
  by_contra hcon
  have hle := arrivedBefore_length_le s.procs s.t
  have hna := h.core.num_arr
  have hall : (arrivedBefore s.procs s.t).length = (List.range s.procs.length).length := by
    rw [List.length_range]; omega
  unfold arrivedBefore at hall
  rw [List.filter_length_eq_length] at hall
  have := hall i (List.mem_range.mpr hi)
  simp only [decide_eq_true_eq] at this
  exact hcon this

/-! ## Termination -/

theorem le_maxArrival (ps : List Process) (p : Process) (hp : p ∈ ps) :
    p.arrival_time ≤ maxArrival ps := by
  unfold maxArrival
  induction ps with
  | nil => simp at hp
  | cons a l ih =>
    simp only [List.foldr_cons]
    rcases List.mem_cons.mp hp with rfl | h
    · exact le_max_left _ _
    · exact (ih h).trans (le_max_right _ _)

/-- From a state that satisfies the invariant the loop exits within `ticksLeft` iterations. -/
theorem runLoop_terminates (A : Int) (fuel : Nat) (s : State) (h : Inv s)
    (hA : ∀ i, i < s.procs.length → (getP s.procs i).arrival_time ≤ A)
    (hf : ticksLeft A s < fuel) :
    ∃ s', runLoop fuel s = .done s' := by
  induction fuel generalizing s with
  | zero => omega
  | succ n ih =>
    unfold runLoop
    by_cases hc : loopCond s
    · rw [if_pos hc]
      obtain ⟨s1, ht, hs⟩ := tick_shape h.core
      rw [ht]
      have hlt := hs.ticksLeft_lt h.core hc hA
      refine ih s1 (h.of_shape hs) ?_ (by omega)
      intro i hi
      rw [hs.arrival_eq]
      exact hA i (hs.length_eq ▸ hi)
    · rw [if_neg hc]
      exact ⟨s, rfl⟩

theorem ticksLeft_mainInit (ps : List Process) (q : Int) :
    ticksLeft (maxArrival ps) (mainInit ps q) + 1 = fuelBound ps := by
  unfold ticksLeft workLeft fuelBound
  simp only [mainInit, remSum_initProcesses]
  simp [initProcesses]

/-- On a valid input the loop of `main` exits within `fuelBound` iterations, in a state
that is reached from the initial one, satisfies the invariant and fails the loop condition. -/
theorem main_terminates (ps : List Process) (q : Int) (hv : ValidInput ps)
    (hq : ValidQuantum q) :
    ∃ s', (∀ k, runLoop (fuelBound ps + k) (mainInit ps q) = .done s') ∧
      Reach (mainInit ps q) s' ∧ Inv s' ∧ ¬ loopCond s' := by
  have hinv := Inv.at_start ps q hv hq
  have hst := mainInit_static ps q
  obtain ⟨s', hs'⟩ := runLoop_terminates (maxArrival ps) (fuelBound ps) (mainInit ps q) hinv
    (fun i hi => by
      rw [(hst.2 i).1]
      exact le_maxArrival ps _ (getP_mem ps i (hst.1 ▸ hi)))
    (by have := ticksLeft_mainInit ps q; omega)
  have hex := runLoop_exit _ _ _ hs'
  exact ⟨s', fun k => runLoop_add k _ _ _ hs', hex.2, hinv.of_reach hex.2, hex.1⟩

/-! ## Termination and the final times -/

/-- On a valid input the loop exits within `fuelBound` iterations, in a state in which
every process has `remaining_time` 0 and one assignment to `finish_time` in the trace. -/
theorem main_exit (ps : List Process) (q : Int) (hv : ValidInput ps) (hq : ValidQuantum q) :
    ∃ s', (∀ k, runLoop (fuelBound ps + k) (mainInit ps q) = .done s') ∧
      ¬ loopCond s' ∧ s'.procs.length = ps.length ∧
      ∀ i, i < ps.length →
        (getP s'.procs i).remaining_time = 0 ∧
        finTimes s'.log i = [(getP s'.procs i).finish_time] := by
  obtain ⟨s', hrun, hreach, hinv, hc⟩ := main_terminates ps q hv hq
  have hlen : s'.procs.length = ps.length :=
    (hreach.static (Inv.at_start ps q hv hq)).1.trans (mainInit_static ps q).1
  obtain ⟨hl, hp, harr⟩ := hinv.at_exit hc
  refine ⟨s', hrun, hc, hlen, fun i hi => ?_⟩
  have hi' : i < s'.procs.length := hlen ▸ hi
  have hnl : i ∉ s'.list := by simp [hl]
  have hnp : s'.p ≠ some i := by simp [hp]
  exact ⟨hinv.core.done_rem i hi' (harr i hi') hnl hnp,
    hinv.log.fin_done i hi' (harr i hi') hnl hnp⟩

/-- C1. On every valid input (at least one process, every burst time at least 1, no negative
arrival time) and for every quantum mode (median mode, or a fixed quantum of at least 1),
with unbounded integers, the loop of `main` exits within `fuelBound` iterations, and in the
state at the exit every process has `remaining_time` 0 and has had `finish_time` assigned
(exactly once, the value being the one in the table). -/
theorem scheduler_terminates (ps : List Process) (q : Int) (hv : ValidInput ps)
    (hq : ValidQuantum q) :
    ∃ s', (∀ k, runLoop (fuelBound ps + k) (mainInit ps q) = .done s') ∧
      ¬ loopCond s' ∧ s'.procs.length = ps.length ∧
      ∀ i, i < ps.length →
        (getP s'.procs i).remaining_time = 0 ∧
        finTimes s'.log i = [(getP s'.procs i).finish_time] :=
  main_exit ps q hv hq

/-- C1, on two processes (arrival 0 burst 3, arrival 1 burst 2) in median mode. -/
theorem scheduler_terminates_witness :
    ∃ s', (∀ k, runLoop (fuelBound [Process.input 1 0 3, Process.input 2 1 2] + k)
        (mainInit [Process.input 1 0 3, Process.input 2 1 2] (-1)) = .done s') ∧
      ¬ loopCond s' ∧
      s'.procs.length = [Process.input 1 0 3, Process.input 2 1 2].length ∧
      ∀ i, i < [Process.input 1 0 3, Process.input 2 1 2].length →
        (getP s'.procs i).remaining_time = 0 ∧
        finTimes s'.log i = [(getP s'.procs i).finish_time] :=
  scheduler_terminates [Process.input 1 0 3, Process.input 2 1 2] (-1)
    (by decide) (by decide)

theorem getP_finalize (procs : List Process) (i : Nat) (hi : i < procs.length) :
    getP (finalize procs) i =
      { getP procs i with
        waiting_time := (getP procs i).finish_time - (getP procs i).arrival_time
          - (getP procs i).burst_time
        response_time := (getP procs i).start_exec_time - (getP procs i).arrival_time } := by
  simp [getP, finalize, List.getD_eq_getElem?_getD, List.getElem?_eq_getElem hi]

/-- On a valid input the simulation returns the finalized table of the exit state. -/
theorem simulate_eq (ps : List Process) (q : Int) (hv : ValidInput ps) (hq : ValidQuantum q) :
    ∃ s', (∀ k, simulate (fuelBound ps + k) ps q = some (finalize s'.procs)) ∧
      Reach (mainInit ps q) s' ∧ Inv s' ∧ ¬ loopCond s' ∧ s'.procs.length = ps.length := by
  obtain ⟨s', hrun, hreach, hinv, hc⟩ := main_terminates ps q hv hq
  refine ⟨s', fun k => ?_, hreach, hinv, hc,
    (hreach.static (Inv.at_start ps q hv hq)).1.trans (mainInit_static ps q).1⟩
  unfold simulate
  rw [hrun k]

/-- With unbounded integers:
on every valid input and for every quantum mode the simulation ends, and in its
result every process has `response_time ≥ 0` and `waiting_time ≥ 0`, that is
`start_exec_time ≥ arrival_time` and `finish_time ≥ arrival_time + burst_time`
(the arrival and burst times being those of the input). -/
theorem times_nonneg (ps : List Process) (q : Int) (hv : ValidInput ps)
    (hq : ValidQuantum q) :
    ∃ res, (∀ k, simulate (fuelBound ps + k) ps q = some res) ∧ res.length = ps.length ∧
      ∀ i, i < ps.length →
        (getP res i).arrival_time = (getP ps i).arrival_time ∧
        (getP res i).burst_time = (getP ps i).burst_time ∧
        0 ≤ (getP res i).response_time ∧ 0 ≤ (getP res i).waiting_time ∧
        (getP res i).arrival_time ≤ (getP res i).start_exec_time ∧
        (getP res i).arrival_time + (getP res i).burst_time ≤ (getP res i).finish_time := by
  obtain ⟨s', hsim, hreach, hinv, hc, hlen⟩ := simulate_eq ps q hv hq
  have hst := hreach.static (Inv.at_start ps q hv hq)
  have hst0 := mainInit_static ps q
  obtain ⟨hl, hp, harr⟩ := hinv.at_exit hc
  refine ⟨finalize s'.procs, hsim, by simp [finalize, hlen], fun i hi => ?_⟩
  have hi' : i < s'.procs.length := hlen ▸ hi
  have hnl : i ∉ s'.list := by simp [hl]
  have hnp : s'.p ≠ some i := by simp [hp]
  have hd := hinv.time.done_times i hi' (harr i hi') hnl hnp
  have hs := hinv.time.started i hi'
  rw [getP_finalize _ i hi']
  dsimp only
  refine ⟨(hst.2.2 i).1.trans (hst0.2 i).1, (hst.2.2 i).2.trans (hst0.2 i).2, ?_, ?_, ?_, hd.2⟩
  · have := hd.1; omega
  · have := hd.2; omega
  · have := hd.1; omega

/-! ## Safety of the dispatch -/

theorem idleAdmission_list_ne_nil (s s1 : State) (added : Bool)
    (h : idleAdmission s (countArrivals s.procs s.t) = some (s1, added)) (hp : s1.p = none) :
    s1.list ≠ [] := by
  rw [countArrivals_eq] at h
  by_cases hi : s.list = [] ∧ s.p = none
  · by_cases ha : arrivingNow s.procs s.t = []
    · rw [idleAdmission_idle s hi.1 hi.2 ha] at h
      simp at h
    · rw [idleAdmission_early s hi.1 hi.2 ha] at h
      injection h with h
      injection h with h1 h2
      subst h1
      simpa [hi.1] using ha
  · rw [idleAdmission_busy s _ hi] at h
    injection h with h
    injection h with h1 h2
    subst h1
    intro hl
    exact hi ⟨hl, hp⟩

theorem preempted_none (s : State) (hp : s.p = none) : preempted s = [] := by
  unfold preempted; rw [hp]

theorem preempted_some (s : State) (i : Nat) (hp : s.p = some i) :
    preempted s =
      if (getP s.procs i).remaining_time ≠ 0 ∧ s.quantum_left = 0 ∧ s.list ≠ [] then [i]
      else [] := by
  unfold preempted; rw [hp]

/-- The insertions, the removal and the new list of an iteration. -/
theorem TickShape.queue {s s' : State} (hs : TickShape s s') :
    enqs s'.log = enqs s.log ++ preempted s ++ arrivingNow s.procs s.t ∧
    deqs s'.log = deqs s.log ++
      (if s.p = none then ((s.list ++ arrivingNow s.procs s.t).head?).toList else []) ∧
    s'.list =
      (if s.p = none then (s.list ++ arrivingNow s.procs s.t).tail
       else s.list ++ preempted s ++ arrivingNow s.procs s.t) := by
  cases hs with
  | idle hl hp ha =>
    simp [advanceClock, preempted_none s hp, hp, hl, ha]
  | finish i hp hr =>
    simp [advanceClock, finishStep, preempted_some s i hp, hp, hr]
  | preempt i hp hr hq hl =>
    simp [advanceClock, preemptStep, preempted_some s i hp, hp, hr, hq, hl]
  | renew i q hp hr hq hl hq1 hc =>
    simp [advanceClock, renewStep, preempted_some s i hp, hp, hl]
  | work i hp hr hq =>
    simp [advanceClock, workStep, preempted_some s i hp, hp, hq]
  | late hd rest q hp hl hq1 hc =>
    simp [advanceClock, workStep, dispatchStep, preempted_none s hp, hp, hl]
  | early hd rest q hp hl ha hq1 hc =>
    simp [advanceClock, workStep, dispatchStep, preempted_none s hp, hp, hl, ha]

/-- With unbounded integers:
in every state the loop reaches on a valid input the ready list is first-in
first-out: the processes inserted so far are, in the order of the insertions, the processes
removed so far followed by the list. An iteration at tick `t` inserts the process it
preempts, if any, and after it the processes with `arrival_time == t`, contiguously and by
ascending index; when it dispatches it removes the head of the list; and the new list is
the old one with these changes and no other. -/
theorem ready_queue_fifo (ps : List Process) (q : Int) (hv : ValidInput ps)
    (hq : ValidQuantum q) (s : State) (hr : Reach (mainInit ps q) s) :
    enqs s.log = deqs s.log ++ s.list ∧
    (arrivingNow s.procs s.t).Sorted (· < ·) ∧
    (∀ i, i ∈ arrivingNow s.procs s.t ↔
      i < s.procs.length ∧ (getP s.procs i).arrival_time = s.t) ∧
    ∀ s', loopCond s → tick s = .ok s' →
      enqs s'.log = enqs s.log ++ preempted s ++ arrivingNow s.procs s.t ∧
      deqs s'.log = deqs s.log ++
        (if s.p = none then ((s.list ++ arrivingNow s.procs s.t).head?).toList else []) ∧
      s'.list =
        (if s.p = none then (s.list ++ arrivingNow s.procs s.t).tail
         else s.list ++ preempted s ++ arrivingNow s.procs s.t) := by
  have hinv := (Inv.at_start ps q hv hq).of_reach hr
  exact ⟨hinv.log.fifo, arrivingNow_sorted _ _, mem_arrivingNow _ _,
    fun s' _ ht => (tick_shape_of_ok hinv.core ht).queue⟩

theorem start_dispatch (procs : List Process) (hd j : Nat) (t : Int) (log : List Event)
    (hh : hd < procs.length) :
    ((getP procs j).start_exec_time ≠ -1 →
      (getP (markStart procs hd t) j).start_exec_time = (getP procs j).start_exec_time) ∧
    ((getP procs j).start_exec_time = -1 →
      ((getP (markStart procs hd t) j).start_exec_time = -1 ∧
        deqTimes (log ++ [Event.deq hd t]) j = deqTimes log j) ∨
      ((getP (markStart procs hd t) j).start_exec_time = t ∧
        deqTimes (log ++ [Event.deq hd t]) j = deqTimes log j ++ [t])) := by
  rw [markStart_start procs hd j t hh, deqTimes_append, deqTimes_deq]
  by_cases hj : j = hd
  · subst hj
    constructor
    · intro h; rw [if_neg (by simp [h])]
    · intro h; right; simp [h]
  · have hj2 : ¬ hd = j := fun e => hj e.symm
    constructor
    · intro _; rw [if_neg (by simp [hj])]
    · intro h; left; simp [hj, hj2, h]

/-- What an iteration does to `start_exec_time` and to `finish_time`. -/
theorem TickShape.marks {s s' : State} (h : InvCore s.t s) (hs : TickShape s s') (j : Nat) :
    ((getP s.procs j).start_exec_time ≠ -1 →
      (getP s'.procs j).start_exec_time = (getP s.procs j).start_exec_time) ∧
    ((getP s.procs j).start_exec_time = -1 →
      ((getP s'.procs j).start_exec_time = -1 ∧ deqTimes s'.log j = deqTimes s.log j) ∨
      ((getP s'.procs j).start_exec_time = s.t ∧
        deqTimes s'.log j = deqTimes s.log j ++ [s.t])) ∧
    ((finTimes s'.log j = finTimes s.log j ∧
        (getP s'.procs j).finish_time = (getP s.procs j).finish_time) ∨
      ((getP s.procs j).remaining_time = 0 ∧ (getP s'.procs j).remaining_time = 0 ∧
        finTimes s'.log j = finTimes s.log j ++ [s.t] ∧
        (getP s'.procs j).finish_time = s.t)) := by
  cases hs with
  | idle hl hp ha =>
    exact ⟨fun _ => rfl, fun h1 => Or.inl ⟨h1, rfl⟩, Or.inl ⟨rfl, rfl⟩⟩
  | finish i hp hr =>
    have hpi := h.p_ok i hp
    refine ⟨fun _ => by simp [advanceClock, finishStep],
      fun h1 => Or.inl ⟨by simpa [advanceClock, finishStep] using h1,
        by simp [advanceClock, finishStep]⟩, ?_⟩
    by_cases hj : j = i
    · subst hj
      right
      refine ⟨hr, by simpa [advanceClock, finishStep] using hr, ?_, ?_⟩
      · simp [advanceClock, finishStep, finTimes_cons_fin]
      · simp [advanceClock, finishStep, finishProc_finish _ _ _ _ hpi.1]
    · left
      have hj2 : ¬ i = j := fun e => hj e.symm
      constructor
      · simp [advanceClock, finishStep, finTimes_cons_fin, hj2]
      · simp [advanceClock, finishStep, finishProc_finish _ _ _ _ hpi.1, hj]
  | preempt i hp hr hq hl =>
    exact ⟨fun _ => by simp [advanceClock, preemptStep],
      fun h1 => Or.inl ⟨by simpa [advanceClock, preemptStep] using h1,
        by simp [advanceClock, preemptStep]⟩,
      Or.inl ⟨by simp [advanceClock, preemptStep], by simp [advanceClock, preemptStep]⟩⟩
  | renew i q hp hr hq hl hq1 hc =>
    exact ⟨fun _ => by simp [advanceClock, renewStep],
      fun h1 => Or.inl ⟨by simpa [advanceClock, renewStep] using h1,
        by simp [advanceClock, renewStep]⟩,
      Or.inl ⟨by simp [advanceClock, renewStep], by simp [advanceClock, renewStep]⟩⟩
  | work i hp hr hq =>
    exact ⟨fun _ => by simp [advanceClock, workStep],
      fun h1 => Or.inl ⟨by simpa [advanceClock, workStep] using h1,
        by simp [advanceClock, workStep]⟩,
      Or.inl ⟨by simp [advanceClock, workStep], by simp [advanceClock, workStep]⟩⟩
  | late hd rest q hp hl hq1 hc =>
    have hm := h.list_ok hd (hl ▸ List.mem_cons_self _ _)
    have hsd := start_dispatch s.procs hd j s.t s.log hm.1
    refine ⟨fun h1 => by simpa [advanceClock, workStep, dispatchStep] using hsd.1 h1,
      fun h1 => ?_,
      Or.inl ⟨by simp [advanceClock, workStep, dispatchStep],
        by simp [advanceClock, workStep, dispatchStep]⟩⟩
    simpa [advanceClock, workStep, dispatchStep, deqTimes_cons_deq, deqTimes_deq]
      using hsd.2 h1
  | early hd rest q hp hl ha hq1 hc =>
    have hmem : hd ∈ arrivingNow s.procs s.t := ha ▸ List.mem_cons_self _ _
    rw [mem_arrivingNow] at hmem
    have hsd := start_dispatch s.procs hd j s.t
      (s.log ++ (arrivingNow s.procs s.t).map (fun i => Event.enq i s.t)) hmem.1
    refine ⟨fun h1 => by simpa [advanceClock, workStep, dispatchStep] using hsd.1 h1,
      fun h1 => ?_,
      Or.inl ⟨by simp [advanceClock, workStep, dispatchStep],
        by simp [advanceClock, workStep, dispatchStep]⟩⟩
    simpa [advanceClock, workStep, dispatchStep] using hsd.2 h1

/-- With unbounded integers:
along a run on a valid input, in every state reached: `start_exec_time` of a
process is -1 as long as the process was never dispatched, and is the tick of its first
dispatch afterwards; an iteration leaves a `start_exec_time` other than -1 as it is, and sets
one that is -1 only by a dispatch, to the tick of the dispatch; `finish_time` has been assigned
at most once, and if so `remaining_time` is 0 and the table holds the value assigned; an
iteration assigns `finish_time` only to a process whose `remaining_time` is 0. And the run
ends in a state in which `finish_time` of every process has been assigned exactly once. -/
theorem start_finish_once (ps : List Process) (q : Int) (hv : ValidInput ps)
    (hq : ValidQuantum q) :
    (∀ s, Reach (mainInit ps q) s →
      (∀ i, i < s.procs.length →
        ((deqTimes s.log i = [] ∧ (getP s.procs i).start_exec_time = -1) ∨
          (∃ τ rest, deqTimes s.log i = τ :: rest ∧
            (getP s.procs i).start_exec_time = τ ∧ 0 ≤ τ)) ∧
        (finTimes s.log i = [] ∨
          (finTimes s.log i = [(getP s.procs i).finish_time] ∧
            (getP s.procs i).remaining_time = 0))) ∧
      ∀ s', loopCond s → tick s = .ok s' → ∀ i,
        ((getP s.procs i).start_exec_time ≠ -1 →
          (getP s'.procs i).start_exec_time = (getP s.procs i).start_exec_time) ∧
        ((getP s.procs i).start_exec_time = -1 →
          ((getP s'.procs i).start_exec_time = -1 ∧ deqTimes s'.log i = deqTimes s.log i) ∨
          ((getP s'.procs i).start_exec_time = s.t ∧
            deqTimes s'.log i = deqTimes s.log i ++ [s.t])) ∧
        ((finTimes s'.log i = finTimes s.log i ∧
            (getP s'.procs i).finish_time = (getP s.procs i).finish_time) ∨
          ((getP s.procs i).remaining_time = 0 ∧ (getP s'.procs i).remaining_time = 0 ∧
            finTimes s'.log i = finTimes s.log i ++ [s.t] ∧
            (getP s'.procs i).finish_time = s.t))) ∧
    ∃ s', (∀ k, runLoop (fuelBound ps + k) (mainInit ps q) = .done s') ∧
      s'.procs.length = ps.length ∧
      ∀ i, i < ps.length → finTimes s'.log i = [(getP s'.procs i).finish_time] := by
  constructor
  · intro s hr
    have hinv := (Inv.at_start ps q hv hq).of_reach hr
    refine ⟨fun i hi => ⟨hinv.log.deq_start i hi, ?_⟩,
      fun s' _ ht i => (tick_shape_of_ok hinv.core ht).marks hinv.core i⟩
    by_cases h1 : (getP s.procs i).arrival_time < s.t ∧ i ∉ s.list ∧ s.p ≠ some i
    · exact Or.inr ⟨hinv.log.fin_done i hi h1.1 h1.2.1 h1.2.2,
        hinv.core.done_rem i hi h1.1 h1.2.1 h1.2.2⟩
    · left
      refine hinv.log.fin_none i hi ?_
      by_contra hcon
      push_neg at hcon
      exact h1 ⟨hcon.1, hcon.2.1, hcon.2.2⟩
  · obtain ⟨s', hrun, _, hlen, hfin⟩ := main_exit ps q hv hq
    exact ⟨s', hrun, hlen, fun i hi => (hfin i hi).2⟩

/-! ## A single process -/

theorem calculateMedian_zeros (xs : List Int) (hne : xs ≠ []) (h0 : ∀ x ∈ xs, x = 0) :
    calculateMedian xs = some 0 := by
  obtain ⟨a, b, ha, hb, -, hm⟩ := calculateMedian_eq xs hne
  have ha0 : a = 0 := h0 a ((qsort_perm xs).subset (List.getElem?_mem ha))
  have hb0 : b = 0 := h0 b ((qsort_perm xs).subset (List.getElem?_mem hb))
  rw [hm, ha0, hb0]
  simp

theorem mainInit_fixed_one (ps : List Process) :
    mainInit ps 1 = { mainInit ps (-1) with median_mode := false } := by
  simp [mainInit]

theorem loopCond_median_mode (s : State) (m : Bool) :
    loopCond { s with median_mode := m } ↔ loopCond s := Iff.rfl

/-- Before the first dispatch the loop has only advanced the clock, and the run with fixed
quantum 1 has reached the same state. -/
theorem before_first_dispatch (ps : List Process) (hv : ValidInput ps) (s : State)
    (hr : Reach (mainInit ps (-1)) s) (hd : deqs s.log = []) :
    s = { mainInit ps (-1) with t := s.t } ∧
    Reach (mainInit ps 1) { s with median_mode := false } := by
  have hinv0 := Inv.at_start ps (-1) hv (Or.inl rfl)
  induction hr with
  | start => exact ⟨rfl, by rw [mainInit_fixed_one]; exact Reach.start⟩
  | step hr' hc ht ih =>
    rename_i s1 s2
    have hinv := hinv0.of_reach hr'
    have hs := tick_shape_of_ok hinv.core ht
    have hq := hs.queue.2.1
    rw [hd] at hq
    have hd1 : deqs s1.log = [] := by
      cases hdl : deqs s1.log with
      | nil => rfl
      | cons a l => rw [hdl] at hq; simp at hq
    obtain ⟨h1, h2⟩ := ih hd1
    have hp : s1.p = none := by rw [h1]; rfl
    have hl : s1.list = [] := by rw [h1]; rfl
    have ha : arrivingNow s1.procs s1.t = [] := by
      rw [hd1, if_pos hp, hl] at hq
      cases hal : arrivingNow s1.procs s1.t with
      | nil => rfl
      | cons a l => rw [hal] at hq; simp at hq
    have ht2 := tick_idle s1 hl hp ha
    rw [ht] at ht2
    injection ht2 with ht2
    subst ht2
    refine ⟨?_, ?_⟩
    · conv_lhs => rw [h1]
      rfl
    · refine Reach.step h2 ((loopCond_median_mode s1 false).mpr hc) ?_
      exact tick_idle { s1 with median_mode := false } hl hp ha

theorem quantumSample_fresh (procs : List Process) (l : List Nat) (npa : Int)
    (h : ∀ i ∈ l, (getP procs i).remaining_time = (getP procs i).burst_time) :
    quantumSample (l.map (getP procs)) none npa true = List.replicate l.length 0 := by
  unfold quantumSample
  simp only [Bool.true_eq_false, if_false, List.nil_append, List.map_map]
  rw [List.eq_replicate_iff]
  refine ⟨by simp, fun x hx => ?_⟩
  rw [List.mem_map] at hx
  obtain ⟨i, hi, rfl⟩ := hx
  simp [progress, h i hi]

theorem enqueueArrivals_median_mode_false (s : State) :
    enqueueArrivals { s with median_mode := false }
      = { enqueueArrivals s with median_mode := false } := by
  rw [enqueueArrivals_eq, enqueueArrivals_eq]

/-- C11. In median mode, on every valid input, the quantum computed at the first dispatch of
the simulation is 1: the dispatch follows the insertion of the arrivals into the empty list,
every sampled progress value is 0, the median is 0 and 1 is returned. Up to and including that
iteration the run is the run with fixed quantum 1 (apart from the mode flag); this holds
for any number of processes, a single one in particular. -/
theorem first_dispatch_quantum (ps : List Process) (hv : ValidInput ps) (s s' : State)
    (hr : Reach (mainInit ps (-1)) s) (hd : deqs s.log = []) (ht : tick s = .ok s')
    (hd' : deqs s'.log ≠ []) :
    s.p = none ∧ s.list = [] ∧ arrivingNow s.procs s.t ≠ [] ∧
    quantumSample ((arrivingNow s.procs s.t).map (getP s.procs)) none
        ((arrivingNow s.procs s.t).length : Int) true
      = List.replicate (arrivingNow s.procs s.t).length 0 ∧
    calculateMedian (List.replicate (arrivingNow s.procs s.t).length 0) = some 0 ∧
    calculateQuantum s.median_mode ((arrivingNow s.procs s.t).map (getP s.procs)) none
        ((arrivingNow s.procs s.t).length : Int) true s.quantum_length = some 1 ∧
    s'.quantum_length = 1 ∧
    Reach (mainInit ps 1) { s with median_mode := false } ∧
    tick { s with median_mode := false } = .ok { s' with median_mode := false } := by
  have hinv := (Inv.at_start ps (-1) hv (Or.inl rfl)).of_reach hr
  obtain ⟨hs0, hrf⟩ := before_first_dispatch ps hv s hr hd
  have hinvf := (Inv.at_start ps 1 hv (Or.inr le_rfl)).of_reach hrf
  have hp : s.p = none := by rw [hs0]; rfl
  have hl : s.list = [] := by rw [hs0]; rfl
  have hmm : s.median_mode = true := by rw [hs0]; rfl
  have hql : s.quantum_length = 1 := by rw [hs0]; rfl
  have ha : arrivingNow s.procs s.t ≠ [] := by
    intro ha
    have ht2 := tick_idle s hl hp ha
    rw [ht] at ht2
    injection ht2 with ht2
    subst ht2
    exact hd' hd
  have hfresh : ∀ i ∈ arrivingNow s.procs s.t,
      (getP s.procs i).remaining_time = (getP s.procs i).burst_time := by
    intro i hi
    rw [mem_arrivingNow] at hi
    exact hinv.core.unarrived i hi.1 (by omega)
  have hsample := quantumSample_fresh s.procs _ ((arrivingNow s.procs s.t).length : Int) hfresh
  have hmed : calculateMedian (List.replicate (arrivingNow s.procs s.t).length 0) = some 0 :=
    calculateMedian_zeros _ (by simpa using ha) (fun x hx => (List.mem_replicate.mp hx).2)
  have hcq : calculateQuantum s.median_mode ((arrivingNow s.procs s.t).map (getP s.procs))
      none ((arrivingNow s.procs s.t).length : Int) true s.quantum_length = some 1 := by
    rw [calculateQuantum_eq _ _ _ _ _ _ (arrivingNow_length_nonneg _ _), hmm, hsample, hmed]
    simp
  have hcqf : calculateQuantum false ((arrivingNow s.procs s.t).map (getP s.procs))
      none ((arrivingNow s.procs s.t).length : Int) true s.quantum_length = some 1 := by
    simp [calculateQuantum, hql]
  refine ⟨hp, hl, ha, hsample, hmed, hcq, ?_, hrf, ?_⟩
  · have hs := tick_shape_of_ok hinv.core ht
    cases hs with
    | idle _ _ hn => exact absurd hn ha
    | finish i hpi _ => rw [hp] at hpi; simp at hpi
    | preempt i hpi _ _ _ => rw [hp] at hpi; simp at hpi
    | renew i q hpi _ _ _ _ _ => rw [hp] at hpi; simp at hpi
    | work i hpi _ _ => rw [hp] at hpi; simp at hpi
    | late hd1 rest q _ hl1 _ _ => rw [hl] at hl1; simp at hl1
    | early hd1 rest q _ _ _ _ hc =>
      rw [hcq] at hc
      injection hc with hc
      simp [advanceClock, workStep, dispatchStep, ← hc]
  · have hs := tick_shape_of_ok hinv.core ht
    obtain ⟨sf', htf, hsf⟩ := tick_shape hinvf.core
    rw [htf]
    congr 1
    cases hs with
    | idle _ _ hn => exact absurd hn ha
    | finish i hpi _ => rw [hp] at hpi; simp at hpi
    | preempt i hpi _ _ _ => rw [hp] at hpi; simp at hpi
    | renew i q hpi _ _ _ _ _ => rw [hp] at hpi; simp at hpi
    | work i hpi _ _ => rw [hp] at hpi; simp at hpi
    | late hd1 rest q _ hl1 _ _ => rw [hl] at hl1; simp at hl1
    | early hd1 rest q _ _ hn1 _ hc =>
      rw [hcq] at hc
      injection hc with hc
      subst hc
      cases hsf with
      | idle _ _ hn => exact absurd hn ha
      | finish i hpi _ => simp [hp] at hpi
      | preempt i hpi _ _ _ => simp [hp] at hpi
      | renew i q hpi _ _ _ _ _ => simp [hp] at hpi
      | work i hpi _ _ => simp [hp] at hpi
      | late hd2 rest2 q _ hl2 _ _ => simp [hl] at hl2
      | early hd2 rest2 q2 _ _ hn2 _ hc2 =>
        dsimp only at hn2 hc2
        rw [hn1] at hn2
        injection hn2 with h1 h2
        subst h1 h2
        rw [hcqf] at hc2
        injection hc2 with hc2
        subst hc2
        simp only [enqueueArrivals_median_mode_false]
        rfl

theorem exampleWaiting_reach : Reach (mainInit [Process.input 1 2 3] (-1)) exampleWaiting :=
  Reach.step
    (Reach.step Reach.start (by decide)
      (rfl : tick (mainInit [Process.input 1 2 3] (-1))
        = .ok (advanceClock (mainInit [Process.input 1 2 3] (-1)))))
    (by decide)
    (rfl : tick (advanceClock (mainInit [Process.input 1 2 3] (-1))) = .ok exampleWaiting)

/-- C11, at the state reached after two idle ticks of the run in median mode on one process
(arrival 2, burst 3): the iteration of tick 2 is the first dispatch. -/
theorem first_dispatch_quantum_witness :
    exampleWaiting.p = none ∧ exampleWaiting.list = [] ∧
    arrivingNow exampleWaiting.procs exampleWaiting.t ≠ [] ∧
    quantumSample ((arrivingNow exampleWaiting.procs exampleWaiting.t).map
        (getP exampleWaiting.procs)) none
        ((arrivingNow exampleWaiting.procs exampleWaiting.t).length : Int) true
      = List.replicate (arrivingNow exampleWaiting.procs exampleWaiting.t).length 0 ∧
    calculateMedian
      (List.replicate (arrivingNow exampleWaiting.procs exampleWaiting.t).length 0) = some 0 ∧
    calculateQuantum exampleWaiting.median_mode
        ((arrivingNow exampleWaiting.procs exampleWaiting.t).map (getP exampleWaiting.procs))
        none ((arrivingNow exampleWaiting.procs exampleWaiting.t).length : Int) true
        exampleWaiting.quantum_length = some 1 ∧
    exampleStarted.quantum_length = 1 ∧
    Reach (mainInit [Process.input 1 2 3] 1) { exampleWaiting with median_mode := false } ∧
    tick { exampleWaiting with median_mode := false }
      = .ok { exampleStarted with median_mode := false } :=
  first_dispatch_quantum [Process.input 1 2 3] (by decide) exampleWaiting exampleStarted
    exampleWaiting_reach (by decide) rfl (by decide)

/-! ## Recomputing the quantum -/

theorem qsort_congr (xs ys : List Int) (h : xs.Perm ys) : qsort xs = qsort ys :=
  qsort_unique ys (qsort xs) ((qsort_perm xs).trans h) (qsort_sorted xs)

theorem calculateMedian_perm (xs ys : List Int) (h : xs.Perm ys) :
    calculateMedian xs = calculateMedian ys := by
  unfold calculateMedian
  rw [qsort_congr xs ys h, h.length_eq]

theorem qsort_idem (xs : List Int) : qsort (qsort xs) = qsort xs :=
  (qsort_unique (qsort xs) (qsort xs) (List.Perm.refl _) (qsort_sorted xs)).symm

/-- C12. A call of `calculateQuantum` returns the table and the list as it got them, and
a second call with the same arguments on what the first call left returns the same value;
`calculateMedian` applied again to the array that it has sorted returns the same value; and its
value is the same for every permutation of the sample. -/
theorem quantum_recompute (mm : Bool) (procs : List Process) (l : List Nat)
    (wp : Option Nat) (npa : Int) (added : Bool) (qSize : Int) (xs ys : List Int)
    (hperm : xs.Perm ys) :
    (calculateQuantumCall mm procs l wp npa added qSize).2 = (procs, l) ∧
    (calculateQuantumCall mm (calculateQuantumCall mm procs l wp npa added qSize).2.1
        (calculateQuantumCall mm procs l wp npa added qSize).2.2 wp npa added qSize).1
      = (calculateQuantumCall mm procs l wp npa added qSize).1 ∧
    (calculateMedianCall (calculateMedianCall xs).1).2 = (calculateMedianCall xs).2 ∧
    (calculateMedianCall (calculateMedianCall xs).1).1 = (calculateMedianCall xs).1 ∧
    calculateMedian xs = calculateMedian ys :=
  ⟨rfl, rfl, calculateMedian_perm _ _ (qsort_perm xs), qsort_idem xs,
    calculateMedian_perm xs ys hperm⟩

/-- C12, in median mode on a table of two processes with progress 3 and 5, the first
running and the second queued, and on the sample 3, 0, 5 and its permutation 5, 3, 0. -/
theorem quantum_recompute_witness :
    (calculateQuantumCall true [⟨1, 0, 4, 1, 0, 0, 0, 0⟩, ⟨2, 0, 6, 1, 0, 0, 0, 0⟩] [1]
        (some 0) 1 false 7).2
      = ([⟨1, 0, 4, 1, 0, 0, 0, 0⟩, ⟨2, 0, 6, 1, 0, 0, 0, 0⟩], [1]) ∧
    (calculateQuantumCall true
        (calculateQuantumCall true [⟨1, 0, 4, 1, 0, 0, 0, 0⟩, ⟨2, 0, 6, 1, 0, 0, 0, 0⟩] [1]
          (some 0) 1 false 7).2.1
        (calculateQuantumCall true [⟨1, 0, 4, 1, 0, 0, 0, 0⟩, ⟨2, 0, 6, 1, 0, 0, 0, 0⟩] [1]
          (some 0) 1 false 7).2.2 (some 0) 1 false 7).1
      = (calculateQuantumCall true [⟨1, 0, 4, 1, 0, 0, 0, 0⟩, ⟨2, 0, 6, 1, 0, 0, 0, 0⟩] [1]
          (some 0) 1 false 7).1 ∧
    (calculateMedianCall (calculateMedianCall [3, 0, 5]).1).2 = (calculateMedianCall [3, 0, 5]).2 ∧
    (calculateMedianCall (calculateMedianCall [3, 0, 5]).1).1 = (calculateMedianCall [3, 0, 5]).1 ∧
    calculateMedian [3, 0, 5] = calculateMedian [5, 3, 0] :=
  quantum_recompute true [⟨1, 0, 4, 1, 0, 0, 0, 0⟩, ⟨2, 0, 6, 1, 0, 0, 0, 0⟩] [1] (some 0) 1
    false 7 [3, 0, 5] [5, 3, 0] (by decide)

/-! ## The quantum counter -/

theorem TickShape.quantum_le {s s' : State} (hs : TickShape s s')
    (h : s.p ≠ none → s.quantum_left ≤ s.quantum_length) :
    s'.p ≠ none → s'.quantum_left ≤ s'.quantum_length := by
  cases hs with
  | idle hl hp ha => simpa [advanceClock] using h
  | finish i hp hr => simp [advanceClock, finishStep]
  | preempt i hp hr hq hl => simp [advanceClock, preemptStep]
  | renew i q hp hr hq hl hq1 hc => simp [advanceClock, renewStep]
  | work i hp hr hq =>
    have := h (by simp [hp])
    simp only [advanceClock, workStep, enqueueArrivals_p, enqueueArrivals_quantum_left,
      enqueueArrivals_quantum_length]
    intro _; omega
  | late hd rest q hp hl hq1 hc => simp [advanceClock, workStep, dispatchStep]
  | early hd rest q hp hl ha hq1 hc => simp [advanceClock, workStep, dispatchStep]

theorem reach_quantum_le {s0 s : State} (h0 : Inv s0)
    (hq0 : s0.p ≠ none → s0.quantum_left ≤ s0.quantum_length) (hr : Reach s0 s) :
    s.p ≠ none → s.quantum_left ≤ s.quantum_length := by
  induction hr with
  | start => exact hq0
  | step hr' _ ht ih =>
    exact (tick_shape_of_ok (h0.of_reach hr').core ht).quantum_le ih

/-- With unbounded integers:
on every valid input and in every quantum mode, in every state the loop reaches:
the quantum in force is at least 1, and while a process runs `0 ≤ quantum_left ≤
quantum_length`; the quantum computed at a dispatch is at least 1, and so is the quantum
computed when the counter is 0 and the list is empty; and the samples of these two calls are
not empty and hold no negative value. -/
theorem quantum_bounds (ps : List Process) (q : Int) (hv : ValidInput ps)
    (hq : ValidQuantum q) (s : State) (hr : Reach (mainInit ps q) s) :
    1 ≤ s.quantum_length ∧
    (s.p ≠ none → 0 ≤ s.quantum_left ∧ s.quantum_left ≤ s.quantum_length) ∧
    (∀ s1 added, idleAdmission s (countArrivals s.procs s.t) = some (s1, added) →
      s1.p = none →
      quantumSample (s1.list.map (getP s1.procs)) none (countArrivals s.procs s.t) added ≠ [] ∧
      (∀ x ∈ quantumSample (s1.list.map (getP s1.procs)) none
          (countArrivals s.procs s.t) added, 0 ≤ x) ∧
      ∃ q1, calculateQuantum s1.median_mode (s1.list.map (getP s1.procs)) none
          (countArrivals s.procs s.t) added s1.quantum_length = some q1 ∧ 1 ≤ q1) ∧
    (∀ i, s.p = some i → (getP s.procs i).remaining_time ≠ 0 → s.quantum_left = 0 →
      s.list = [] →
      quantumSample [] (some (getP s.procs i)) (countArrivals s.procs s.t) false ≠ [] ∧
      (∀ x ∈ quantumSample [] (some (getP s.procs i)) (countArrivals s.procs s.t) false,
        0 ≤ x) ∧
      ∃ q1, calculateQuantum s.median_mode [] (some (getP s.procs i))
          (countArrivals s.procs s.t) false s.quantum_length = some q1 ∧ 1 ≤ q1) ∧
    ∀ s', tick s = .ok s' → 1 ≤ s'.quantum_length ∧
      (s'.p ≠ none → 0 ≤ s'.quantum_left ∧ s'.quantum_left ≤ s'.quantum_length) := by
  have hinv0 := Inv.at_start ps q hv hq
  have hinv := hinv0.of_reach hr
  have hle := reach_quantum_le hinv0 (fun h => absurd rfl h) hr
  have hnpa : (0 : Int) ≤ countArrivals s.procs s.t := by
    rw [countArrivals_eq]; exact arrivingNow_length_nonneg _ _
  refine ⟨hinv.core.qlen, fun hp => ⟨hinv.core.qleft hp, hle hp⟩, ?_, ?_, ?_⟩
  · intro s1 added h1 hp1
    have hl1 := idleAdmission_list_ne_nil s s1 added h1 hp1
    have hc1 : InvCore (if added then s.t + 1 else s.t) s1 := by
      rw [countArrivals_eq] at h1
      by_cases hi : s.list = [] ∧ s.p = none
      · by_cases ha : arrivingNow s.procs s.t = []
        · rw [idleAdmission_idle s hi.1 hi.2 ha] at h1
          simp at h1
        · rw [idleAdmission_early s hi.1 hi.2 ha] at h1
          injection h1 with h1
          injection h1 with h1 h2
          subst h1 h2
          simpa using InvCore.core_enqueue hinv.core
      · rw [idleAdmission_busy s _ hi] at h1
        injection h1 with h1
        injection h1 with h1 h2
        subst h1 h2
        simpa using hinv.core
    obtain ⟨q1, hq1, hq2, -⟩ := hc1.quantum_dispatch (countArrivals s.procs s.t) added hnpa hl1
    refine ⟨?_, quantumSample_nonneg _ _ _ _ hc1.list_rem_le (fun _ hp => by simp at hp),
      q1, hq1, hq2⟩
    unfold quantumSample
    simp [hl1]
  · intro i hp hr1 hq1 hl
    obtain ⟨q1, hc, hq2, -⟩ := hinv.core.quantum_renew (countArrivals s.procs s.t) false hnpa i hp
    rw [hl] at hc
    refine ⟨by simp [quantumSample], ?_, q1, hc, hq2⟩
    refine quantumSample_nonneg _ _ _ _ (fun _ hp => by simp at hp) ?_
    intro p hpp
    injection hpp with hpp
    subst hpp
    exact (hinv.core.rem_range i (hinv.core.p_ok i hp).1).2
  · intro s' ht
    have hs := tick_shape_of_ok hinv.core ht
    have hinv' := hinv.of_shape hs
    exact ⟨hinv'.core.qlen, fun hp => ⟨hinv'.core.qleft hp, hs.quantum_le hle hp⟩⟩

/-! ## Expiry of the quantum with an empty list -/

/-- With unbounded integers:
at the head of every iteration, at tick `t`, on every valid input: the list holds no
process twice and does not hold the running process; it holds only processes with
`arrival_time < t` and `remaining_time > 0` whose `finish_time` was never assigned; the running
process has `arrival_time < t` and its `finish_time` was never assigned; every process with
`arrival_time < t` is exactly one of queued, running, or finished (its `finish_time` assigned,
its `remaining_time` 0); a process with `arrival_time ≥ t` is none of them; and `num_arrived`
is the number of processes with `arrival_time < t`. -/
theorem loop_head_partition (ps : List Process) (q : Int) (hv : ValidInput ps)
    (hq : ValidQuantum q) (s : State) (hr : Reach (mainInit ps q) s) :
    s.list.Nodup ∧
    (∀ i, s.p = some i → i ∉ s.list) ∧
    (∀ i, i ∈ s.list → i < s.procs.length ∧ (getP s.procs i).arrival_time < s.t ∧
      0 < (getP s.procs i).remaining_time ∧ finTimes s.log i = []) ∧
    (∀ i, s.p = some i → i < s.procs.length ∧ (getP s.procs i).arrival_time < s.t ∧
      finTimes s.log i = []) ∧
    (∀ i, i < s.procs.length → (getP s.procs i).arrival_time < s.t →
      (i ∈ s.list ∧ s.p ≠ some i ∧ finTimes s.log i = []) ∨
      (i ∉ s.list ∧ s.p = some i ∧ finTimes s.log i = []) ∨
      (i ∉ s.list ∧ s.p ≠ some i ∧
        finTimes s.log i = [(getP s.procs i).finish_time] ∧
        (getP s.procs i).remaining_time = 0)) ∧
    (∀ i, i < s.procs.length → s.t ≤ (getP s.procs i).arrival_time →
      i ∉ s.list ∧ s.p ≠ some i ∧ finTimes s.log i = []) ∧
    s.num_arrived =
      (((List.range s.procs.length).filter
        (fun i => decide ((getP s.procs i).arrival_time < s.t))).length : Int) := by
  have hinv := (Inv.at_start ps q hv hq).of_reach hr
  have hc := hinv.core
  refine ⟨hc.list_nodup, fun i hp => (hc.p_ok i hp).2.2, fun i hi => ?_, fun i hp => ?_,
    fun i hi harr => ?_, fun i hi harr => ?_, hc.num_arr⟩
  · have h1 := hc.list_ok i hi
    exact ⟨h1.1, h1.2.1, h1.2.2, hinv.log.fin_none i h1.1 (Or.inr (Or.inl hi))⟩
  · have h1 := hc.p_ok i hp
    exact ⟨h1.1, h1.2.1, hinv.log.fin_none i h1.1 (Or.inr (Or.inr hp))⟩
  · by_cases hl : i ∈ s.list
    · have hp : s.p ≠ some i := fun hp => (hc.p_ok i hp).2.2 hl
      exact Or.inl ⟨hl, hp, hinv.log.fin_none i hi (Or.inr (Or.inl hl))⟩
    · by_cases hp : s.p = some i
      · exact Or.inr (Or.inl ⟨hl, hp, hinv.log.fin_none i hi (Or.inr (Or.inr hp))⟩)
      · exact Or.inr (Or.inr ⟨hl, hp, hinv.log.fin_done i hi harr hl hp,
          hc.done_rem i hi harr hl hp⟩)
  · refine ⟨fun hl => ?_, fun hp => ?_, hinv.log.fin_none i hi (Or.inl harr)⟩
    · have := (hc.list_ok i hl).2.1; omega
    · have := (hc.p_ok i hp).2.1; omega

/-! ## The rest of a run -/

theorem reach_runLoop {s0 s sf : State} (hr : Reach s0 s) (fuel : Nat)
    (h : runLoop fuel s = .done sf) : ∃ k, runLoop (fuel + k) s0 = .done sf := by
  induction hr generalizing fuel with
  | start => exact ⟨0, h⟩
  | step hr' hc ht ih =>
    rename_i s1 s2
    have h1 : runLoop (fuel + 1) s1 = .done sf := by
      rw [runLoop, if_pos hc, ht]
      exact h
    obtain ⟨k, hk⟩ := ih (fuel + 1) h1
    exact ⟨1 + k, by rw [← Nat.add_assoc]; exact hk⟩

/-- The exit state of the run is reached from every state of the run. -/
theorem final_of_reach (ps : List Process) (q : Int) (hv : ValidInput ps)
    (hq : ValidQuantum q) (s : State) (hr : Reach (mainInit ps q) s) :
    ∃ sf, (∀ k, simulate (fuelBound ps + k) ps q = some (finalize sf.procs)) ∧
      Reach s sf ∧ Inv sf ∧ ¬ loopCond sf ∧ sf.procs.length = ps.length := by
  have hinv0 := Inv.at_start ps q hv hq
  have hinvs := hinv0.of_reach hr
  have hst := hr.static hinv0
  have hst0 := mainInit_static ps q
  obtain ⟨sf, hsf⟩ := runLoop_terminates (maxArrival ps) (ticksLeft (maxArrival ps) s + 1) s
    hinvs (fun i hi => by
      rw [(hst.2.2 i).1, (hst0.2 i).1]
      exact le_maxArrival ps _ (getP_mem ps i (by rw [← hst0.1, ← hst.1]; exact hi)))
    (by omega)
  obtain ⟨k, hk⟩ := reach_runLoop hr _ hsf
  have hex := runLoop_exit _ _ _ hsf
  obtain ⟨s2, hs2, hr2, hi2, hc2⟩ := main_terminates ps q hv hq
  have e1 : sf = s2 := runLoop_unique _ _ _ _ _ hk (hs2 0)
  subst e1
  refine ⟨sf, fun k => ?_, hex.2, hi2, hc2, (hr2.static hinv0).1.trans hst0.1⟩
  unfold simulate
  rw [hs2 k]

theorem start_persists {a b : State} (ha : Inv a) (hr : Reach a b) (i : Nat)
    (h : (getP a.procs i).start_exec_time ≠ -1) :
    (getP b.procs i).start_exec_time = (getP a.procs i).start_exec_time := by
  induction hr with
  | start => rfl
  | step hr' _ ht ih =>
    have hinv := ha.of_reach hr'
    have hm := ((tick_shape_of_ok hinv.core ht).marks hinv.core i).1
    rw [hm (by rw [ih]; exact h), ih]

theorem TickShape.unstarted {s s' : State} (hc : InvCore s.t s) (hs : TickShape s s')
    (hu : ∀ i, i < s.procs.length → s.t ≤ (getP s.procs i).arrival_time →
      (getP s.procs i).start_exec_time = -1) :
    ∀ i, i < s'.procs.length → s'.t ≤ (getP s'.procs i).arrival_time →
      (getP s'.procs i).start_exec_time = -1 := by
  intro i hi harr
  rw [hs.length_eq] at hi
  rw [hs.t_eq, hs.arrival_eq] at harr
  have h0 := hu i hi (by omega)
  cases hs with
  | idle hl hp ha => exact h0
  | finish j hp hr => simpa [advanceClock, finishStep] using h0
  | preempt j hp hr hq hl => simpa [advanceClock, preemptStep] using h0
  | renew j q hp hr hq hl hq1 hcq => simpa [advanceClock, renewStep] using h0
  | work j hp hr hq => simpa [advanceClock, workStep] using h0
  | late hd rest q hp hl hq1 hcq =>
    have hm := hc.list_ok hd (hl ▸ List.mem_cons_self _ _)
    have hne : i ≠ hd := by rintro rfl; omega
    simp only [advanceClock, workStep, dispatchStep, enqueueArrivals_procs, workProc_start]
    rw [markStart_start _ _ _ _ hm.1, if_neg (by simp [hne])]
    exact h0
  | early hd rest q hp hl ha hq1 hcq =>
    have hmem : hd ∈ arrivingNow s.procs s.t := ha ▸ List.mem_cons_self _ _
    rw [mem_arrivingNow] at hmem
    have hne : i ≠ hd := by rintro rfl; omega
    simp only [advanceClock, workStep, dispatchStep, enqueueArrivals_procs, workProc_start]
    rw [markStart_start _ _ _ _ hmem.1, if_neg (by simp [hne])]
    exact h0

/-- A process that has not arrived has `start_exec_time == -1`. -/
theorem reach_unstarted (ps : List Process) (q : Int) (hv : ValidInput ps)
    (hq : ValidQuantum q) (s : State) (hr : Reach (mainInit ps q) s) :
    ∀ i, i < s.procs.length → s.t ≤ (getP s.procs i).arrival_time →
      (getP s.procs i).start_exec_time = -1 := by
  have hinv0 := Inv.at_start ps q hv hq
  induction hr with
  | start =>
    intro i hi _
    have hlen : (initProcesses ps).length = ps.length := by simp [initProcesses]
    simp only [mainInit, hlen] at hi ⊢
    rw [getP_initProcesses ps i hi]
  | step hr' _ ht ih =>
    have hinv := hinv0.of_reach hr'
    exact (tick_shape_of_ok hinv.core ht).unstarted hinv.core ih

theorem arrivingNow_head (procs : List Process) (t : Int) (X : Nat) (hX : X < procs.length)
    (harr : (getP procs X).arrival_time = t)
    (hmin : ∀ j, j < X → (getP procs j).arrival_time ≠ t) :
    ∃ rest, arrivingNow procs t = X :: rest := by
  have hmem : X ∈ arrivingNow procs t := (mem_arrivingNow _ _ _).mpr ⟨hX, harr⟩
  have hs := arrivingNow_sorted procs t
  cases hl : arrivingNow procs t with
  | nil => rw [hl] at hmem; simp at hmem
  | cons h tl =>
    rw [hl] at hmem hs
    have hh : h ∈ arrivingNow procs t := by rw [hl]; exact List.mem_cons_self _ _
    rw [mem_arrivingNow] at hh
    rcases List.mem_cons.mp hmem with e | e
    · exact ⟨tl, by rw [e]⟩
    · have hlt : h < X := List.rel_of_sorted_cons hs X e
      exact absurd hh.2 (hmin h hlt)

/-! ## Arrival in the tick in which the CPU is released -/

theorem final_start (ps : List Process) (q : Int) (hv : ValidInput ps) (hq : ValidQuantum q)
    (s : State) (hr : Reach (mainInit ps q) s) (X : Nat) (hX : X < s.procs.length)
    (hs : (getP s.procs X).start_exec_time ≠ -1) :
    ∃ res, (∀ k, simulate (fuelBound ps + k) ps q = some res) ∧
      (getP res X).start_exec_time = (getP s.procs X).start_exec_time ∧
      (getP res X).response_time
        = (getP s.procs X).start_exec_time - (getP s.procs X).arrival_time := by
  have hinv0 := Inv.at_start ps q hv hq
  obtain ⟨sf, hsim, hrf, hinvf, -, hlen⟩ := final_of_reach ps q hv hq s hr
  have hst := hr.static hinv0
  have hstf := (hr.trans hrf).static hinv0
  have hXf : X < sf.procs.length := by rw [hstf.1, ← hst.1]; exact hX
  have hstart := start_persists (hinv0.of_reach hr) hrf X hs
  have harr : (getP sf.procs X).arrival_time = (getP s.procs X).arrival_time := by
    rw [(hstf.2.2 X).1, (hst.2.2 X).1]
  refine ⟨finalize sf.procs, hsim, ?_, ?_⟩
  · rw [getP_finalize _ X hXf]; exact hstart
  · rw [getP_finalize _ X hXf]
    dsimp only
    rw [hstart, harr]

/-- With unbounded integers:
let `X` be the lowest-index process with `arrival_time == t`, at a tick `t` at whose
head the list is empty. If the running process is found with `remaining_time == 0` (so that
`finish_time = t` and the CPU is released), then `X` is dispatched at tick `t + 1`:
`start_exec_time` of `X` is `t + 1` and its `response_time` is 1. If no process is running,
`X` is dispatched in the tick `t` itself and its `response_time` is 0. -/
theorem arrival_at_release (ps : List Process) (q : Int) (hv : ValidInput ps)
    (hq : ValidQuantum q) (s : State) (hr : Reach (mainInit ps q) s) (X : Nat)
    (hX : X < s.procs.length) (harr : (getP s.procs X).arrival_time = s.t)
    (hmin : ∀ j, j < X → (getP s.procs j).arrival_time ≠ s.t) (hl : s.list = []) :
    (∀ i, s.p = some i → (getP s.procs i).remaining_time = 0 →
      ∃ s' s'' res, tick s = .ok s' ∧ (getP s'.procs i).finish_time = s.t ∧ s'.p = none ∧
        s'.t = s.t + 1 ∧ (getP s'.procs X).start_exec_time = -1 ∧
        tick s' = .ok s'' ∧ s''.p = some X ∧
        (getP s''.procs X).start_exec_time = s.t + 1 ∧
        (∀ k, simulate (fuelBound ps + k) ps q = some res) ∧
        (getP res X).start_exec_time = s.t + 1 ∧ (getP res X).response_time = 1) ∧
    (s.p = none →
      ∃ s' res, tick s = .ok s' ∧ s'.p = some X ∧ (getP s'.procs X).start_exec_time = s.t ∧
        (∀ k, simulate (fuelBound ps + k) ps q = some res) ∧
        (getP res X).start_exec_time = s.t ∧ (getP res X).response_time = 0) := by
  have hinv0 := Inv.at_start ps q hv hq
  have hinv := hinv0.of_reach hr
  have hun := reach_unstarted ps q hv hq s hr X hX (by omega)
  have ht0 := hinv.core.t_nonneg
  obtain ⟨rest, hrest⟩ := arrivingNow_head s.procs s.t X hX harr hmin
  obtain ⟨s', ht, hs⟩ := tick_shape hinv.core
  have hr' : Reach (mainInit ps q) s' := by
    refine Reach.step hr ?_ ht
    unfold loopCond
    by_cases hp : s.p = none
    · right; right
      have hlt : (arrivedBefore s.procs s.t).length < s.procs.length := by
        by_contra hcon
        have hle := arrivedBefore_length_le s.procs s.t
        have hall : (arrivedBefore s.procs s.t).length = (List.range s.procs.length).length := by
          rw [List.length_range]; omega
        unfold arrivedBefore at hall
        rw [List.filter_length_eq_length] at hall
        have := hall X (List.mem_range.mpr hX)
        simp only [decide_eq_true_eq] at this
        omega
      have := hinv.core.num_arr
      omega
    · exact Or.inr (Or.inl hp)
  have hinv' := hinv.of_shape hs
  constructor
  · intro i hp hrem
    have hpi := hinv.core.p_ok i hp
    have hs1 : s' = advanceClock (enqueueArrivals (finishStep s i)) := by
      cases hs with
      | idle _ hp1 _ => rw [hp] at hp1; simp at hp1
      | finish j hp1 _ => rw [hp] at hp1; injection hp1 with hp1; rw [hp1]
      | preempt j hp1 hr1 _ _ =>
        rw [hp] at hp1; injection hp1 with hp1; subst hp1; exact absurd hrem hr1
      | renew j _ hp1 hr1 _ _ _ _ =>
        rw [hp] at hp1; injection hp1 with hp1; subst hp1; exact absurd hrem hr1
      | work j hp1 hr1 _ =>
        rw [hp] at hp1; injection hp1 with hp1; subst hp1; exact absurd hrem hr1
      | late _ _ _ hp1 _ _ _ => rw [hp] at hp1; simp at hp1
      | early _ _ _ hp1 _ _ _ _ => rw [hp] at hp1; simp at hp1
    have hp' : s'.p = none := by rw [hs1]; simp [advanceClock, finishStep]
    have hl' : s'.list = X :: rest := by
      rw [hs1]; simp [advanceClock, finishStep, hl, hrest]
    have ht' : s'.t = s.t + 1 := by rw [hs1]; simp [advanceClock, finishStep]
    have hlen' : s'.procs.length = s.procs.length := by
      rw [hs1]; simp [advanceClock, finishStep]
    have hst' : (getP s'.procs X).start_exec_time = -1 := by
      rw [hs1]; simpa [advanceClock, finishStep] using hun
    have hfin : (getP s'.procs i).finish_time = s.t := by
      rw [hs1]
      simp [advanceClock, finishStep, finishProc_finish _ _ _ _ hpi.1]
    obtain ⟨s'', ht2, hs2⟩ := tick_shape hinv'.core
    have hs3 : ∃ q1, s'' = advanceClock (enqueueArrivals
        (workStep (dispatchStep s' X rest q1) X)) := by
      cases hs2 with
      | idle hl1 _ _ => rw [hl'] at hl1; simp at hl1
      | finish j hp1 _ => rw [hp'] at hp1; simp at hp1
      | preempt j hp1 _ _ _ => rw [hp'] at hp1; simp at hp1
      | renew j _ hp1 _ _ _ _ _ => rw [hp'] at hp1; simp at hp1
      | work j hp1 _ _ => rw [hp'] at hp1; simp at hp1
      | late hd2 rest2 q2 _ hl2 _ _ =>
        rw [hl'] at hl2
        injection hl2 with h1 h2
        subst h1 h2
        exact ⟨q2, rfl⟩
      | early _ _ _ _ hl2 _ _ _ => rw [hl'] at hl2; simp at hl2
    obtain ⟨q1, hs3⟩ := hs3
    have hp'' : s''.p = some X := by rw [hs3]; simp [advanceClock, workStep, dispatchStep]
    have hst'' : (getP s''.procs X).start_exec_time = s.t + 1 := by
      rw [hs3]
      simp only [advanceClock, workStep, dispatchStep, enqueueArrivals_procs, workProc_start]
      rw [markStart_start _ _ _ _ (by rw [hlen']; exact hX), if_pos ⟨rfl, hst'⟩, ht']
    have hr'' : Reach (mainInit ps q) s'' :=
      Reach.step hr' (Or.inl (by rw [hl']; simp)) ht2
    have hX'' : X < s''.procs.length := by
      rw [(hr''.static hinv0).1, ← (hr.static hinv0).1]; exact hX
    obtain ⟨res, hsim, hres1, hres2⟩ :=
      final_start ps q hv hq s'' hr'' X hX'' (by rw [hst'']; omega)
    have harr'' : (getP s''.procs X).arrival_time = s.t := by
      rw [((hr''.static hinv0).2.2 X).1, ← ((hr.static hinv0).2.2 X).1]; exact harr
    refine ⟨s', s'', res, ht, hfin, hp', ht', hst', ht2, hp'', hst'', hsim, ?_, ?_⟩
    · rw [hres1, hst'']
    · rw [hres2, hst'', harr'']; omega
  · intro hp
    have hs1 : ∃ q1, s' = advanceClock (workStep (dispatchStep (enqueueArrivals s) X rest q1) X) := by
      cases hs with
      | idle _ _ ha => rw [hrest] at ha; simp at ha
      | finish j hp1 _ => rw [hp] at hp1; simp at hp1
      | preempt j hp1 _ _ _ => rw [hp] at hp1; simp at hp1
      | renew j _ hp1 _ _ _ _ _ => rw [hp] at hp1; simp at hp1
      | work j hp1 _ _ => rw [hp] at hp1; simp at hp1
      | late _ _ _ _ hl2 _ _ => rw [hl] at hl2; simp at hl2
      | early hd2 rest2 q2 _ _ ha2 _ _ =>
        rw [hrest] at ha2
        injection ha2 with h1 h2
        subst h1 h2
        exact ⟨q2, rfl⟩
    obtain ⟨q1, hs1⟩ := hs1
    have hp' : s'.p = some X := by rw [hs1]; simp [advanceClock, workStep, dispatchStep]
    have hst' : (getP s'.procs X).start_exec_time = s.t := by
      rw [hs1]
      simp only [advanceClock, workStep, dispatchStep, enqueueArrivals_procs, workProc_start,
        enqueueArrivals_t]
      rw [markStart_start _ _ _ _ hX, if_pos ⟨rfl, hun⟩]
    have hX' : X < s'.procs.length := by
      rw [(hr'.static hinv0).1, ← (hr.static hinv0).1]; exact hX
    obtain ⟨res, hsim, hres1, hres2⟩ :=
      final_start ps q hv hq s' hr' X hX' (by rw [hst']; omega)
    have harr' : (getP s'.procs X).arrival_time = s.t := by
      rw [((hr'.static hinv0).2.2 X).1, ← ((hr.static hinv0).2.2 X).1]; exact harr
    refine ⟨s', res, ht, hp', hst', hsim, ?_, ?_⟩
    · rw [hres1, hst']
    · rw [hres2, hst', harr']; omega

/-! ## Processes that all arrive at tick 0, with a quantum that never expires -/

theorem digit_range (c : Nat) (h : isDigit c = true) : 0 ≤ (c : Int) - 48 ∧ (c : Int) - 48 ≤ 9 := by
  simp only [isDigit, decide_eq_true_eq] at h
  omega

theorem foldl_digits_ge (run : List Nat) (hrun : ∀ c ∈ run, isDigit c = true) (v : Int)
    (hv : 0 ≤ v) : v ≤ run.foldl digitStep v := by
  induction run generalizing v with
  | nil => exact le_refl _
  | cons c cs ih =>
    have hc := digit_range c (hrun c (List.mem_cons_self _ _))
    have := ih (fun x hx => hrun x (List.mem_cons_of_mem _ hx)) (v * 10 + ((c : Int) - 48))
      (by omega)
    rw [List.foldl_cons]
    unfold digitStep at this ⊢
    omega

theorem next_int_scan_skip (pre rest : List Nat) (hpre : ∀ c ∈ pre, isDigit c = false)
    (v : Int) :
    next_int_scan (pre ++ rest) v false = next_int_scan rest v false := by
  induction pre with
  | nil => rfl
  | cons c cs ih =>
    have hc := hpre c (List.mem_cons_self _ _)
    simp only [List.cons_append, next_int_scan, hc, Bool.false_eq_true, if_false]
    exact ih (fun x hx => hpre x (List.mem_cons_of_mem _ hx))

theorem next_int_scan_stop (post : List Nat) (hpost : ∀ c, post.head? = some c → isDigit c = false)
    (v : Int) : next_int_scan post v true = .ok (v, true, post) := by
  cases post with
  | nil => rfl
  | cons c cs =>
    have hc := hpost c rfl
    simp [next_int_scan, hc]

theorem next_int_scan_digits (run post : List Nat) (hrun : ∀ c ∈ run, isDigit c = true)
    (v : Int) (b : Bool) (hv : 0 ≤ v)
    (hval : run.foldl digitStep v ≤ LONG_MAX) :
    next_int_scan (run ++ post) v (b || !run.isEmpty)
      = next_int_scan post (run.foldl digitStep v)
          (b || !run.isEmpty) := by
  induction run generalizing v b with
  | nil => rfl
  | cons c cs ih =>
    have hcd := hrun c (List.mem_cons_self _ _)
    have hc := digit_range c hcd
    have hcs : ∀ x ∈ cs, isDigit x = true := fun x hx => hrun x (List.mem_cons_of_mem _ hx)
    have hds : digitStep v c = v * 10 + ((c : Int) - 48) := rfl
    rw [List.foldl_cons, hds] at hval
    have hge := foldl_digits_ge cs hcs (v * 10 + ((c : Int) - 48)) (by omega)
    have hmin : LONG_MIN ≤ 0 := by decide
    have h1 : ckd_mul v 10 = some (v * 10) := by
      unfold ckd_mul
      rw [if_pos]
      constructor <;> omega
    have h2 : ckd_add (v * 10) ((c : Int) - 48) = some (v * 10 + ((c : Int) - 48)) := by
      unfold ckd_add
      rw [if_pos]
      constructor <;> omega
    have := ih hcs (v * 10 + ((c : Int) - 48)) true (by omega) hval
    simp only [Bool.true_or] at this
    simp only [List.cons_append, next_int_scan, hcd, if_true, h1, h2, List.foldl_cons, hds,
      List.isEmpty_cons, Bool.not_false, Bool.or_true]
    exact this

theorem next_int_scan_overflow (run post : List Nat) (hrun : ∀ c ∈ run, isDigit c = true)
    (v : Int) (b : Bool) (hv : 0 ≤ v) (hv2 : v ≤ LONG_MAX)
    (hval : LONG_MAX < run.foldl digitStep v) :
    next_int_scan (run ++ post) v b = .error .integerOverflow := by
  induction run generalizing v b with
  | nil => rw [List.foldl_nil] at hval; omega
  | cons c cs ih =>
    have hcd := hrun c (List.mem_cons_self _ _)
    have hc := digit_range c hcd
    have hcs : ∀ x ∈ cs, isDigit x = true := fun x hx => hrun x (List.mem_cons_of_mem _ hx)
    have hds : digitStep v c = v * 10 + ((c : Int) - 48) := rfl
    rw [List.foldl_cons, hds] at hval
    simp only [List.cons_append, next_int_scan, hcd, if_true]
    by_cases hm : v * 10 ≤ LONG_MAX
    · have h1 : ckd_mul v 10 = some (v * 10) := by
        unfold ckd_mul
        rw [if_pos]
        have hmin : LONG_MIN ≤ 0 := by decide
        constructor <;> omega
      simp only [h1]
      by_cases ha : v * 10 + ((c : Int) - 48) ≤ LONG_MAX
      · have h2 : ckd_add (v * 10) ((c : Int) - 48) = some (v * 10 + ((c : Int) - 48)) := by
          unfold ckd_add
          rw [if_pos]
          have hmin : LONG_MIN ≤ 0 := by decide
          constructor <;> omega
        simp only [h2]
        exact ih hcs _ true (by omega) ha hval
      · have h2 : ckd_add (v * 10) ((c : Int) - 48) = none := by
          unfold ckd_add
          rw [if_neg]
          omega
        simp only [h2]
    · have h1 : ckd_mul v 10 = none := by
        unfold ckd_mul
        rw [if_neg]
        omega
      simp only [h1]

theorem text_split (data : List Nat) :
    data = skipped data ++ firstRun data ++ afterFirstRun data := by
  unfold skipped firstRun afterFirstRun
  rw [List.append_assoc, List.takeWhile_append_dropWhile, List.takeWhile_append_dropWhile]

theorem skipped_not_digit (data : List Nat) : ∀ c ∈ skipped data, isDigit c = false := by
  intro c hc
  have := List.mem_takeWhile_imp hc
  simpa using this

theorem firstRun_digit (data : List Nat) : ∀ c ∈ firstRun data, isDigit c = true := by
  intro c hc
  exact List.mem_takeWhile_imp hc

theorem afterFirstRun_head (data : List Nat) :
    ∀ c, (afterFirstRun data).head? = some c → isDigit c = false := by
  intro c hc
  unfold afterFirstRun at hc
  have := List.head?_dropWhile_not isDigit (data.dropWhile (fun c => !isDigit c))
  rw [hc] at this
  simpa using this

theorem firstRun_ne_nil (data : List Nat) (h : ∃ c ∈ data, isDigit c = true) :
    firstRun data ≠ [] := by
  obtain ⟨c, hc, hd⟩ := h
  unfold firstRun
  have hne : data.dropWhile (fun c => !isDigit c) ≠ [] := by
    intro hnil
    rw [List.dropWhile_eq_nil_iff] at hnil
    have := hnil c hc
    simp [hd] at this
  cases hdw : data.dropWhile (fun c => !isDigit c) with
  | nil => exact absurd hdw hne
  | cons x xs =>
    have := List.head?_dropWhile_not (fun c => !isDigit c) data
    rw [hdw] at this
    simp only [List.head?_cons, Option.some.injEq, Bool.not_not] at this
    have hx : isDigit x = true := by simpa using this
    simp [List.takeWhile_cons, hx]

theorem firstRun_nil (data : List Nat) (h : ∀ c ∈ data, isDigit c = false) :
    skipped data = data ∧ firstRun data = [] ∧ afterFirstRun data = [] := by
  have h1 : data.dropWhile (fun c => !isDigit c) = [] := by
    rw [List.dropWhile_eq_nil_iff]
    intro c hc
    simp [h c hc]
  have h2 : data.takeWhile (fun c => !isDigit c) = data := by
    rw [List.takeWhile_eq_self_iff]
    intro c hc
    simp [h c hc]
  unfold skipped firstRun afterFirstRun
  rw [h1, h2]
  exact ⟨rfl, rfl, rfl⟩

/-- The three outcomes of `next_int`. -/
theorem next_int_cases (data : List Nat) :
    ((∀ c ∈ data, isDigit c = false) → next_int data = .error .missingInteger) ∧
    ((∃ c ∈ data, isDigit c = true) → decimalValue (firstRun data) ≤ LONG_MAX →
      next_int data = .ok (decimalValue (firstRun data), afterFirstRun data)) ∧
    ((∃ c ∈ data, isDigit c = true) → LONG_MAX < decimalValue (firstRun data) →
      next_int data = .error .integerOverflow) := by
  refine ⟨fun h => ?_, fun h hval => ?_, fun h hval => ?_⟩
  · unfold next_int
    have := next_int_scan_skip data [] h 0
    rw [List.append_nil] at this
    rw [this]
    rfl
  · have hne := firstRun_ne_nil data h
    unfold next_int
    conv_lhs => rw [text_split data]
    rw [List.append_assoc, next_int_scan_skip _ _ (skipped_not_digit data)]
    have := next_int_scan_digits (firstRun data) (afterFirstRun data) (firstRun_digit data) 0
      false (le_refl _) hval
    have he : (firstRun data).isEmpty = false := by
      cases hfr : firstRun data with
      | nil => exact absurd hfr hne
      | cons _ _ => rfl
    rw [he] at this
    simp only [Bool.not_false, Bool.or_true, Bool.false_or] at this
    have h2 : next_int_scan (firstRun data ++ afterFirstRun data) 0 false
        = next_int_scan (firstRun data ++ afterFirstRun data) 0 true := by
      cases hfr : firstRun data with
      | nil => exact absurd hfr hne
      | cons c cs =>
        have hcd : isDigit c = true := firstRun_digit data c (by rw [hfr]; exact List.mem_cons_self _ _)
        simp only [List.cons_append, next_int_scan, hcd, if_true]
    rw [h2, this, next_int_scan_stop _ (afterFirstRun_head data)]
    rfl
  · unfold next_int
    conv_lhs => rw [text_split data]
    rw [List.append_assoc, next_int_scan_skip _ _ (skipped_not_digit data),
      next_int_scan_overflow (firstRun data) (afterFirstRun data) (firstRun_digit data) 0 false
        (le_refl _) (by decide) hval]

/-- C14. For every text that contains a decimal digit and whose first maximal run of digits
denotes a value of at most `LONG_MAX`, `next_int` returns the value that the run denotes and
leaves `*data` right after the run: the text is the bytes skipped, none of them a digit, then
the run, not empty and of digits only, then the bytes left, which are none or begin with a
byte that is not a digit. -/
theorem next_int_spec (data : List Nat) (h : ∃ c ∈ data, isDigit c = true)
    (hval : decimalValue (firstRun data) ≤ LONG_MAX) :
    next_int data = .ok (decimalValue (firstRun data), afterFirstRun data) ∧
    data = skipped data ++ firstRun data ++ afterFirstRun data ∧
    (∀ c ∈ skipped data, isDigit c = false) ∧
    firstRun data ≠ [] ∧ (∀ c ∈ firstRun data, isDigit c = true) ∧
    (∀ c, (afterFirstRun data).head? = some c → isDigit c = false) :=
  ⟨(next_int_cases data).2.1 h hval, text_split data, skipped_not_digit data,
    firstRun_ne_nil data h, firstRun_digit data, afterFirstRun_head data⟩

theorem next_int_spec_witness :
    next_int [97, 32, 49, 50, 10, 55] = .ok (decimalValue (firstRun [97, 32, 49, 50, 10, 55]),
        afterFirstRun [97, 32, 49, 50, 10, 55]) ∧
    [97, 32, 49, 50, 10, 55] = skipped [97, 32, 49, 50, 10, 55]
      ++ firstRun [97, 32, 49, 50, 10, 55] ++ afterFirstRun [97, 32, 49, 50, 10, 55] ∧
    (∀ c ∈ skipped [97, 32, 49, 50, 10, 55], isDigit c = false) ∧
    firstRun [97, 32, 49, 50, 10, 55] ≠ [] ∧
    (∀ c ∈ firstRun [97, 32, 49, 50, 10, 55], isDigit c = true) ∧
    (∀ c, (afterFirstRun [97, 32, 49, 50, 10, 55]).head? = some c → isDigit c = false) :=
  next_int_spec [97, 32, 49, 50, 10, 55] ⟨49, by decide, by decide⟩ (by decide)

/-! ## The integers of a text -/

theorem digitRunsFrom_digits (run : List Nat) (hrun : ∀ c ∈ run, isDigit c = true)
    (cur post : List Nat) :
    digitRunsFrom cur (run ++ post) = digitRunsFrom (cur ++ run) post := by
  induction run generalizing cur with
  | nil => simp
  | cons c cs ih =>
    have hc := hrun c (List.mem_cons_self _ _)
    have := ih (fun x hx => hrun x (List.mem_cons_of_mem _ hx)) (cur ++ [c])
    rw [List.append_assoc] at this
    simp only [List.cons_append, digitRunsFrom, hc, if_true]
    exact this

theorem digitRunsFrom_skip (pre rest : List Nat) (hpre : ∀ c ∈ pre, isDigit c = false) :
    digitRunsFrom [] (pre ++ rest) = digitRunsFrom [] rest := by
  induction pre with
  | nil => rfl
  | cons c cs ih =>
    have hc := hpre c (List.mem_cons_self _ _)
    simp only [List.cons_append, digitRunsFrom, hc, Bool.false_eq_true, if_false, if_true]
    exact ih (fun x hx => hpre x (List.mem_cons_of_mem _ hx))

theorem digitRunsFrom_stop (cur post : List Nat) (hcur : cur ≠ [])
    (hpost : ∀ c, post.head? = some c → isDigit c = false) :
    digitRunsFrom cur post = cur :: digitRunsFrom [] post := by
  cases post with
  | nil => simp [digitRunsFrom, hcur]
  | cons c cs =>
    have hc := hpost c rfl
    simp [digitRunsFrom, hc, hcur]

theorem digitRuns_nil (data : List Nat) (h : ∀ c ∈ data, isDigit c = false) :
    digitRuns data = [] := by
  have := digitRunsFrom_skip data [] h
  rw [List.append_nil] at this
  unfold digitRuns
  rw [this]
  rfl

theorem digitRuns_cons (data : List Nat) (h : ∃ c ∈ data, isDigit c = true) :
    digitRuns data = firstRun data :: digitRuns (afterFirstRun data) := by
  unfold digitRuns
  conv_lhs => rw [text_split data]
  rw [List.append_assoc, digitRunsFrom_skip _ _ (skipped_not_digit data),
    digitRunsFrom_digits _ (firstRun_digit data), List.nil_append,
    digitRunsFrom_stop _ _ (firstRun_ne_nil data h) (afterFirstRun_head data)]

theorem digit_or_not (data : List Nat) :
    (∀ c ∈ data, isDigit c = false) ∨ (∃ c ∈ data, isDigit c = true) := by
  by_cases h : ∃ c ∈ data, isDigit c = true
  · exact Or.inr h
  · left
    intro c hc
    by_contra hcon
    exact h ⟨c, hc, by simpa using hcon⟩

/-- The outcome of `next_int` from the integers of the text. -/
theorem next_int_runs (data : List Nat) :
    (digitRuns data = [] ∧ next_int data = .error .missingInteger) ∨
    (∃ r rs, digitRuns data = r :: rs ∧ LONG_MAX < decimalValue r ∧
      next_int data = .error .integerOverflow) ∨
    (∃ r rs d, digitRuns data = r :: rs ∧ decimalValue r ≤ LONG_MAX ∧
      next_int data = .ok (decimalValue r, d) ∧ digitRuns d = rs) := by
  rcases digit_or_not data with h | h
  · exact Or.inl ⟨digitRuns_nil data h, (next_int_cases data).1 h⟩
  · right
    by_cases hv : decimalValue (firstRun data) ≤ LONG_MAX
    · exact Or.inr ⟨_, _, _, digitRuns_cons data h, hv, (next_int_cases data).2.1 h hv, rfl⟩
    · exact Or.inl ⟨_, _, digitRuns_cons data h, by omega,
        (next_int_cases data).2.2 h (by omega)⟩

theorem take_three (a b c : List Nat) (rest : List (List Nat)) (n : Nat) :
    (a :: b :: c :: rest).take (3 * (n + 1)) = a :: b :: c :: rest.take (3 * n) := by
  rw [show 3 * (n + 1) = 3 * n + 1 + 1 + 1 by omega]
  simp only [List.take_succ_cons]

theorem getD_three (a b c : List Nat) (rest : List (List Nat)) (i k : Nat) :
    (a :: b :: c :: rest).getD (3 * (i + 1) + k) [] = rest.getD (3 * i + k) [] := by
  rw [show 3 * (i + 1) + k = (3 * i + k) + 1 + 1 + 1 by omega]
  rfl

theorem triples_succ (a b c : List Nat) (rest : List (List Nat)) (n : Nat) :
    triples (n + 1) (a :: b :: c :: rest)
      = Process.input (decimalValue a) (decimalValue b) (decimalValue c) :: triples n rest := by
  unfold triples
  rw [List.range_succ_eq_map, List.map_cons, List.map_map]
  congr 1

theorem loadSpec_zero (rs : List (List Nat)) (ps : List Process) :
    LoadSpec 0 rs ps ↔ ps = [] := by
  unfold LoadSpec
  simp [triples]

theorem loadSpec_short (n : Nat) (rs : List (List Nat)) (ps : List Process)
    (h : rs.length < 3) : ¬ LoadSpec (n + 1) rs ps := by
  intro hl
  have := hl.1
  omega

theorem loadSpec_succ (n : Nat) (a b c : List Nat) (rest : List (List Nat))
    (ps : List Process) :
    LoadSpec (n + 1) (a :: b :: c :: rest) ps ↔
      decimalValue a ≤ LONG_MAX ∧ decimalValue b ≤ LONG_MAX ∧ decimalValue c ≤ LONG_MAX ∧
      decimalValue c ≠ 0 ∧
      ∃ ps', LoadSpec n rest ps' ∧
        ps = Process.input (decimalValue a) (decimalValue b) (decimalValue c) :: ps' := by
  unfold LoadSpec
  rw [take_three, triples_succ]
  constructor
  · rintro ⟨h1, h2, h3, h4⟩
    refine ⟨h2 a (by simp), h2 b (by simp), h2 c (by simp), h3 0 (by omega), _,
      ⟨?_, fun r hr => h2 r (by simp [hr]), fun i hi => ?_, rfl⟩, h4⟩
    · simp only [List.length_cons] at h1
      omega
    · have := h3 (i + 1) (by omega)
      rw [getD_three] at this
      exact this
  · rintro ⟨ha, hb, hc, hc0, ps', ⟨h1, h2, h3, h4⟩, hps⟩
    refine ⟨?_, ?_, ?_, ?_⟩
    · simp only [List.length_cons]
      omega
    · intro r hr
      simp only [List.mem_cons] at hr
      rcases hr with rfl | rfl | rfl | hr
      · exact ha
      · exact hb
      · exact hc
      · exact h2 r hr
    · intro i hi
      cases i with
      | zero => exact hc0
      | succ j =>
        rw [getD_three]
        exact h3 j (by omega)
    · rw [hps, h4]

/-! ## Loading the table -/

theorem error_ne_ok {α : Type} (e : LoadError) (a : α) {P : Prop} (h : ¬ P) :
    (Except.error e : Except LoadError α) = .ok a ↔ P :=
  ⟨fun h' => (by cases h'), fun hp => absurd hp h⟩

theorem loadSpec_first (n : Nat) (a : List Nat) (rs : List (List Nat)) (ps : List Process)
    (h : LoadSpec (n + 1) (a :: rs) ps) : decimalValue a ≤ LONG_MAX := by
  apply h.2.1
  rw [show 3 * (n + 1) = (3 * n + 2) + 1 by omega, List.take_succ_cons]
  exact List.mem_cons_self _ _

theorem loadSpec_second (n : Nat) (a b : List Nat) (rs : List (List Nat)) (ps : List Process)
    (h : LoadSpec (n + 1) (a :: b :: rs) ps) : decimalValue b ≤ LONG_MAX := by
  apply h.2.1
  rw [show 3 * (n + 1) = (3 * n + 1) + 1 + 1 by omega, List.take_succ_cons, List.take_succ_cons]
  exact List.mem_cons_of_mem _ (List.mem_cons_self _ _)

theorem init_processes_loop_spec (n : Nat) : ∀ (data : List Nat) (ps : List Process),
    init_processes_loop n data = .ok ps ↔ LoadSpec n (digitRuns data) ps := by
  induction n with
  | zero =>
    intro data ps
    rw [loadSpec_zero]
    simp only [init_processes_loop]
    constructor
    · intro h; injection h with h; exact h.symm
    · intro h; rw [h]
  | succ n ih =>
    intro data ps
    rcases next_int_runs data with ⟨h1, e1⟩ | ⟨r, rs, h1, hv, e1⟩ | ⟨a, rs1, d1, h1, hv1, e1, hd1⟩
    · rw [h1]
      simp only [init_processes_loop, e1]
      exact error_ne_ok _ _ (loadSpec_short n [] ps (by simp))
    · rw [h1]
      simp only [init_processes_loop, e1]
      exact error_ne_ok _ _ (fun h => by have := loadSpec_first n r rs ps h; omega)
    rw [h1, ← hd1]
    rcases next_int_runs d1 with ⟨h2, e2⟩ | ⟨r, rs, h2, hv, e2⟩ | ⟨b, rs2, d2, h2, hv2, e2, hd2⟩
    · rw [h2]
      simp only [init_processes_loop, e1, e2]
      exact error_ne_ok _ _ (loadSpec_short n [a] ps (by simp))
    · rw [h2]
      simp only [init_processes_loop, e1, e2]
      exact error_ne_ok _ _ (fun h => by have := loadSpec_second n a r rs ps h; omega)
    rw [h2, ← hd2]
    rcases next_int_runs d2 with ⟨h3, e3⟩ | ⟨r, rs, h3, hv, e3⟩ | ⟨c, rs3, d3, h3, hv3, e3, hd3⟩
    · rw [h3]
      simp only [init_processes_loop, e1, e2, e3]
      exact error_ne_ok _ _ (loadSpec_short n [a, b] ps (by simp))
    · rw [h3]
      simp only [init_processes_loop, e1, e2, e3]
      exact error_ne_ok _ _ (fun h => by
        have := ((loadSpec_succ n a b r rs ps).mp h).2.2.1
        omega)
    rw [h3, ← hd3, loadSpec_succ]
    simp only [init_processes_loop, e1, e2, e3]
    by_cases hc0 : decimalValue c = 0
    · rw [if_pos hc0]
      exact error_ne_ok _ _ (fun h => h.2.2.2.1 hc0)
    · rw [if_neg hc0]
      constructor
      · intro h
        cases hl : init_processes_loop n d3 with
        | error e => rw [hl] at h; cases h
        | ok rest =>
          rw [hl] at h
          injection h with h
          exact ⟨hv1, hv2, hv3, hc0, rest, (ih d3 rest).mp hl, h.symm⟩
      · rintro ⟨-, -, -, -, ps', hls, hps⟩
        rw [(ih d3 ps').mpr hls, hps]

theorem next_int_error (data : List Nat) (e : LoadError) (h : next_int data = .error e) :
    e = .missingInteger ∨ e = .integerOverflow := by
  rcases next_int_runs data with ⟨-, e1⟩ | ⟨_, _, -, -, e1⟩ | ⟨_, _, _, -, -, e1, -⟩
  · rw [e1] at h; injection h with h; exact Or.inl h.symm
  · rw [e1] at h; injection h with h; exact Or.inr h.symm
  · rw [e1] at h; cases h

theorem init_processes_loop_error (n : Nat) : ∀ (data : List Nat) (e : LoadError),
    init_processes_loop n data = .error e →
      e = .missingInteger ∨ e = .integerOverflow ∨ ∃ pid, e = .zeroBurst pid := by
  induction n with
  | zero => intro data e h; simp only [init_processes_loop] at h; cases h
  | succ n ih =>
    intro data e h
    have lift : ∀ d, next_int d = .error e →
        e = .missingInteger ∨ e = .integerOverflow ∨ ∃ pid, e = .zeroBurst pid := by
      intro d hd
      rcases next_int_error d e hd with h' | h'
      · exact Or.inl h'
      · exact Or.inr (Or.inl h')
    simp only [init_processes_loop] at h
    cases e1 : next_int data with
    | error e' => rw [e1] at h; injection h with h; subst h; exact lift _ e1
    | ok r1 =>
      obtain ⟨pid, d1⟩ := r1
      rw [e1] at h
      simp only at h
      cases e2 : next_int d1 with
      | error e' => rw [e2] at h; injection h with h; subst h; exact lift _ e2
      | ok r2 =>
        obtain ⟨arr, d2⟩ := r2
        rw [e2] at h
        simp only at h
        cases e3 : next_int d2 with
        | error e' => rw [e3] at h; injection h with h; subst h; exact lift _ e3
        | ok r3 =>
          obtain ⟨burst, d3⟩ := r3
          rw [e3] at h
          simp only at h
          by_cases hb : burst = 0
          · rw [if_pos hb] at h
            injection h with h
            exact Or.inr (Or.inr ⟨pid, h.symm⟩)
          · rw [if_neg hb] at h
            cases hl : init_processes_loop n d3 with
            | error e' => rw [hl] at h; injection h with h; subst h; exact ih _ _ hl
            | ok rest => rw [hl] at h; cases h

theorem init_processes_ok (data : List Nat) (ps : List Process) :
    init_processes data = .ok ps ↔
      ∃ r rs, digitRuns data = r :: rs ∧ 0 < decimalValue r ∧ decimalValue r ≤ LONG_MAX ∧
        LoadSpec (decimalValue r).toNat rs ps := by
  unfold init_processes
  rcases next_int_runs data with ⟨h1, e1⟩ | ⟨r, rs, h1, hv, e1⟩ | ⟨a, rs1, d1, h1, hv1, e1, hd1⟩
  · rw [e1]
    exact error_ne_ok _ _ (fun ⟨r, rs, h, _⟩ => by rw [h1] at h; cases h)
  · rw [e1]
    refine error_ne_ok _ _ (fun ⟨r', rs', h, _, hle, _⟩ => ?_)
    rw [h1] at h
    injection h with h _
    subst h
    omega
  · rw [e1]
    simp only
    by_cases hn : decimalValue a ≤ 0
    · rw [if_pos hn]
      refine error_ne_ok _ _ (fun ⟨r', rs', h, hpos, _, _⟩ => ?_)
      rw [h1] at h
      injection h with h _
      subst h
      omega
    · rw [if_neg hn, init_processes_loop_spec, hd1]
      constructor
      · intro h
        exact ⟨a, rs1, h1, by omega, hv1, h⟩
      · rintro ⟨r', rs', h, _, _, hl⟩
        rw [h1] at h
        injection h with h h'
        subst h h'
        exact hl

theorem init_processes_error (data : List Nat) (e : LoadError)
    (h : init_processes data = .error e) :
    e = .missingInteger ∨ e = .integerOverflow ∨ e = .noProcesses ∨
      ∃ pid, e = .zeroBurst pid := by
  unfold init_processes at h
  cases e1 : next_int data with
  | error e' =>
    rw [e1] at h
    injection h with h
    subst h
    rcases next_int_error _ _ e1 with h' | h'
    · exact Or.inl h'
    · exact Or.inr (Or.inl h')
  | ok r1 =>
    obtain ⟨n, d⟩ := r1
    rw [e1] at h
    simp only at h
    by_cases hn : n ≤ 0
    · rw [if_pos hn] at h
      injection h with h
      exact Or.inr (Or.inr (Or.inl h.symm))
    · rw [if_neg hn] at h
      rcases init_processes_loop_error _ _ _ h with h' | h' | h'
      · exact Or.inl h'
      · exact Or.inr (Or.inl h')
      · exact Or.inr (Or.inr (Or.inr h'))

theorem main_load_error (fuel : Nat) (file arg : List Nat) (e : LoadError)
    (h : init_processes file = .error e) : main fuel file arg = .error e := by
  unfold main
  rw [h]

/-- The table of two processes `(1, 0, 3)` and `(2, 0, 3)` is loaded from the text of three
lines `2`, `1 0 3` and `2 0 3`. -/
theorem init_processes_example :
    init_processes [50, 10, 49, 32, 48, 32, 51, 10, 50, 32, 48, 32, 51, 10]
      = .ok [Process.input 1 0 3, Process.input 2 0 3] := rfl

/-- A count of 2 followed by five integers only: the loading fails. -/
theorem init_processes_short_example :
    init_processes [50, 10, 49, 32, 48, 32, 51, 10, 50, 32, 48, 10]
      = .error .missingInteger := rfl

/-- C15. Loading the table from a text succeeds, with the table `ps`, if and only if the text
contains a first integer `n > 0` that does not overflow a `long`, followed by at least `3 * n`
further integers of which the first `3 * n` do not overflow and every third one is not zero,
and `ps` is the `n` triples `(pid, arrival_time, burst_time)` in input order. In every other
case `init_processes` ends with one of the errors `missing integer`, `integer overflow`,
`no processes` or zero burst time, and `main` ends with that error: there is no simulation
and there are no averages. -/
theorem init_processes_spec (data : List Nat) :
    (∀ ps, init_processes data = .ok ps ↔
      ∃ r rs, digitRuns data = r :: rs ∧ 0 < decimalValue r ∧ decimalValue r ≤ LONG_MAX ∧
        LoadSpec (decimalValue r).toNat rs ps) ∧
    ((∀ ps, init_processes data ≠ .ok ps) →
      ∃ e, init_processes data = .error e ∧
        (e = .missingInteger ∨ e = .integerOverflow ∨ e = .noProcesses ∨
          ∃ pid, e = .zeroBurst pid) ∧
        ∀ fuel arg, main fuel data arg = .error e) := by
  refine ⟨init_processes_ok data, fun h => ?_⟩
  cases he : init_processes data with
  | ok ps => exact absurd he (h ps)
  | error e =>
    exact ⟨e, rfl, init_processes_error data e he, fun fuel arg => main_load_error fuel data arg e he⟩

/-! ## The widths of the types -/

theorem toInt_of_range (x : Int) (h1 : -2147483648 ≤ x) (h2 : x ≤ 2147483647) :
    toInt x = x := by
  unfold toInt; omega

theorem toLong_of_range (x : Int) (h1 : -9223372036854775808 ≤ x)
    (h2 : x ≤ 9223372036854775807) : toLong x = x := by
  unfold toLong; omega

theorem toInt_range (x : Int) : -2147483648 ≤ toInt x ∧ toInt x ≤ 2147483647 := by
  unfold toInt; omega

theorem toInt_toInt (x : Int) : toInt (toInt x) = toInt x := by
  have := toInt_range x
  exact toInt_of_range _ this.1 this.2

theorem toInt_pred (x : Int) : toInt (toInt x - 1) = toInt (x - 1) := by
  unfold toInt; omega

theorem toInt_eq_zero (x : Int) (h1 : -2147483648 ≤ x) (h2 : x ≤ 2147483647) (k : Int)
    (hk0 : 0 ≤ k) (hk : k ≤ 2147483647) : toInt (x - k) = 0 ↔ x = k := by
  unfold toInt; omega

/-- When the sum of the two middle elements does not overflow, the median is computed as with
unbounded integers. -/
theorem calculateMedianC_eq_of (xs : List Int)
    (h : ∀ a b, (qsort xs)[(xs.length - 1) / 2]? = some a → (qsort xs)[xs.length / 2]? = some b →
      -9223372036854775808 ≤ a + b ∧ a + b < 9223372036854775807) :
    calculateMedianC xs = calculateMedian xs := by
  unfold calculateMedianC calculateMedian
  simp only
  split_ifs with hodd
  · rfl
  · cases h1 : (qsort xs)[(xs.length - 1) / 2]? with
    | none => rfl
    | some a =>
      cases h2 : (qsort xs)[xs.length / 2]? with
      | none => rfl
      | some b =>
        have hab := h a b h1 h2
        simp only
        rw [toLong_of_range (a + b) hab.1 (by omega),
          toLong_of_range (a + b + 1) (by omega) (by omega)]

theorem calculateMedianC_eq (xs : List Int)
    (h : ∀ x ∈ xs, 0 ≤ x ∧ x ≤ 2147483647) : calculateMedianC xs = calculateMedian xs := by
  apply calculateMedianC_eq_of
  intro a b ha hb
  have ha0 := h a ((qsort_perm xs).subset (List.getElem?_mem ha))
  have hb0 := h b ((qsort_perm xs).subset (List.getElem?_mem hb))
  omega

theorem calculateMedian_le (xs : List Int) (B : Int) (hB : ∀ x ∈ xs, x ≤ B) (m : Int)
    (h : calculateMedian xs = some m) : m ≤ B := by
  have hne : xs ≠ [] := by
    rintro rfl
    simp [calculateMedian_nil] at h
  obtain ⟨a, b, ha, hb, hab, hm⟩ := calculateMedian_eq xs hne
  have ha0 : a ≤ B := hB a ((qsort_perm xs).subset (List.getElem?_mem ha))
  have hb0 : b ≤ B := hB b ((qsort_perm xs).subset (List.getElem?_mem hb))
  rw [hm] at h
  injection h with h
  subst h
  split_ifs <;> omega

theorem quantumSampleC_eq (l : List Process) (wp : Option Process) (npa : Int)
    (added : Bool)
    (hl : ∀ p ∈ l, 0 ≤ p.remaining_time ∧ p.remaining_time ≤ p.burst_time ∧
      p.burst_time ≤ 2147483647)
    (hw : ∀ p, wp = some p → 0 ≤ p.remaining_time ∧ p.remaining_time ≤ p.burst_time ∧
      p.burst_time ≤ 2147483647) :
    quantumSampleC l wp npa added = quantumSample l wp npa added := by
  unfold quantumSampleC quantumSample
  have hp : ∀ p : Process, 0 ≤ p.remaining_time ∧ p.remaining_time ≤ p.burst_time ∧
      p.burst_time ≤ 2147483647 → progressC p = progress p := by
    intro p h
    unfold progressC progress
    exact toLong_of_range _ (by omega) (by omega)
  congr 1
  · congr 1
    cases wp with
    | none => rfl
    | some p => simp only [hp p (hw p rfl)]
  · exact List.map_congr_left (fun p hpl => hp p (hl p hpl))

theorem quantumSample_le (l : List Process) (wp : Option Process) (npa : Int)
    (added : Bool) (B : Int) (hB0 : 0 ≤ B)
    (hl : ∀ p ∈ l, 0 ≤ p.remaining_time ∧ p.burst_time ≤ B)
    (hw : ∀ p, wp = some p → 0 ≤ p.remaining_time ∧ p.burst_time ≤ B) :
    ∀ x ∈ quantumSample l wp npa added, x ≤ B := by
  intro x hx
  unfold quantumSample at hx
  simp only [List.mem_append, List.mem_map] at hx
  rcases hx with (hx | hx) | ⟨p, hp, rfl⟩
  · split_ifs at hx
    · rw [List.mem_replicate] at hx; omega
    · simp at hx
  · cases wp with
    | none => simp at hx
    | some p =>
      simp only [List.mem_singleton] at hx
      have := hw p rfl
      unfold progress at hx; omega
  · have := hl p hp
    unfold progress; omega

/-- When the records sampled and the quantum in force fit an `int`, the quantum is computed
as with unbounded integers, it is at least 1 and fits an `int`. -/
theorem calculateQuantumC_eq (mm : Bool) (l : List Process) (wp : Option Process) (npa : Int)
    (added : Bool) (qSize : Int) (hq1 : 1 ≤ qSize) (hq2 : qSize ≤ 2147483647)
    (hl : ∀ p ∈ l, 0 ≤ p.remaining_time ∧ p.remaining_time ≤ p.burst_time ∧
      p.burst_time ≤ 2147483647)
    (hw : ∀ p, wp = some p → 0 ≤ p.remaining_time ∧ p.remaining_time ≤ p.burst_time ∧
      p.burst_time ≤ 2147483647) :
    calculateQuantumC mm l wp npa added qSize = calculateQuantum mm l wp npa added qSize ∧
    ∀ q, calculateQuantum mm l wp npa added qSize = some q → 1 ≤ q ∧ q ≤ 2147483647 := by
  have hnn : ∀ x ∈ quantumSample l wp npa added, 0 ≤ x :=
    quantumSample_nonneg l wp npa added (fun p hp => (hl p hp).2.1) (fun p hp => (hw p hp).2.1)
  have hle : ∀ x ∈ quantumSample l wp npa added, x ≤ 2147483647 :=
    quantumSample_le l wp npa added 2147483647 (by omega)
      (fun p hp => ⟨(hl p hp).1, (hl p hp).2.2⟩) (fun p hp => ⟨(hw p hp).1, (hw p hp).2.2⟩)
  unfold calculateQuantumC calculateQuantum
  dsimp only
  rw [quantumSampleC_eq l wp npa added hl hw,
    calculateMedianC_eq _ (fun x hx => ⟨hnn x hx, hle x hx⟩)]
  cases mm with
  | false =>
    simp only [if_true]
    rw [toInt_of_range qSize (by omega) hq2]
    refine ⟨rfl, fun q hq => ?_⟩
    injection hq with hq
    omega
  | true =>
    simp only [Bool.true_eq_false, if_false]
    by_cases hlt : ((if wp.isSome then 1 else 0) + (l.length : Int)
        + (if npa ≠ 0 ∧ added = false then npa else 0)
        < ((quantumSample l wp npa added).length : Int))
    · rw [if_pos hlt, if_pos hlt]
      exact ⟨rfl, fun q hq => by cases hq⟩
    · rw [if_neg hlt, if_neg hlt]
      cases hm : calculateMedian (quantumSample l wp npa added) with
      | none => exact ⟨rfl, fun q hq => by cases hq⟩
      | some m =>
        have h0 := calculateMedian_nonneg _ hnn m hm
        have h1 := calculateMedian_le _ 2147483647 hle m hm
        have hr : 1 ≤ (if m = 0 then 1 else m) ∧ (if m = 0 then 1 else m) ≤ 2147483647 := by
          split_ifs <;> omega
        simp only
        rw [toInt_of_range _ (by omega) hr.2]
        refine ⟨rfl, fun q hq => ?_⟩
        injection hq with hq
        rw [← hq]
        exact hr

/-! ## An iteration that overflows nothing -/

theorem countArrivalsC_eq (procs : List Process) (t : Int)
    (hlen : (procs.length : Int) ≤ 2147483647) :
    countArrivalsC procs t = countArrivals procs t := by
  unfold countArrivalsC countArrivals
  have key : ∀ (l : List Nat) (c : Int), 0 ≤ c → c + (l.length : Int) ≤ 2147483647 →
      l.foldl (fun c i => if (getP procs i).arrival_time = t then toInt (c + 1) else c) c
        = l.foldl (fun c i => if (getP procs i).arrival_time = t then c + 1 else c) c := by
    intro l
    induction l with
    | nil => intro c _ _; rfl
    | cons a l ih =>
      intro c h0 h1
      simp only [List.length_cons, Nat.cast_add, Nat.cast_one] at h1
      simp only [List.foldl_cons]
      by_cases h : (getP procs a).arrival_time = t
      · rw [if_pos h, if_pos h, toInt_of_range (c + 1) (by omega) (by omega)]
        exact ih (c + 1) (by omega) (by omega)
      · rw [if_neg h, if_neg h]
        exact ih c h0 (by omega)
  exact key _ 0 (le_refl _) (by simpa using hlen)

theorem foldl_enqueueArrivalC (l : List Nat) : ∀ (s : State), 0 ≤ s.num_arrived →
    s.num_arrived
      + ((l.filter (fun i => decide ((getP s.procs i).arrival_time = s.t))).length : Int)
      ≤ 2147483647 →
    l.foldl enqueueArrivalC s = l.foldl enqueueArrival s := by
  induction l with
  | nil => intro s _ _; rfl
  | cons a l ih =>
    intro s h0 h1
    simp only [List.foldl_cons]
    by_cases h : (getP s.procs a).arrival_time = s.t
    · have hf : (List.filter (fun i => decide ((getP s.procs i).arrival_time = s.t)) (a :: l))
          = a :: List.filter (fun i => decide ((getP s.procs i).arrival_time = s.t)) l := by
        simp [List.filter_cons, h]
      rw [hf] at h1
      simp only [List.length_cons, Nat.cast_add, Nat.cast_one] at h1
      have he : enqueueArrivalC s a = enqueueArrival s a := by
        unfold enqueueArrivalC enqueueArrival
        rw [if_pos h, if_pos h, toInt_of_range (s.num_arrived + 1) (by omega) (by omega)]
      rw [he]
      apply ih
      · unfold enqueueArrival
        rw [if_pos h]
        dsimp only
        omega
      · unfold enqueueArrival
        rw [if_pos h]
        dsimp only
        omega
    · have hf : (List.filter (fun i => decide ((getP s.procs i).arrival_time = s.t)) (a :: l))
          = List.filter (fun i => decide ((getP s.procs i).arrival_time = s.t)) l := by
        simp [List.filter_cons, h]
      rw [hf] at h1
      have he : enqueueArrivalC s a = enqueueArrival s a := by
        unfold enqueueArrivalC enqueueArrival
        rw [if_neg h, if_neg h]
      rw [he]
      have hs : enqueueArrival s a = s := by
        unfold enqueueArrival
        rw [if_neg h]
      rw [hs]
      exact ih s h0 h1

theorem enqueueArrivalsC_eq (s : State) (h0 : 0 ≤ s.num_arrived)
    (h1 : s.num_arrived + ((arrivingNow s.procs s.t).length : Int) ≤ 2147483647) :
    enqueueArrivalsC s = enqueueArrivals s := by
  unfold enqueueArrivalsC enqueueArrivals
  exact foldl_enqueueArrivalC _ s h0 h1

theorem enqueueArrivalsFlagC_eq (s : State) (h0 : 0 ≤ s.num_arrived)
    (h1 : s.num_arrived + ((arrivingNow s.procs s.t).length : Int) ≤ 2147483647) :
    enqueueArrivalsFlagC s = enqueueArrivalsFlag s := by
  have key : ∀ (l : List Nat) (sb : State × Bool),
      l.foldl (fun (sb : State × Bool) i => (enqueueArrivalC sb.1 i, true)) sb
        = (l.foldl enqueueArrivalC sb.1, sb.2 || decide (0 < l.length)) := by
    intro l
    induction l with
    | nil => intro sb; simp
    | cons a l ih => intro sb; simp [ih]
  unfold enqueueArrivalsFlagC
  rw [key, enqueueArrivalsFlag_eq]
  have := enqueueArrivalsC_eq s h0 h1
  unfold enqueueArrivalsC at this
  rw [this]
  simp

theorem workProcC_eq (procs : List Process) (i : Nat)
    (h : 0 ≤ (getP procs i).remaining_time ∧ (getP procs i).remaining_time ≤ 2147483647) :
    workProcC procs i = workProc procs i := by
  unfold workProcC workProc updP
  dsimp only
  rw [toLong_of_range _ (by omega) (by omega)]

theorem advanceClockC_eq (s : State) (h0 : 0 ≤ s.t) (h1 : s.t < 2147483647) :
    advanceClockC s = advanceClock s := by
  unfold advanceClockC advanceClock
  rw [toInt_of_range _ (by omega) (by omega)]

theorem Fits.fits_sample {added : Bool} {s : State} (h : Fits added s) (l : List Nat) :
    ∀ p ∈ l.map (getP s.procs), 0 ≤ p.remaining_time ∧ p.remaining_time ≤ p.burst_time ∧
      p.burst_time ≤ 2147483647 := by
  intro p hp
  rw [List.mem_map] at hp
  obtain ⟨i, -, rfl⟩ := hp
  exact h.rem i

theorem Fits.fits_admission {s s1 : State} {npa : Int} {added : Bool} (h : Fits false s)
    (ha : idleAdmission s npa = some (s1, added)) : Fits added s1 := by
  unfold idleAdmission at ha
  split_ifs at ha with h1 h2
  · rw [enqueueArrivalsFlag_eq] at ha
    injection ha with ha
    injection ha with ha1 ha2
    subst ha1
    refine ⟨by simpa using h.t_lo, by simpa using h.t_hi, by simpa using h.len, fun hf => ?_,
      by simpa using h.rem, by simpa using h.qlen, by simpa using h.qleft⟩
    subst hf
    have hlen : s.procs.length = 0 := by simpa using ha2
    have hnil : arrivingNow s.procs s.t = [] := by
      unfold arrivingNow
      rw [hlen]
      rfl
    have := h.arr rfl
    simp only [enqueueArrivals_num_arrived, enqueueArrivals_procs, enqueueArrivals_t, hnil,
      List.length_nil, Nat.cast_zero, add_zero] at this ⊢
    exact this
  · injection ha with ha
    injection ha with ha1 ha2
    subst ha1 ha2
    exact h

theorem dispatchC_eq {s : State} {added : Bool} (h : Fits added s) (npa : Int) :
    dispatchC s npa added = dispatch s npa added := by
  obtain ⟨hq, hr⟩ := calculateQuantumC_eq s.median_mode (s.list.map (getP s.procs)) none npa
    added s.quantum_length h.qlen.1 h.qlen.2 (h.fits_sample s.list) (fun p hp => by cases hp)
  unfold dispatchC dispatch
  rw [hq]
  cases hc : calculateQuantum s.median_mode (s.list.map (getP s.procs)) none npa added
      s.quantum_length with
  | none => rfl
  | some q =>
    have := hr q hc
    dsimp only
    cases hl : s.list with
    | nil => rfl
    | cons hd rest =>
      dsimp only
      unfold dispatchStepC dispatchStep
      rw [toInt_of_range q (by omega) this.2]

theorem Fits.fits_dispatch {s s2 : State} {added : Bool} {npa : Int} (h : Fits added s)
    (hd : dispatch s npa added = .ok s2) : Fits added s2 ∧ s2.p ≠ none := by
  obtain ⟨hd, rest, q, hl, hq, rfl⟩ := dispatch_ok hd
  have hr := (calculateQuantumC_eq s.median_mode (s.list.map (getP s.procs)) none npa
    added s.quantum_length h.qlen.1 h.qlen.2 (h.fits_sample s.list) (fun p hp => by cases hp)).2 q hq
  refine ⟨⟨h.t_lo, h.t_hi, by simpa [dispatchStep] using h.len, fun hf => ?_, fun i => ?_, hr,
    fun _ => ⟨by simp only [dispatchStep]; omega, hr.2⟩⟩, by simp [dispatchStep]⟩
  · simpa [dispatchStep] using h.arr hf
  · simpa [dispatchStep] using h.rem i

theorem executeAndEnqueueC_eq {s : State} {added : Bool} (h : Fits added s) (npa : Int) :
    executeAndEnqueueC s npa added = executeAndEnqueue s npa added := by
  unfold executeAndEnqueueC executeAndEnqueue
  cases hp : s.p with
  | none => rfl
  | some i =>
    dsimp only
    have hql := h.qleft (by rw [hp]; simp)
    have hri := h.rem i
    obtain ⟨hq, hr⟩ := calculateQuantumC_eq s.median_mode (s.list.map (getP s.procs))
      (some (getP s.procs i)) npa added s.quantum_length h.qlen.1 h.qlen.2 (h.fits_sample s.list)
      (fun p hp => by injection hp with hp; subst hp; exact hri)
    have hex : executeC s i npa added = execute s i npa added := by
      unfold executeC execute
      by_cases h1 : (getP s.procs i).remaining_time = 0
      · rw [if_pos h1, if_pos h1]
      · rw [if_neg h1, if_neg h1]
        by_cases h2 : s.quantum_left = 0
        · rw [if_pos h2, if_pos h2]
          by_cases h3 : s.list ≠ []
          · rw [if_pos h3, if_pos h3]
          · rw [if_neg h3, if_neg h3, hq]
            cases hc : calculateQuantum s.median_mode (s.list.map (getP s.procs))
                (some (getP s.procs i)) npa added s.quantum_length with
            | none => rfl
            | some q =>
              have := hr q hc
              dsimp only
              unfold renewStepC renewStep
              rw [workProcC_eq _ _ ⟨hri.1, by omega⟩, toInt_of_range q (by omega) this.2,
                toInt_of_range (q - 1) (by omega) (by omega)]
        · rw [if_neg h2, if_neg h2]
          unfold workStepC workStep
          rw [workProcC_eq _ _ ⟨hri.1, by omega⟩,
            toInt_of_range (s.quantum_left - 1) (by omega) (by omega)]
    rw [hex]
    cases he : execute s i npa added with
    | error e => rfl
    | ok s3 =>
      dsimp only
      have ht3 : s3.t = s.t ∧ s3.num_arrived = s.num_arrived ∧
          arrivingNow s3.procs s3.t = arrivingNow s.procs s.t := by
        rcases execute_ok he with ⟨-, rfl⟩ | ⟨-, -, -, rfl⟩ | ⟨-, -, -, q, -, rfl⟩ | ⟨-, -, rfl⟩
        · simp [finishStep]
        · simp [preemptStep]
        · simp [renewStep]
        · simp [workStep]
      cases added with
      | true =>
        simp only [Bool.true_eq_false, if_false]
        rw [advanceClockC_eq s3 (by rw [ht3.1]; exact h.t_lo) (by rw [ht3.1]; exact h.t_hi)]
      | false =>
        simp only [if_true]
        have ha := h.arr rfl
        rw [enqueueArrivalsC_eq s3 (by rw [ht3.2.1]; exact ha.1)
          (by rw [ht3.2.1, ht3.2.2]; exact ha.2)]
        rw [advanceClockC_eq _ (by simp only [enqueueArrivals_t]; rw [ht3.1]; exact h.t_lo)
          (by simp only [enqueueArrivals_t]; rw [ht3.1]; exact h.t_hi)]

/-- From a state in which nothing overflows, the iteration with the widths of the types is
the iteration with unbounded integers. -/
theorem tickC_eq_tick {s : State} (h : Fits false s) : tickC s = tick s := by
  unfold tickC tick
  rw [countArrivalsC_eq _ _ h.len]
  dsimp only
  have ha := h.arr rfl
  have hia : idleAdmissionC s (countArrivals s.procs s.t)
      = idleAdmission s (countArrivals s.procs s.t) := by
    unfold idleAdmissionC idleAdmission
    rw [enqueueArrivalsFlagC_eq s ha.1 ha.2]
  rw [hia]
  cases hadm : idleAdmission s (countArrivals s.procs s.t) with
  | none =>
    dsimp only
    rw [advanceClockC_eq s h.t_lo h.t_hi]
  | some r =>
    obtain ⟨s1, added⟩ := r
    dsimp only
    have h1 := h.fits_admission hadm
    cases hp : s1.p with
    | none =>
      dsimp only
      rw [dispatchC_eq h1]
      cases hd : dispatch s1 (countArrivals s.procs s.t) added with
      | error e => rfl
      | ok s2 =>
        dsimp only
        exact executeAndEnqueueC_eq (h1.fits_dispatch hd).1 _
    | some i =>
      dsimp only
      exact executeAndEnqueueC_eq h1 _

/-! ## Runs that overflow nothing -/

theorem getP_default (procs : List Process) (i : Nat) (hi : procs.length ≤ i) :
    getP procs i = default := by
  simp [getP, List.getD_eq_getElem?_getD, List.getElem?_eq_none hi]

theorem burst_le_sum (ps : List Process) (p : Process) (hp : p ∈ ps) :
    p.burst_time.toNat ≤ (ps.map (fun p => p.burst_time.toNat)).sum := by
  induction ps with
  | nil => cases hp
  | cons a l ih =>
    simp only [List.map_cons, List.sum_cons]
    rcases List.mem_cons.mp hp with rfl | h
    · omega
    · have := ih h
      omega

theorem burst_le_fuelBound (ps : List Process) (p : Process) (hp : p ∈ ps) :
    p.burst_time ≤ (fuelBound ps : Int) := by
  have := burst_le_sum ps p hp
  unfold fuelBound
  omega

/-- The clock plus the iterations left never exceeds the bound of the run. -/
theorem reach_clock_le (ps : List Process) (q : Int) (hv : ValidInput ps)
    (hq : ValidQuantum q) (s : State) (hr : Reach (mainInit ps q) s) :
    s.t + (ticksLeft (maxArrival ps) s : Int) + 1 ≤ (fuelBound ps : Int) := by
  have hinv0 := Inv.at_start ps q hv hq
  have hst0 := mainInit_static ps q
  induction hr with
  | start =>
    have := ticksLeft_mainInit ps q
    have ht : (mainInit ps q).t = 0 := rfl
    rw [ht]
    omega
  | step hr' hc ht ih =>
    rename_i s1 s2
    have hinv := hinv0.of_reach hr'
    have hs := tick_shape_of_ok hinv.core ht
    have hst := hr'.static hinv0
    have hlt := hs.ticksLeft_lt hinv.core hc (A := maxArrival ps) (fun i hi => by
      rw [(hst.2.2 i).1, (hst0.2 i).1]
      exact le_maxArrival ps _ (getP_mem ps i (by rw [← hst0.1, ← hst.1]; exact hi)))
    rw [hs.t_eq]
    omega

theorem TickShape.quantum_length_le {s s' : State} (hc : InvCore s.t s)
    (hb : ∀ i, (getP s.procs i).burst_time ≤ 2147483647)
    (hq : s.quantum_length ≤ 2147483647) (hs : TickShape s s') :
    s'.quantum_length ≤ 2147483647 := by
  have hrem : ∀ i, 0 ≤ (getP s.procs i).remaining_time ∧
      (getP s.procs i).remaining_time ≤ (getP s.procs i).burst_time ∧
      (getP s.procs i).burst_time ≤ 2147483647 := by
    intro i
    by_cases hi : i < s.procs.length
    · exact ⟨(hc.rem_range i hi).1, (hc.rem_range i hi).2, hb i⟩
    · rw [getP_default _ _ (by omega)]
      decide
  have hsample : ∀ (l : List Nat), ∀ p ∈ l.map (getP s.procs),
      0 ≤ p.remaining_time ∧ p.remaining_time ≤ p.burst_time ∧ p.burst_time ≤ 2147483647 := by
    intro l p hp
    rw [List.mem_map] at hp
    obtain ⟨i, -, rfl⟩ := hp
    exact hrem i
  cases hs with
  | idle hl hp ha => simpa [advanceClock] using hq
  | finish i hp hr => simpa [advanceClock, finishStep] using hq
  | preempt i hp hr hq1 hl => simpa [advanceClock, preemptStep] using hq
  | work i hp hr hq1 => simpa [advanceClock, workStep] using hq
  | renew i q hp hr hq0 hl hq1 hcq =>
    have := (calculateQuantumC_eq _ _ _ _ _ _ hc.qlen hq (hsample [])
      (fun p hp => by injection hp with hp; subst hp; exact hrem i)).2 q hcq
    simpa [advanceClock, renewStep] using this.2
  | late hd rest q hp hl hq1 hcq =>
    have := (calculateQuantumC_eq _ _ _ _ _ _ hc.qlen hq (hsample s.list)
      (fun p hp => by cases hp)).2 q hcq
    simpa [advanceClock, workStep, dispatchStep] using this.2
  | early hd rest q hp hl ha hq1 hcq =>
    have := (calculateQuantumC_eq _ _ _ _ _ _ hc.qlen hq (hsample (arrivingNow s.procs s.t))
      (fun p hp => by cases hp)).2 q hcq
    simpa [advanceClock, workStep, dispatchStep] using this.2

theorem mainInit_quantum_le (ps : List Process) (q : Int) (hq : q ≤ 2147483647) :
    (mainInit ps q).quantum_length ≤ 2147483647 := by
  simp only [mainInit]
  split_ifs <;> omega

theorem reach_quantum_length_le (ps : List Process) (q : Int) (hv : ValidInput ps)
    (hq : ValidQuantum q) (hin : (fuelBound ps : Int) ≤ 2147483647 ∧ q ≤ 2147483647)
    (s : State) (hr : Reach (mainInit ps q) s) : s.quantum_length ≤ 2147483647 := by
  have hinv0 := Inv.at_start ps q hv hq
  have hst0 := mainInit_static ps q
  induction hr with
  | start => exact mainInit_quantum_le ps q hin.2
  | step hr' hc ht ih =>
    have hinv' := hinv0.of_reach hr'
    have hst' := hr'.static hinv0
    refine (tick_shape_of_ok hinv'.core ht).quantum_length_le hinv'.core (fun i => ?_) ih
    rw [(hst'.2.2 i).2, (hst0.2 i).2]
    by_cases hi : i < ps.length
    · have := burst_le_fuelBound ps _ (getP_mem ps i hi)
      omega
    · rw [getP_default _ _ (by omega)]
      decide

/-- On a valid input in range, no iteration from a state of the run with unbounded integers
overflows. -/
theorem fits_of_reach (ps : List Process) (q : Int) (hv : ValidInput ps)
    (hq : ValidQuantum q) (hin : InRange ps q) (s : State) (hr : Reach (mainInit ps q) s) :
    Fits false s := by
  have hinv0 := Inv.at_start ps q hv hq
  have hst0 := mainInit_static ps q
  have hinv := hinv0.of_reach hr
  have hst := hr.static hinv0
  obtain ⟨hf, hqm⟩ := hin
  unfold INT_MAX at hf hqm
  have hburst : ∀ i, (getP s.procs i).burst_time ≤ 2147483647 := by
    intro i
    rw [(hst.2.2 i).2, (hst0.2 i).2]
    by_cases hi : i < ps.length
    · have := burst_le_fuelBound ps _ (getP_mem ps i hi)
      omega
    · rw [getP_default _ _ (by omega)]
      decide
  have hql := reach_quantum_length_le ps q hv hq ⟨hf, hqm⟩ s hr
  have hclock := reach_clock_le ps q hv hq s hr
  have hlen : s.procs.length = ps.length := hst.1.trans hst0.1
  have hlenf : (ps.length : Int) ≤ (fuelBound ps : Int) := by
    unfold fuelBound
    omega
  refine ⟨hinv.core.t_nonneg, by omega, by omega, fun _ => ?_, fun i => ?_,
    ⟨hinv.core.qlen, hql⟩, fun hp => ?_⟩
  · have h1 := hinv.core.num_arr
    have h2 := arrivedBefore_succ_length s.procs s.t
    have h3 := arrivedBefore_length_le s.procs (s.t + 1)
    omega
  · by_cases hi : i < s.procs.length
    · exact ⟨(hinv.core.rem_range i hi).1, (hinv.core.rem_range i hi).2, hburst i⟩
    · rw [getP_default _ _ (by omega)]
      decide
  · have h1 := hinv.core.qleft hp
    have h2 := reach_quantum_le hinv0 (fun h => absurd rfl h) hr hp
    omega

theorem reach_of_reachC (ps : List Process) (q : Int) (hv : ValidInput ps)
    (hq : ValidQuantum q) (hin : InRange ps q) (s : State) (hr : ReachC (mainInit ps q) s) :
    Reach (mainInit ps q) s := by
  induction hr with
  | start => exact Reach.start
  | step _ hc ht ih =>
    rw [tickC_eq_tick (fits_of_reach ps q hv hq hin _ ih)] at ht
    exact Reach.step ih hc ht

theorem reachC_of_reach (ps : List Process) (q : Int) (hv : ValidInput ps)
    (hq : ValidQuantum q) (hin : InRange ps q) (s : State) (hr : Reach (mainInit ps q) s) :
    ReachC (mainInit ps q) s := by
  induction hr with
  | start => exact ReachC.start
  | step hr' hc ht ih =>
    rw [← tickC_eq_tick (fits_of_reach ps q hv hq hin _ hr')] at ht
    exact ReachC.step ih hc ht

theorem tickC_of_reach (ps : List Process) (q : Int) (hv : ValidInput ps)
    (hq : ValidQuantum q) (hin : InRange ps q) (s : State) (hr : ReachC (mainInit ps q) s) :
    tickC s = tick s :=
  tickC_eq_tick (fits_of_reach ps q hv hq hin s (reach_of_reachC ps q hv hq hin s hr))

theorem runLoopC_eq (ps : List Process) (q : Int) (hv : ValidInput ps)
    (hq : ValidQuantum q) (hin : InRange ps q) (fuel : Nat) :
    ∀ s, Reach (mainInit ps q) s → runLoopC fuel s = runLoop fuel s := by
  induction fuel with
  | zero => intro s _; rfl
  | succ n ih =>
    intro s hr
    unfold runLoopC runLoop
    by_cases hc : loopCond s
    · rw [if_pos hc, if_pos hc, tickC_eq_tick (fits_of_reach ps q hv hq hin s hr)]
      cases ht : tick s with
      | error e => rfl
      | ok s' => exact ih s' (Reach.step hr hc ht)
    · rw [if_neg hc, if_neg hc]

theorem reach_times_le (ps : List Process) (q : Int) (hv : ValidInput ps)
    (hq : ValidQuantum q) (s : State) (hr : Reach (mainInit ps q) s) (i : Nat) :
    (-1 ≤ (getP s.procs i).start_exec_time ∧ (getP s.procs i).start_exec_time ≤ s.t) ∧
    (finTimes s.log i ≠ [] →
      0 ≤ (getP s.procs i).finish_time ∧ (getP s.procs i).finish_time ≤ s.t) := by
  have hinv0 := Inv.at_start ps q hv hq
  induction hr with
  | start =>
    refine ⟨?_, fun h => absurd rfl h⟩
    simp only [mainInit]
    by_cases hi : i < ps.length
    · rw [getP_initProcesses ps i hi]
      dsimp only
      omega
    · rw [getP_default _ _ (by simp [initProcesses]; omega)]
      exact ⟨by decide, by decide⟩
  | step hr' hc ht ih =>
    rename_i s1 s2
    have hinv := hinv0.of_reach hr'
    have hs := tick_shape_of_ok hinv.core ht
    have hm := hs.marks hinv.core i
    have ht0 := hinv.core.t_nonneg
    rw [hs.t_eq]
    constructor
    · by_cases h1 : (getP s1.procs i).start_exec_time = -1
      · rcases hm.2.1 h1 with h2 | h2
        · rw [h2.1]; omega
        · rw [h2.1]; omega
      · rw [hm.1 h1]
        have := ih.1
        omega
    · intro hne
      rcases hm.2.2 with h2 | h2
      · rw [h2.1] at hne
        rw [h2.2]
        have := ih.2 hne
        omega
      · rw [h2.2.2.2]; omega

theorem finalizeC_eq_of (procs : List Process)
    (h : ∀ p ∈ procs, (0 ≤ p.arrival_time ∧ p.arrival_time ≤ 2147483647) ∧
      (0 ≤ p.burst_time ∧ p.burst_time ≤ 2147483647) ∧
      (-1 ≤ p.start_exec_time ∧ p.start_exec_time ≤ 2147483647) ∧
      (0 ≤ p.finish_time ∧ p.finish_time ≤ 2147483647)) :
    finalizeC procs = finalize procs := by
  unfold finalizeC finalize
  apply List.map_congr_left
  intro p hp
  obtain ⟨h1, h2, h3, h4⟩ := h p hp
  rw [toLong_of_range (p.finish_time - p.arrival_time) (by omega) (by omega),
    toLong_of_range (p.finish_time - p.arrival_time - p.burst_time) (by omega) (by omega),
    toLong_of_range (p.start_exec_time - p.arrival_time) (by omega) (by omega)]

theorem finalizeC_eq (ps : List Process) (q : Int) (hv : ValidInput ps)
    (hq : ValidQuantum q) (hin : InRange ps q) (s : State) (hr : Reach (mainInit ps q) s)
    (hc : ¬ loopCond s) : finalizeC s.procs = finalize s.procs := by
  have hinv0 := Inv.at_start ps q hv hq
  have hinv := hinv0.of_reach hr
  have hfit := fits_of_reach ps q hv hq hin s hr
  obtain ⟨hl, hp, harr⟩ := hinv.at_exit hc
  apply finalizeC_eq_of
  intro p hpm
  obtain ⟨i, hi, rfl⟩ := List.mem_iff_getElem.mp hpm
  have hg : s.procs[i] = getP s.procs i := by
    simp [getP, List.getD_eq_getElem?_getD, List.getElem?_eq_getElem hi]
  rw [hg]
  have hti := reach_times_le ps q hv hq s hr i
  have hfin := hinv.log.fin_done i hi (harr i hi) (by simp [hl]) (by simp [hp])
  have hf := hti.2 (by rw [hfin]; simp)
  have hv' := hinv.core.valid i hi
  have hthi := hfit.t_hi
  have ha := harr i hi
  have hb := (hfit.rem i).2.2
  refine ⟨⟨hv'.1, by omega⟩, ⟨by omega, hb⟩, ⟨hti.1.1, by omega⟩, ⟨hf.1, by omega⟩⟩

/-- On a valid input in range the simulation with the widths of the types is the simulation
with unbounded integers. -/
theorem simulateC_eq (ps : List Process) (q : Int) (hv : ValidInput ps)
    (hq : ValidQuantum q) (hin : InRange ps q) (fuel : Nat) :
    simulateC fuel ps q = simulate fuel ps q := by
  unfold simulateC simulate
  rw [runLoopC_eq ps q hv hq hin fuel _ Reach.start]
  cases h : runLoop fuel (mainInit ps q) with
  | done s =>
    have hex := runLoop_exit _ _ _ h
    dsimp only
    rw [finalizeC_eq ps q hv hq hin s hex.2 hex.1]
  | fault e => rfl
  | outOfFuel => rfl

/-! ## Runs in which the clock overflows -/

theorem countArrivalsC_none (procs : List Process) (t : Int)
    (h : ∀ i, i < procs.length → (getP procs i).arrival_time ≠ t) :
    countArrivalsC procs t = 0 := by
  unfold countArrivalsC
  have key : ∀ (l : List Nat), (∀ i ∈ l, i < procs.length) →
      l.foldl (fun c i => if (getP procs i).arrival_time = t then toInt (c + 1) else c) 0
        = 0 := by
    intro l
    induction l with
    | nil => intro _; rfl
    | cons a l ih =>
      intro hl
      simp only [List.foldl_cons]
      rw [if_neg (h a (hl a (List.mem_cons_self _ _)))]
      exact ih (fun i hi => hl i (List.mem_cons_of_mem _ hi))
  exact key _ (fun i hi => List.mem_range.mp hi)

theorem tickC_idle (s : State) (hl : s.list = []) (hp : s.p = none)
    (ha : countArrivalsC s.procs s.t = 0) : tickC s = .ok (advanceClockC s) := by
  unfold tickC idleAdmissionC
  simp [hl, hp, ha]

/-- While nothing runs, the list is empty and no process arrives, an iteration only advances
the clock. -/
theorem idle_runC (n : Nat) : ∀ (fuel : Nat) (s : State), s.list = [] → s.p = none →
    s.num_arrived < (s.procs.length : Int) → 0 ≤ s.t → s.t + (n : Int) ≤ 2147483647 →
    (∀ τ, s.t ≤ τ → τ < s.t + (n : Int) → countArrivalsC s.procs τ = 0) →
    runLoopC (n + fuel) s = runLoopC fuel { s with t := s.t + (n : Int) } := by
  induction n with
  | zero =>
    intro fuel s _ _ _ _ _ _
    simp
  | succ n ih =>
    intro fuel s hl hp hn h0 h1 ha
    have hc : loopCond s := Or.inr (Or.inr hn)
    have ht : tickC s = .ok { s with t := s.t + 1 } := by
      rw [tickC_idle s hl hp (ha s.t (le_refl _) (by push_cast; omega))]
      unfold advanceClockC
      rw [toInt_of_range _ (by omega) (by push_cast at h1; omega)]
    rw [show n + 1 + fuel = (n + fuel) + 1 by omega]
    rw [runLoopC, if_pos hc, ht]
    dsimp only
    rw [ih fuel { s with t := s.t + 1 } hl hp hn (by dsimp only; omega)
      (by dsimp only; push_cast at h1; omega)
      (fun τ h2 h3 => ha τ (by dsimp only at h2; omega)
        (by dsimp only at h3; push_cast; omega))]
    dsimp only
    congr 2
    push_cast
    omega

theorem idle_reachC (s0 : State) (n : Nat) : ∀ (s : State), ReachC s0 s → s.list = [] →
    s.p = none → s.num_arrived < (s.procs.length : Int) → 0 ≤ s.t →
    s.t + (n : Int) ≤ 2147483647 →
    (∀ τ, s.t ≤ τ → τ < s.t + (n : Int) → countArrivalsC s.procs τ = 0) →
    ReachC s0 { s with t := s.t + (n : Int) } := by
  induction n with
  | zero =>
    intro s hr _ _ _ _ _ _
    simpa using hr
  | succ n ih =>
    intro s hr hl hp hn h0 h1 ha
    have hc : loopCond s := Or.inr (Or.inr hn)
    have ht : tickC s = .ok { s with t := s.t + 1 } := by
      rw [tickC_idle s hl hp (ha s.t (le_refl _) (by push_cast; omega))]
      unfold advanceClockC
      rw [toInt_of_range _ (by omega) (by push_cast at h1; omega)]
    have := ih { s with t := s.t + 1 } (ReachC.step hr hc ht) hl hp hn (by dsimp only; omega)
      (by dsimp only; push_cast at h1; omega)
      (fun τ h2 h3 => ha τ (by dsimp only at h2; omega)
        (by dsimp only at h3; push_cast; omega))
    dsimp only at this
    have e : s.t + 1 + (n : Int) = s.t + ((n + 1 : Nat) : Int) := by push_cast; omega
    rw [e] at this
    exact this

theorem exampleLastTick_run :
    runLoopC (2147483647 + 3) (mainInit [Process.input 1 2147483647 1] 1)
      = .done exampleWrappedExit := by
  have h := idle_runC 2147483647 3 (mainInit [Process.input 1 2147483647 1] 1) rfl rfl
    (by decide) (by decide) (by decide) (fun τ h1 h2 => by
      apply countArrivalsC_none
      intro i hi
      have hi0 : i = 0 := by
        have : (mainInit [Process.input 1 2147483647 1] 1).procs.length = 1 := rfl
        omega
      subst hi0
      have ha : (getP (mainInit [Process.input 1 2147483647 1] 1).procs 0).arrival_time
          = 2147483647 := rfl
      rw [ha]
      have ht : (mainInit [Process.input 1 2147483647 1] 1).t = 0 := rfl
      rw [ht] at h2
      push_cast at h2
      omega)
  rw [h]
  decide

theorem exampleLastTick_reachC :
    ReachC (mainInit [Process.input 1 2147483647 1] 1) exampleLastTick := by
  have h := idle_reachC (mainInit [Process.input 1 2147483647 1] 1) 2147483647
    (mainInit [Process.input 1 2147483647 1] 1) ReachC.start rfl rfl
    (by decide) (by decide) (by decide) (fun τ h1 h2 => by
      apply countArrivalsC_none
      intro i hi
      have hi0 : i = 0 := by
        have : (mainInit [Process.input 1 2147483647 1] 1).procs.length = 1 := rfl
        omega
      subst hi0
      have ha : (getP (mainInit [Process.input 1 2147483647 1] 1).procs 0).arrival_time
          = 2147483647 := rfl
      rw [ha]
      have ht : (mainInit [Process.input 1 2147483647 1] 1).t = 0 := rfl
      rw [ht] at h2
      push_cast at h2
      omega)
  exact h

theorem simulateC_of_run (fuel : Nat) (ps : List Process) (q : Int) (s : State)
    (h : runLoopC fuel (mainInit ps q) = .done s) :
    simulateC fuel ps q = some (finalizeC s.procs) := by
  unfold simulateC
  rw [h]

/-- One process with arrival time `INT_MAX` and burst time 1, fixed quantum 1: the clock
overflows in the iteration of the dispatch, `finish_time` is `INT_MIN` and `waiting_time` is
`-4294967296`. -/
theorem simulateC_late_arrival :
    simulateC (2147483647 + 3) [Process.input 1 2147483647 1] 1
      = some [⟨1, 2147483647, 1, 0, 2147483647, -4294967296, 0, -2147483648⟩] :=
  (simulateC_of_run _ _ _ _ exampleLastTick_run).trans (by decide)

/-! ## The times of the result, within the range of `int` -/

theorem calculateMedianC_odd (xs : List Int) (h : xs.length % 2 = 1) :
    calculateMedianC xs = calculateMedian xs := by
  unfold calculateMedianC calculateMedian
  simp only [if_pos h]

/-- C5 fails as stated. On the array of two elements `LONG_MAX`, `LONG_MAX` the sum of the
two middle elements overflows a `long`: `calculateMedian` returns -1, not the average
`LONG_MAX`. -/
theorem calculateMedian_spec_counterexample :
    calculateMedianC [9223372036854775807, 9223372036854775807] = some (-1) ∧
    ((9223372036854775807 : Int) + 9223372036854775807) % 2 = 0 ∧
    ((9223372036854775807 : Int) + 9223372036854775807) / 2 = 9223372036854775807 := by
  decide

/-- C5, as amended. For a non-empty array, `calculateMedian` returns the middle element of the
ascending sorted array when the size is odd; when the size is even, with `a ≤ b` the two
middle elements of the sorted array, and when `a + b` does not overflow a `long`
(`LONG_MIN ≤ a + b < LONG_MAX`), it returns `(a+b)/2` if `a+b` is even and `(a+b+1)/2` if
`a+b` is odd, that is the average of `a` and `b` rounded up to the next integer. -/
theorem calculateMedianC_spec (xs s : List Int) (hne : xs ≠ []) (hperm : s.Perm xs)
    (hsorted : s.Sorted (· ≤ ·)) :
    (xs.length % 2 = 1 →
      ∃ m, s[xs.length / 2]? = some m ∧ calculateMedianC xs = some m) ∧
    (xs.length % 2 = 0 →
      ∃ a b, s[xs.length / 2 - 1]? = some a ∧ s[xs.length / 2]? = some b ∧ a ≤ b ∧
        (LONG_MIN ≤ a + b → a + b < LONG_MAX →
          ((a + b) % 2 = 0 → calculateMedianC xs = some ((a + b) / 2)) ∧
          ((a + b) % 2 = 1 → calculateMedianC xs = some ((a + b + 1) / 2)) ∧
          ∃ m, calculateMedianC xs = some m ∧ a + b ≤ 2 * m ∧ 2 * m < a + b + 2)) := by
  obtain ⟨h1, h2⟩ := calculateMedian_spec xs s hne hperm hsorted
  obtain rfl := qsort_unique xs s hperm hsorted
  constructor
  · intro hodd
    rw [calculateMedianC_odd xs hodd]
    exact h1 hodd
  · intro heven
    obtain ⟨a, b, ha, hb, hab, h3⟩ := h2 heven
    refine ⟨a, b, ha, hb, hab, fun hlo hhi => ?_⟩
    have hpos : 0 < xs.length := List.length_pos.mpr hne
    have hidx : (xs.length - 1) / 2 = xs.length / 2 - 1 := by omega
    have he : calculateMedianC xs = calculateMedian xs := by
      apply calculateMedianC_eq_of
      intro a' b' ha' hb'
      rw [hidx, ha] at ha'
      rw [hb] at hb'
      injection ha' with ha'
      injection hb' with hb'
      subst ha' hb'
      unfold LONG_MIN at hlo
      unfold LONG_MAX at hhi
      exact ⟨hlo, hhi⟩
    rw [he]
    exact h3

/-- C5 as amended, on the array 3, 1, 2, 8. -/
theorem calculateMedianC_spec_witness :
    ([3, 1, 2, 8] : List Int).length % 2 = 0 ∧ calculateMedianC [3, 1, 2, 8] = some 3 ∧
    ((([3, 1, 2, 8] : List Int).length % 2 = 1 →
      ∃ m, ([1, 2, 3, 8] : List Int)[([3, 1, 2, 8] : List Int).length / 2]? = some m ∧
        calculateMedianC [3, 1, 2, 8] = some m) ∧
    (([3, 1, 2, 8] : List Int).length % 2 = 0 →
      ∃ a b, ([1, 2, 3, 8] : List Int)[([3, 1, 2, 8] : List Int).length / 2 - 1]? = some a ∧
        ([1, 2, 3, 8] : List Int)[([3, 1, 2, 8] : List Int).length / 2]? = some b ∧ a ≤ b ∧
        (LONG_MIN ≤ a + b → a + b < LONG_MAX →
          ((a + b) % 2 = 0 → calculateMedianC [3, 1, 2, 8] = some ((a + b) / 2)) ∧
          ((a + b) % 2 = 1 → calculateMedianC [3, 1, 2, 8] = some ((a + b + 1) / 2)) ∧
          ∃ m, calculateMedianC [3, 1, 2, 8] = some m ∧ a + b ≤ 2 * m ∧
            2 * m < a + b + 2))) :=
  ⟨by decide, by decide,
    calculateMedianC_spec [3, 1, 2, 8] [1, 2, 3, 8] (by decide) (by decide) (by decide)⟩

theorem foldl_enqueueArrivalC_fields (l : List Nat) : ∀ (s : State) (n : Int),
    ∃ m, l.foldl enqueueArrivalC { s with num_arrived := n }
      = { l.foldl enqueueArrival s with num_arrived := m } := by
  induction l with
  | nil => intro s n; exact ⟨n, rfl⟩
  | cons a l ih =>
    intro s n
    simp only [List.foldl_cons]
    by_cases h : (getP s.procs a).arrival_time = s.t
    · have e1 : enqueueArrivalC { s with num_arrived := n } a
          = { enqueueArrival s a with num_arrived := toInt (n + 1) } := by
        unfold enqueueArrivalC enqueueArrival
        rw [if_pos h, if_pos h]
      rw [e1]
      exact ih _ _
    · have e1 : enqueueArrivalC { s with num_arrived := n } a
          = { enqueueArrival s a with num_arrived := n } := by
        unfold enqueueArrivalC enqueueArrival
        rw [if_neg h, if_neg h]
      rw [e1]
      exact ih _ _

/-- The loop of lines 341-347 with the `int` counter differs from the one with an unbounded
counter in `num_arrived` only. -/
theorem enqueueArrivalsC_fields (s : State) :
    ∃ m, enqueueArrivalsC s = { enqueueArrivals s with num_arrived := m } := by
  unfold enqueueArrivalsC enqueueArrivals
  exact foldl_enqueueArrivalC_fields _ s s.num_arrived

@[simp] theorem enqueueArrivalsC_t (s : State) : (enqueueArrivalsC s).t = s.t := by
  obtain ⟨m, h⟩ := enqueueArrivalsC_fields s
  rw [h]; simp

@[simp] theorem enqueueArrivalsC_procs (s : State) : (enqueueArrivalsC s).procs = s.procs := by
  obtain ⟨m, h⟩ := enqueueArrivalsC_fields s
  rw [h]; simp

@[simp] theorem enqueueArrivalsC_p (s : State) : (enqueueArrivalsC s).p = s.p := by
  obtain ⟨m, h⟩ := enqueueArrivalsC_fields s
  rw [h]; simp

@[simp] theorem enqueueArrivalsC_list (s : State) :
    (enqueueArrivalsC s).list = s.list ++ arrivingNow s.procs s.t := by
  obtain ⟨m, h⟩ := enqueueArrivalsC_fields s
  rw [h]; simp

@[simp] theorem enqueueArrivalsC_log (s : State) :
    (enqueueArrivalsC s).log
      = s.log ++ (arrivingNow s.procs s.t).map (fun i => Event.enq i s.t) := by
  obtain ⟨m, h⟩ := enqueueArrivalsC_fields s
  rw [h]; simp

@[simp] theorem enqueueArrivalsC_median_mode (s : State) :
    (enqueueArrivalsC s).median_mode = s.median_mode := by
  obtain ⟨m, h⟩ := enqueueArrivalsC_fields s
  rw [h]; simp

@[simp] theorem enqueueArrivalsC_quantum_length (s : State) :
    (enqueueArrivalsC s).quantum_length = s.quantum_length := by
  obtain ⟨m, h⟩ := enqueueArrivalsC_fields s
  rw [h]; simp

@[simp] theorem enqueueArrivalsC_quantum_left (s : State) :
    (enqueueArrivalsC s).quantum_left = s.quantum_left := by
  obtain ⟨m, h⟩ := enqueueArrivalsC_fields s
  rw [h]; simp

/-- An iteration that finds a process running: lines 319-349. -/
theorem tickC_running (s : State) (i : Nat) (hp : s.p = some i) :
    tickC s = executeAndEnqueueC s (countArrivalsC s.procs s.t) false := by
  unfold tickC idleAdmissionC
  simp [hp]

theorem tickC_finish (s : State) (i : Nat) (hp : s.p = some i)
    (hr : (getP s.procs i).remaining_time = 0) :
    tickC s = .ok (advanceClockC (enqueueArrivalsC (finishStep s i))) := by
  rw [tickC_running s i hp]
  unfold executeAndEnqueueC executeC
  simp [hp, hr]

theorem tickC_preempt (s : State) (i : Nat) (hp : s.p = some i)
    (hr : (getP s.procs i).remaining_time ≠ 0) (hq : s.quantum_left = 0) (hl : s.list ≠ []) :
    tickC s = .ok (advanceClockC (enqueueArrivalsC (preemptStep s i))) := by
  rw [tickC_running s i hp]
  unfold executeAndEnqueueC executeC
  simp [hp, hr, hq, hl]

theorem tickC_work (s : State) (i : Nat) (hp : s.p = some i)
    (hr : (getP s.procs i).remaining_time ≠ 0) (hq : s.quantum_left ≠ 0) :
    tickC s = .ok (advanceClockC (enqueueArrivalsC (workStepC s i))) := by
  rw [tickC_running s i hp]
  unfold executeAndEnqueueC executeC
  simp [hp, hr, hq]

/-- An iteration with a fixed quantum that finds nothing running and the list not empty:
the quantum of the dispatch is `quantum_length` as an `int`. -/
theorem tickC_dispatch_fixed (s : State) (h : Nat) (rest : List Nat) (hp : s.p = none)
    (hl : s.list = h :: rest) (hm : s.median_mode = false) :
    tickC s = executeAndEnqueueC (dispatchStepC s h rest (toInt s.quantum_length))
      (countArrivalsC s.procs s.t) false := by
  unfold tickC idleAdmissionC dispatchC calculateQuantumC
  simp [hp, hl, hm]

theorem runLoopC_add (k : Nat) (fuel : Nat) (s s' : State)
    (h : runLoopC fuel s = .done s') : runLoopC (fuel + k) s = .done s' := by
  induction fuel generalizing s with
  | zero => simp [runLoopC] at h
  | succ n ih =>
    rw [show n + 1 + k = (n + k) + 1 by omega]
    unfold runLoopC at h ⊢
    by_cases hc : loopCond s
    · rw [if_pos hc] at h ⊢
      cases ht : tickC s with
      | error e => rw [ht] at h; simp at h
      | ok s1 =>
        rw [ht] at h
        dsimp only at h ⊢
        exact ih s1 h
    · rw [if_neg hc] at h ⊢
      exact h

theorem simulateC_add (k fuel : Nat) (ps : List Process) (q : Int) (res : List Process)
    (h : simulateC fuel ps q = some res) : simulateC (fuel + k) ps q = some res := by
  unfold simulateC at h ⊢
  cases hr : runLoopC fuel (mainInit ps q) with
  | done s =>
    rw [hr] at h
    rw [runLoopC_add k fuel _ s hr]
    exact h
  | outOfFuel => rw [hr] at h; simp at h
  | fault e => rw [hr] at h; simp at h

theorem runLoopC_step (fuel : Nat) (s s' : State) (hc : loopCond s)
    (ht : tickC s = .ok s') : runLoopC (fuel + 1) s = runLoopC fuel s' := by
  rw [runLoopC, if_pos hc, ht]

theorem ReachC.reach_trans {s0 s1 s2 : State} (h1 : ReachC s0 s1) (h2 : ReachC s1 s2) :
    ReachC s0 s2 := by
  induction h2 with
  | start => exact h1
  | step _ hc ht ih => exact ReachC.step ih hc ht

/-- The state after `n` iterations is a state the loop reaches. -/
theorem reachC_ticksC (n : Nat) : ∀ (s s' : State), ticksC n s = some s' → ReachC s s' := by
  induction n with
  | zero =>
    intro s s' h
    simp only [ticksC, Option.some.injEq] at h
    subst h
    exact ReachC.start
  | succ n ih =>
    intro s s' h
    unfold ticksC at h
    by_cases hc : loopCond s
    · rw [if_pos hc] at h
      cases ht : tickC s with
      | error e => rw [ht] at h; simp at h
      | ok s1 =>
        rw [ht] at h
        dsimp only at h
        exact (ReachC.step ReachC.start hc ht).reach_trans (ih s1 s' h)
    · rw [if_neg hc] at h
      simp at h

theorem idleAdmissionC_eq {s : State} (h : Fits false s) (npa : Int) :
    idleAdmissionC s npa = idleAdmission s npa := by
  unfold idleAdmissionC idleAdmission
  rw [enqueueArrivalsFlagC_eq s (h.arr rfl).1 (h.arr rfl).2]
/-! ## The ready list, within the range of `int` -/

/-- C7 fails as stated. With the quantum argument 4294967296, which `calculateQuantum`
narrows to 0, and two processes that arrive at tick 0, the iteration of tick 0 inserts both
arrivals, dispatches the first and preempts it at once (its quantum counter is 0 and the list
is not empty): the preempted process is inserted behind the process that arrived at the tick
of the preemption, not ahead of it. -/
theorem ready_queue_fifo_counterexample :
    ValidInput [Process.input 1 0 1, Process.input 2 0 1] ∧ ValidQuantum 4294967296 ∧
    loopCond (mainInit [Process.input 1 0 1, Process.input 2 0 1] 4294967296) ∧
    tickC (mainInit [Process.input 1 0 1, Process.input 2 0 1] 4294967296)
      = .ok exampleLivelock ∧
    (getP exampleLivelock.procs 1).arrival_time
      = (mainInit [Process.input 1 0 1, Process.input 2 0 1] 4294967296).t ∧
    exampleLivelock.log = [Event.enq 0 0, Event.enq 1 0, Event.deq 0 0, Event.enq 0 0] ∧
    exampleLivelock.list = [1, 0] ∧
    enqs exampleLivelock.log ≠
      enqs (mainInit [Process.input 1 0 1, Process.input 2 0 1] 4294967296).log
        ++ preempted (mainInit [Process.input 1 0 1, Process.input 2 0 1] 4294967296)
        ++ arrivingNow (mainInit [Process.input 1 0 1, Process.input 2 0 1] 4294967296).procs
            (mainInit [Process.input 1 0 1, Process.input 2 0 1] 4294967296).t :=
  ⟨by decide, by decide, by decide, rfl, by decide, rfl, rfl, by decide⟩

/-- C7, as amended. In every state the loop reaches on a valid input in range (the bound
`fuelBound` on the iterations and the fixed quantum are at most `INT_MAX`), with the widths
of the types, the ready list is first-in first-out: the processes inserted so far are, in the
order of the insertions, the processes removed so far followed by the list. An iteration at
tick `t` inserts the process it preempts, if any, and after it the processes with
`arrival_time == t`, contiguously and by ascending index; when it dispatches it removes the
head of the list; and the new list is the old one with these changes and no other. -/
theorem ready_queue_fifo_in_range (ps : List Process) (q : Int) (hv : ValidInput ps)
    (hq : ValidQuantum q) (hin : InRange ps q) (s : State)
    (hr : ReachC (mainInit ps q) s) :
    enqs s.log = deqs s.log ++ s.list ∧
    (arrivingNow s.procs s.t).Sorted (· < ·) ∧
    (∀ i, i ∈ arrivingNow s.procs s.t ↔
      i < s.procs.length ∧ (getP s.procs i).arrival_time = s.t) ∧
    ∀ s', loopCond s → tickC s = .ok s' →
      enqs s'.log = enqs s.log ++ preempted s ++ arrivingNow s.procs s.t ∧
      deqs s'.log = deqs s.log ++
        (if s.p = none then ((s.list ++ arrivingNow s.procs s.t).head?).toList else []) ∧
      s'.list =
        (if s.p = none then (s.list ++ arrivingNow s.procs s.t).tail
         else s.list ++ preempted s ++ arrivingNow s.procs s.t) := by
  have h := ready_queue_fifo ps q hv hq s (reach_of_reachC ps q hv hq hin s hr)
  rw [tickC_of_reach ps q hv hq hin s hr]
  exact h

/-- C7 as amended, at the state `examplePreempting`: the iteration of tick 1 preempts the
first process, which goes to the tail of the list behind the second. -/
theorem ready_queue_fifo_in_range_witness :
    enqs examplePreempting.log = deqs examplePreempting.log ++ examplePreempting.list ∧
    (arrivingNow examplePreempting.procs examplePreempting.t).Sorted (· < ·) ∧
    (∀ i, i ∈ arrivingNow examplePreempting.procs examplePreempting.t ↔
      i < examplePreempting.procs.length ∧
        (getP examplePreempting.procs i).arrival_time = examplePreempting.t) ∧
    ∀ s', loopCond examplePreempting → tickC examplePreempting = .ok s' →
      enqs s'.log = enqs examplePreempting.log ++ preempted examplePreempting
        ++ arrivingNow examplePreempting.procs examplePreempting.t ∧
      deqs s'.log = deqs examplePreempting.log ++
        (if examplePreempting.p = none then
          ((examplePreempting.list
            ++ arrivingNow examplePreempting.procs examplePreempting.t).head?).toList
         else []) ∧
      s'.list =
        (if examplePreempting.p = none then
          (examplePreempting.list
            ++ arrivingNow examplePreempting.procs examplePreempting.t).tail
         else examplePreempting.list ++ preempted examplePreempting
            ++ arrivingNow examplePreempting.procs examplePreempting.t) :=
  ready_queue_fifo_in_range [Process.input 1 0 3, Process.input 2 0 2] 1 (by decide)
    (by decide) (by decide) examplePreempting (reachC_ticksC 1 _ _ (by decide))
/-! ## The marks of start and finish, within the range of `int` -/

theorem markStart_length (procs : List Process) (h : Nat) (t : Int) :
    (markStart procs h t).length = procs.length := by
  unfold markStart updP
  split_ifs <;> simp

/-- From a state of `Livelock` the iteration dispatches the head of the list and preempts it
at once, and the next state is again one of `Livelock`. -/
theorem Livelock.step {s : State} (h : Livelock s) :
    loopCond s ∧ ∃ s', tickC s = .ok s' ∧ Livelock s' ∧ s'.t = toInt (s.t + 1) := by
  obtain ⟨hp, htwo, hlist, hrem, harr, hq, hm, hfin⟩ := h
  match hl : s.list, htwo with
  | a :: b :: rest, _ =>
    have hne : s.list ≠ [] := by rw [hl]; simp
    refine ⟨Or.inl hne, ?_⟩
    have ha : a < s.procs.length := hlist a (by rw [hl]; simp)
    have h1 := tickC_dispatch_fixed s a (b :: rest) hp hl hm
    have h2 : executeAndEnqueueC (dispatchStepC s a (b :: rest) (toInt s.quantum_length))
        (countArrivalsC s.procs s.t) false
        = .ok (advanceClockC (enqueueArrivalsC
            (preemptStep (dispatchStepC s a (b :: rest) (toInt s.quantum_length)) a))) := by
      unfold executeAndEnqueueC executeC
      have hr : (getP (dispatchStepC s a (b :: rest) (toInt s.quantum_length)).procs
          a).remaining_time ≠ 0 := by
        simp only [dispatchStepC, markStart_remaining]
        exact hrem a ha
      have hq0 : (dispatchStepC s a (b :: rest) (toInt s.quantum_length)).quantum_left
          = 0 := by
        simp only [dispatchStepC]
        rw [hq]
        rfl
      have hp1 : (dispatchStepC s a (b :: rest) (toInt s.quantum_length)).p = some a := rfl
      have hl1 : (dispatchStepC s a (b :: rest) (toInt s.quantum_length)).list ≠ [] := by
        simp [dispatchStepC]
      simp [hp1, hr, hq0, hl1]
    refine ⟨_, h1.trans h2, ?_, by simp [advanceClockC, preemptStep, dispatchStepC]⟩
    have hlen : (markStart s.procs a s.t).length = s.procs.length := markStart_length _ _ _
    refine ⟨by simp [advanceClockC, preemptStep, dispatchStepC], ?_, ?_, ?_, ?_, ?_, ?_, ?_⟩
    · simp only [advanceClockC, enqueueArrivalsC_list, preemptStep, dispatchStepC,
        List.length_append, List.length_cons]
      omega
    · intro i hi
      simp only [advanceClockC, enqueueArrivalsC_list, enqueueArrivalsC_procs, preemptStep,
        dispatchStepC, List.mem_append, List.mem_cons, List.mem_singleton, List.not_mem_nil,
        or_false] at hi ⊢
      rw [hlen]
      rcases hi with ((hi | hi) | hi) | hi
      · rw [hi]; exact hlist b (by rw [hl]; simp)
      · exact hlist i (by rw [hl]; simp [hi])
      · rw [hi]; exact ha
      · rw [mem_arrivingNow, hlen] at hi
        exact hi.1
    · intro i hi
      simp only [advanceClockC, enqueueArrivalsC_procs, preemptStep, dispatchStepC,
        markStart_remaining] at hi ⊢
      rw [hlen] at hi
      exact hrem i hi
    · intro i
      simp only [advanceClockC, enqueueArrivalsC_procs, preemptStep, dispatchStepC,
        markStart_arrival]
      exact harr i
    · simp only [advanceClockC, enqueueArrivalsC_quantum_length, preemptStep, dispatchStepC]
      rw [hq]
      rfl
    · simp only [advanceClockC, enqueueArrivalsC_median_mode, preemptStep, dispatchStepC]
      exact hm
    · intro i
      simp only [advanceClockC, enqueueArrivalsC_log, preemptStep, dispatchStepC,
        finTimes_append, finTimes_arrivals, finTimes_enq, finTimes_deq, List.append_nil]
      exact hfin i

theorem Livelock.run {s : State} (h : Livelock s) (fuel : Nat) :
    runLoopC fuel s = .outOfFuel := by
  induction fuel generalizing s with
  | zero => rfl
  | succ n ih =>
    obtain ⟨hc, s', ht, h', -⟩ := h.step
    rw [runLoopC_step n s s' hc ht]
    exact ih h'

theorem Livelock.reach {s s' : State} (h : Livelock s) (hr : ReachC s s') : Livelock s' := by
  induction hr with
  | start => exact h
  | step _ _ ht ih =>
    obtain ⟨_, s2, ht2, h2, -⟩ := ih.step
    rw [ht2] at ht
    injection ht with ht
    subst ht
    exact h2

theorem exampleLivelock_livelock : Livelock exampleLivelock := by
  refine ⟨rfl, by decide, by decide, ?_, ?_, rfl, rfl, fun i => ?_⟩
  · intro i hi
    have : i = 0 ∨ i = 1 := by
      have : exampleLivelock.procs.length = 2 := rfl
      omega
    rcases this with rfl | rfl <;> decide
  · intro i
    by_cases hi : i < exampleLivelock.procs.length
    · have : i = 0 ∨ i = 1 := by
        have : exampleLivelock.procs.length = 2 := rfl
        omega
      rcases this with rfl | rfl <;> decide
    · rw [getP_default _ _ (by omega)]
      decide
  · simp [exampleLivelock, finTimes]

/-- From a state of `Livelock` the loop reaches, `n` iterations later, a state of `Livelock`
whose clock is `n` ticks ahead as an `int`. -/
theorem Livelock.ahead {s0 s : State} (h : Livelock s) (hr : ReachC s0 s) (ht : toInt s.t = s.t)
    (n : Nat) :
    ∃ s', ReachC s0 s' ∧ Livelock s' ∧ s'.t = toInt (s.t + (n : Int)) := by
  induction n with
  | zero => exact ⟨s, hr, h, by simp [ht]⟩
  | succ n ih =>
    obtain ⟨s1, hr1, h1, ht1⟩ := ih
    obtain ⟨hc, s2, hstep, h2, ht2⟩ := h1.step
    refine ⟨s2, ReachC.step hr1 hc hstep, h2, ?_⟩
    rw [ht2, ht1]
    unfold toInt
    push_cast
    omega

theorem reachC_first {s0 s : State} (hr : ReachC s0 s) :
    s = s0 ∨ ∃ s1, loopCond s0 ∧ tickC s0 = .ok s1 ∧ ReachC s1 s := by
  induction hr with
  | start => exact Or.inl rfl
  | step hr' hc ht ih =>
    rcases ih with rfl | ⟨s1, hc1, ht1, hr1⟩
    · exact Or.inr ⟨_, hc, ht, ReachC.start⟩
    · exact Or.inr ⟨s1, hc1, ht1, ReachC.step hr1 hc ht⟩

/-- With the quantum argument 4294967296 on two processes that arrive at tick 0 the loop with
the widths of the types never ends. -/
theorem exampleLivelock_run (fuel : Nat) :
    runLoopC fuel (mainInit [Process.input 1 0 1, Process.input 2 0 1] 4294967296)
      = .outOfFuel := by
  cases fuel with
  | zero => rfl
  | succ n =>
    rw [runLoopC_step n (mainInit [Process.input 1 0 1, Process.input 2 0 1] 4294967296)
      exampleLivelock (by decide) rfl]
    exact exampleLivelock_livelock.run n

/-! ## The bounds of the quantum, within the range of `int` -/

/-- C16 fails as stated. With the quantum argument 4294967296 and one process (arrival 0,
burst 2), `calculateQuantum` returns its `int` parameter `qSize`, which is 0: the quantum
granted at the dispatch of tick 0 is 0, the quantum granted at the expiry that follows in the
same iteration is 0 again, and the process runs on with `quantum_left == -1`. -/
theorem quantum_bounds_counterexample :
    ValidInput [Process.input 1 0 2] ∧ ValidQuantum 4294967296 ∧
    loopCond (mainInit [Process.input 1 0 2] 4294967296) ∧
    calculateQuantumC false [Process.input 1 0 2] none 1 true 4294967296 = some 0 ∧
    tickC (mainInit [Process.input 1 0 2] 4294967296) = .ok exampleZeroQuantum ∧
    exampleZeroQuantum.p = some 0 ∧
    exampleZeroQuantum.quantum_length = 0 ∧ ¬ 1 ≤ exampleZeroQuantum.quantum_length ∧
    exampleZeroQuantum.quantum_left = -1 ∧ ¬ 0 ≤ exampleZeroQuantum.quantum_left :=
  ⟨by decide, by decide, by decide, by decide, rfl, rfl, rfl, by decide, rfl, by decide⟩

/-- C16, as amended. On every valid input and in every quantum mode in range (the bound
`fuelBound` on the iterations and the fixed quantum are at most `INT_MAX`), in every state
the loop reaches with the widths of the types: the quantum in force is at least 1, and while
a process runs `0 ≤ quantum_left ≤ quantum_length`; the quantum computed at a dispatch is at
least 1, and so is the quantum computed when the counter is 0 and the list is empty; and the
samples of these two calls are not empty and hold no negative value. -/
theorem quantum_bounds_in_range (ps : List Process) (q : Int) (hv : ValidInput ps)
    (hq : ValidQuantum q) (hin : InRange ps q) (s : State)
    (hr : ReachC (mainInit ps q) s) :
    1 ≤ s.quantum_length ∧
    (s.p ≠ none → 0 ≤ s.quantum_left ∧ s.quantum_left ≤ s.quantum_length) ∧
    (∀ s1 added, idleAdmissionC s (countArrivalsC s.procs s.t) = some (s1, added) →
      s1.p = none →
      quantumSampleC (s1.list.map (getP s1.procs)) none (countArrivalsC s.procs s.t) added
        ≠ [] ∧
      (∀ x ∈ quantumSampleC (s1.list.map (getP s1.procs)) none
          (countArrivalsC s.procs s.t) added, 0 ≤ x) ∧
      ∃ q1, calculateQuantumC s1.median_mode (s1.list.map (getP s1.procs)) none
          (countArrivalsC s.procs s.t) added s1.quantum_length = some q1 ∧ 1 ≤ q1) ∧
    (∀ i, s.p = some i → (getP s.procs i).remaining_time ≠ 0 → s.quantum_left = 0 →
      s.list = [] →
      quantumSampleC [] (some (getP s.procs i)) (countArrivalsC s.procs s.t) false ≠ [] ∧
      (∀ x ∈ quantumSampleC [] (some (getP s.procs i)) (countArrivalsC s.procs s.t) false,
        0 ≤ x) ∧
      ∃ q1, calculateQuantumC s.median_mode [] (some (getP s.procs i))
          (countArrivalsC s.procs s.t) false s.quantum_length = some q1 ∧ 1 ≤ q1) ∧
    ∀ s', tickC s = .ok s' → 1 ≤ s'.quantum_length ∧
      (s'.p ≠ none → 0 ≤ s'.quantum_left ∧ s'.quantum_left ≤ s'.quantum_length) := by
  have hr' := reach_of_reachC ps q hv hq hin s hr
  have hf := fits_of_reach ps q hv hq hin s hr'
  obtain ⟨h1, h2, h3, h4, h5⟩ := quantum_bounds ps q hv hq s hr'
  rw [tickC_eq_tick hf, countArrivalsC_eq _ _ hf.len, idleAdmissionC_eq hf]
  refine ⟨h1, h2, fun s1 added ha hp => ?_, fun i hp hrem hql hl => ?_, h5⟩
  · have hf1 := hf.fits_admission ha
    rw [quantumSampleC_eq _ _ _ _ (hf1.fits_sample s1.list) (fun p hp => by cases hp),
      (calculateQuantumC_eq s1.median_mode _ none _ added s1.quantum_length hf1.qlen.1
        hf1.qlen.2 (hf1.fits_sample s1.list) (fun p hp => by cases hp)).1]
    exact h3 s1 added ha hp
  · have hw : ∀ p, some (getP s.procs i) = some p → 0 ≤ p.remaining_time ∧
        p.remaining_time ≤ p.burst_time ∧ p.burst_time ≤ 2147483647 := by
      intro p hpp
      rw [← Option.some.inj hpp]
      exact hf.rem i
    rw [quantumSampleC_eq _ _ _ _ (fun p hp => by cases hp) hw,
      (calculateQuantumC_eq s.median_mode [] _ _ false s.quantum_length hf.qlen.1
        hf.qlen.2 (fun p hp => by cases hp) hw).1]
    exact h4 i hp hrem hql hl

/-- C16 as amended, at two states of the run in median mode on one process (arrival 2,
burst 3): `exampleWaiting`, at the head of the iteration of tick 2, which dispatches the
process, and `exampleStarted`, at the head of the iteration of tick 3, in which the process
runs with its quantum counter at 0 while the list is empty. -/
theorem quantum_bounds_in_range_witness :
    (1 ≤ exampleWaiting.quantum_length ∧
    (exampleWaiting.p ≠ none → 0 ≤ exampleWaiting.quantum_left ∧ exampleWaiting.quantum_left ≤
        exampleWaiting.quantum_length) ∧
    (∀ s1 added, idleAdmissionC exampleWaiting (countArrivalsC exampleWaiting.procs
        exampleWaiting.t) = some (s1, added) →
      s1.p = none →
      quantumSampleC (s1.list.map (getP s1.procs)) none (countArrivalsC exampleWaiting.procs
          exampleWaiting.t) added
        ≠ [] ∧
      (∀ x ∈ quantumSampleC (s1.list.map (getP s1.procs)) none
          (countArrivalsC exampleWaiting.procs exampleWaiting.t) added, 0 ≤ x) ∧
      ∃ q1, calculateQuantumC s1.median_mode (s1.list.map (getP s1.procs)) none
          (countArrivalsC exampleWaiting.procs exampleWaiting.t) added s1.quantum_length = some q1 ∧
              1 ≤ q1) ∧
    (∀ i, exampleWaiting.p = some i → (getP exampleWaiting.procs i).remaining_time ≠ 0 →
        exampleWaiting.quantum_left = 0 →
      exampleWaiting.list = [] →
      quantumSampleC [] (some (getP exampleWaiting.procs i)) (countArrivalsC exampleWaiting.procs
          exampleWaiting.t) false ≠ [] ∧
      (∀ x ∈ quantumSampleC [] (some (getP exampleWaiting.procs i)) (countArrivalsC
          exampleWaiting.procs exampleWaiting.t) false,
        0 ≤ x) ∧
      ∃ q1, calculateQuantumC exampleWaiting.median_mode [] (some (getP exampleWaiting.procs i))
          (countArrivalsC exampleWaiting.procs exampleWaiting.t) false exampleWaiting.quantum_length
              = some q1 ∧ 1 ≤ q1) ∧
    ∀ s', tickC exampleWaiting = .ok s' → 1 ≤ s'.quantum_length ∧
      (s'.p ≠ none → 0 ≤ s'.quantum_left ∧ s'.quantum_left ≤ s'.quantum_length)) ∧
    (1 ≤ exampleStarted.quantum_length ∧
    (exampleStarted.p ≠ none → 0 ≤ exampleStarted.quantum_left ∧ exampleStarted.quantum_left ≤
        exampleStarted.quantum_length) ∧
    (∀ s1 added, idleAdmissionC exampleStarted (countArrivalsC exampleStarted.procs
        exampleStarted.t) = some (s1, added) →
      s1.p = none →
      quantumSampleC (s1.list.map (getP s1.procs)) none (countArrivalsC exampleStarted.procs
          exampleStarted.t) added
        ≠ [] ∧
      (∀ x ∈ quantumSampleC (s1.list.map (getP s1.procs)) none
          (countArrivalsC exampleStarted.procs exampleStarted.t) added, 0 ≤ x) ∧
      ∃ q1, calculateQuantumC s1.median_mode (s1.list.map (getP s1.procs)) none
          (countArrivalsC exampleStarted.procs exampleStarted.t) added s1.quantum_length = some q1 ∧
              1 ≤ q1) ∧
    (∀ i, exampleStarted.p = some i → (getP exampleStarted.procs i).remaining_time ≠ 0 →
        exampleStarted.quantum_left = 0 →
      exampleStarted.list = [] →
      quantumSampleC [] (some (getP exampleStarted.procs i)) (countArrivalsC exampleStarted.procs
          exampleStarted.t) false ≠ [] ∧
      (∀ x ∈ quantumSampleC [] (some (getP exampleStarted.procs i)) (countArrivalsC
          exampleStarted.procs exampleStarted.t) false,
        0 ≤ x) ∧
      ∃ q1, calculateQuantumC exampleStarted.median_mode [] (some (getP exampleStarted.procs i))
          (countArrivalsC exampleStarted.procs exampleStarted.t) false exampleStarted.quantum_length
              = some q1 ∧ 1 ≤ q1) ∧
    ∀ s', tickC exampleStarted = .ok s' → 1 ≤ s'.quantum_length ∧
      (s'.p ≠ none → 0 ≤ s'.quantum_left ∧ s'.quantum_left ≤ s'.quantum_length)) :=
  ⟨quantum_bounds_in_range [Process.input 1 2 3] (-1) (by decide) (by decide) (by decide)
      exampleWaiting (reachC_ticksC 2 _ _ (by decide)),
    quantum_bounds_in_range [Process.input 1 2 3] (-1) (by decide) (by decide) (by decide)
      exampleStarted (reachC_ticksC 3 _ _ (by decide))⟩
/-! ## A run in which the clock overflows while a process is released -/

theorem simulateC_idle (n fuel : Nat) (ps : List Process) (q : Int)
    (hn : (mainInit ps q).num_arrived < ((mainInit ps q).procs.length : Int))
    (h1 : (n : Int) ≤ 2147483647)
    (ha : ∀ τ : Int, 0 ≤ τ → τ < (n : Int) → countArrivalsC (mainInit ps q).procs τ = 0) :
    simulateC (n + fuel) ps q =
      match runLoopC fuel { mainInit ps q with t := (mainInit ps q).t + (n : Int) } with
      | .done s => some (finalizeC s.procs)
      | _ => none := by
  have ht : (mainInit ps q).t = 0 := rfl
  unfold simulateC
  exact congrArg
    (fun o : Outcome => match o with
      | .done s => some (finalizeC s.procs)
      | _ => none)
    (idle_runC n fuel (mainInit ps q) rfl rfl hn (by rw [ht]) (by rw [ht]; omega)
      (fun τ h2 h3 => ha τ (by rw [ht] at h2; exact h2) (by rw [ht] at h3; omega)))

theorem exampleLate_idle (τ : Int) (h : τ < 2147483646) :
    countArrivalsC
      (mainInit [Process.input 1 2147483646 1, Process.input 2 2147483647 1] 1).procs τ
      = 0 := by
  apply countArrivalsC_none
  intro i hi
  have hi0 : i = 0 ∨ i = 1 := by
    have : (mainInit [Process.input 1 2147483646 1,
      Process.input 2 2147483647 1] 1).procs.length = 2 := rfl
    omega
  rcases hi0 with rfl | rfl
  · have ha : (getP (mainInit [Process.input 1 2147483646 1,
        Process.input 2 2147483647 1] 1).procs 0).arrival_time = 2147483646 := rfl
    rw [ha]
    omega
  · have ha : (getP (mainInit [Process.input 1 2147483646 1,
        Process.input 2 2147483647 1] 1).procs 1).arrival_time = 2147483647 := rfl
    rw [ha]
    omega

theorem exampleLateRelease_reachC :
    ReachC (mainInit [Process.input 1 2147483646 1, Process.input 2 2147483647 1] 1)
      exampleLateRelease := by
  have h := idle_reachC
    (mainInit [Process.input 1 2147483646 1, Process.input 2 2147483647 1] 1) 2147483646
    (mainInit [Process.input 1 2147483646 1, Process.input 2 2147483647 1] 1) ReachC.start
    rfl rfl (by decide) (by decide) (by decide)
    (fun τ _ h2 => exampleLate_idle τ (by
      have ht : (mainInit [Process.input 1 2147483646 1,
        Process.input 2 2147483647 1] 1).t = 0 := rfl
      rw [ht] at h2
      push_cast at h2
      omega))
  exact ReachC.step h (by decide) rfl

theorem simulateC_late_release :
    simulateC (2147483646 + 5) [Process.input 1 2147483646 1, Process.input 2 2147483647 1] 1
      = some [⟨1, 2147483646, 1, 0, 2147483646, 0, 0, 2147483647⟩,
          ⟨2, 2147483647, 1, 0, -2147483648, -4294967295, -4294967295, -2147483647⟩] :=
  (simulateC_idle 2147483646 5 _ 1 (by decide) (by decide)
    (fun τ _ h => exampleLate_idle τ (by push_cast at h; omega))).trans (by decide)

/-! ## The states of the processes at the head of an iteration, within the range of `int` -/

/-- C20 fails as stated, in two ways. On the valid table of one process with arrival time
`INT_MAX` and burst time 1, with fixed quantum 1, the loop reaches the head of an iteration at
which the `int` clock has overflowed to `INT_MIN`: the process runs and `num_arrived` is 1,
while no process has `arrival_time < t`. And on two processes that arrive at tick 0, with the
quantum argument 4294967296, which `calculateQuantum` narrows to 0, the loop never ends and
reaches, 2147483648 iterations after the start, the head of an iteration at tick `INT_MIN`
with both processes in the list, none of which has `arrival_time < t`. -/
theorem loop_head_partition_counterexample :
    (ValidInput [Process.input 1 2147483647 1] ∧ ValidQuantum 1 ∧
    ReachC (mainInit [Process.input 1 2147483647 1] 1) exampleWrapped ∧
    loopCond exampleWrapped ∧
    exampleWrapped.t = -2147483648 ∧ exampleWrapped.p = some 0 ∧
    ¬ (getP exampleWrapped.procs 0).arrival_time < exampleWrapped.t ∧
    exampleWrapped.num_arrived = 1 ∧
    (((List.range exampleWrapped.procs.length).filter
      (fun i => decide ((getP exampleWrapped.procs i).arrival_time
        < exampleWrapped.t))).length : Int) = 0) ∧
    (ValidInput [Process.input 1 0 1, Process.input 2 0 1] ∧ ValidQuantum 4294967296 ∧
    ∃ s, ReachC (mainInit [Process.input 1 0 1, Process.input 2 0 1] 4294967296) s ∧
      loopCond s ∧ s.t = -2147483648 ∧ 2 ≤ s.list.length ∧
      ∀ i ∈ s.list, ¬ (getP s.procs i).arrival_time < s.t) := by
  refine ⟨⟨by decide, by decide,
    ReachC.step exampleLastTick_reachC (by decide)
      (rfl : tickC exampleLastTick = .ok exampleWrapped),
    by decide, rfl, rfl, by decide, rfl, by decide⟩, by decide, by decide, ?_⟩
  obtain ⟨s, hr, hl, ht⟩ := exampleLivelock_livelock.ahead
    (ReachC.step ReachC.start (by decide)
      (rfl : tickC (mainInit [Process.input 1 0 1, Process.input 2 0 1] 4294967296)
        = .ok exampleLivelock))
    (by decide) 2147483647
  have ht' : s.t = -2147483648 := by
    rw [ht]
    decide
  refine ⟨s, hr, hl.step.1, ht', hl.two, fun i _ => ?_⟩
  have := hl.arrived i
  rw [ht']
  omega

/-- C20, as amended. At the head of every iteration, at tick `t`, on every valid input in
range (the bound `fuelBound` on the iterations and the fixed quantum are at most `INT_MAX`),
with the widths of the types: the list holds no process twice and does not hold the running
process; it holds only processes with `arrival_time < t` and `remaining_time > 0` whose
`finish_time` was never assigned; the running process has `arrival_time < t` and its
`finish_time` was never assigned; every process with `arrival_time < t` is exactly one of
queued, running, or finished (its `finish_time` assigned, its `remaining_time` 0); a process
with `arrival_time ≥ t` is none of them; and `num_arrived` is the number of processes with
`arrival_time < t`. -/
theorem loop_head_partition_in_range (ps : List Process) (q : Int) (hv : ValidInput ps)
    (hq : ValidQuantum q) (hin : InRange ps q) (s : State)
    (hr : ReachC (mainInit ps q) s) :
    s.list.Nodup ∧
    (∀ i, s.p = some i → i ∉ s.list) ∧
    (∀ i, i ∈ s.list → i < s.procs.length ∧ (getP s.procs i).arrival_time < s.t ∧
      0 < (getP s.procs i).remaining_time ∧ finTimes s.log i = []) ∧
    (∀ i, s.p = some i → i < s.procs.length ∧ (getP s.procs i).arrival_time < s.t ∧
      finTimes s.log i = []) ∧
    (∀ i, i < s.procs.length → (getP s.procs i).arrival_time < s.t →
      (i ∈ s.list ∧ s.p ≠ some i ∧ finTimes s.log i = []) ∨
      (i ∉ s.list ∧ s.p = some i ∧ finTimes s.log i = []) ∨
      (i ∉ s.list ∧ s.p ≠ some i ∧
        finTimes s.log i = [(getP s.procs i).finish_time] ∧
        (getP s.procs i).remaining_time = 0)) ∧
    (∀ i, i < s.procs.length → s.t ≤ (getP s.procs i).arrival_time →
      i ∉ s.list ∧ s.p ≠ some i ∧ finTimes s.log i = []) ∧
    s.num_arrived =
      (((List.range s.procs.length).filter
        (fun i => decide ((getP s.procs i).arrival_time < s.t))).length : Int) :=
  loop_head_partition ps q hv hq s (reach_of_reachC ps q hv hq hin s hr)

/-- C20 as amended, at the state `examplePartition` of the run with fixed quantum 2 on three
processes that arrive at tick 0: at the head of the iteration of tick 3 the first process is
finished, the second runs and the third is in the list. -/
theorem loop_head_partition_in_range_witness :
    examplePartition.list.Nodup ∧
    (∀ i, examplePartition.p = some i → i ∉ examplePartition.list) ∧
    (∀ i, i ∈ examplePartition.list → i < examplePartition.procs.length ∧ (getP
        examplePartition.procs i).arrival_time < examplePartition.t ∧
      0 < (getP examplePartition.procs i).remaining_time ∧ finTimes examplePartition.log i = []) ∧
    (∀ i, examplePartition.p = some i → i < examplePartition.procs.length ∧ (getP
        examplePartition.procs i).arrival_time < examplePartition.t ∧
      finTimes examplePartition.log i = []) ∧
    (∀ i, i < examplePartition.procs.length → (getP examplePartition.procs i).arrival_time <
        examplePartition.t →
      (i ∈ examplePartition.list ∧ examplePartition.p ≠ some i ∧ finTimes examplePartition.log i =
          []) ∨
      (i ∉ examplePartition.list ∧ examplePartition.p = some i ∧ finTimes examplePartition.log i =
          []) ∨
      (i ∉ examplePartition.list ∧ examplePartition.p ≠ some i ∧
        finTimes examplePartition.log i = [(getP examplePartition.procs i).finish_time] ∧
        (getP examplePartition.procs i).remaining_time = 0)) ∧
    (∀ i, i < examplePartition.procs.length → examplePartition.t ≤ (getP examplePartition.procs
        i).arrival_time →
      i ∉ examplePartition.list ∧ examplePartition.p ≠ some i ∧ finTimes examplePartition.log i =
          []) ∧
    examplePartition.num_arrived =
      (((List.range examplePartition.procs.length).filter
        (fun i => decide ((getP examplePartition.procs i).arrival_time <
            examplePartition.t))).length : Int) :=
  loop_head_partition_in_range [Process.input 1 0 1, Process.input 2 0 2, Process.input 3 0 1]
    2 (by decide) (by decide) (by decide) examplePartition (reachC_ticksC 3 _ _ (by decide))
/-! ## Median mode against every fixed quantum, with the widths of the types -/

/-- Lines 319-338 right after a dispatch with a fixed quantum, when the list is empty: if the
quantum is 0 it is renewed at once, and in both cases the process does one unit of work and
the counter is the quantum minus 1 as an `int`. -/
theorem executeAndEnqueueC_fresh (s : State) (h : Nat) (npa : Int) (added : Bool)
    (hp : s.p = some h) (hr : (getP s.procs h).remaining_time ≠ 0) (hl : s.list = [])
    (hm : s.median_mode = false) (hq : toInt s.quantum_length = s.quantum_length)
    (hql : s.quantum_left = s.quantum_length) :
    executeAndEnqueueC s npa added = .ok (advanceClockC
      (if added = false then enqueueArrivalsC (workStepC s h) else workStepC s h)) := by
  have hrenew : renewStepC s h (toInt s.quantum_length) = workStepC s h := by
    unfold renewStepC workStepC
    rw [hq, hql]
    have e : toInt (toInt s.quantum_length - 1) = toInt (s.quantum_length - 1) := by
      rw [hq]
    rw [hq] at e
    cases s
    simp_all
  unfold executeAndEnqueueC executeC calculateQuantumC
  by_cases h0 : s.quantum_left = 0
  · simp [hp, hr, hl, hm, h0, hrenew]
  · simp [hp, hr, hm, h0]

/-- An iteration with a fixed quantum that dispatches the only process of the list. -/
theorem tickC_dispatch_last (s : State) (h : Nat) (hp : s.p = none) (hl : s.list = [h])
    (hm : s.median_mode = false) (hr : (getP s.procs h).remaining_time ≠ 0) :
    tickC s = .ok (advanceClockC (enqueueArrivalsC
      (workStepC (dispatchStepC s h [] (toInt s.quantum_length)) h))) := by
  rw [tickC_dispatch_fixed s h [] hp hl hm,
    executeAndEnqueueC_fresh (dispatchStepC s h [] (toInt s.quantum_length)) h _ false rfl
      (by simpa [dispatchStepC] using hr) rfl hm (toInt_toInt _) (toInt_toInt _)]
  rfl

theorem simulateC_first (n : Nat) (ps : List Process) (q : Int) (s1 : State)
    (hc : loopCond (mainInit ps q)) (ht : tickC (mainInit ps q) = .ok s1) :
    simulateC (n + 1) ps q =
      match runLoopC n s1 with
      | .done s => some (finalizeC s.procs)
      | _ => none := by
  unfold simulateC
  exact congrArg
    (fun o : Outcome => match o with
      | .done s => some (finalizeC s.procs)
      | _ => none)
    (runLoopC_step n _ _ hc ht)

/-- The iteration of tick 0 of the run with a fixed quantum `q ≥ 1` on the two processes
(arrival 0, burst 4) and (arrival 1, burst 2): the state after it depends on `q` only
through its value as an `int`. -/
theorem examplePair_start (q : Int) (hq : 1 ≤ q) :
    loopCond (mainInit [Process.input 1 0 4, Process.input 2 1 2] q) ∧
    tickC (mainInit [Process.input 1 0 4, Process.input 2 1 2] q)
      = .ok (examplePair (toInt q)) := by
  have hm : mainInit [Process.input 1 0 4, Process.input 2 1 2] q
      = { mainInit [Process.input 1 0 4, Process.input 2 1 2] 1 with quantum_length := q } := by
    have hne : q ≠ -1 := by omega
    unfold mainInit
    simp [hne]
  rw [hm]
  refine ⟨Or.inr (Or.inr (by show (0 : Int) < ((2 : Nat) : Int); decide)), ?_⟩
  have e1 : tickC { mainInit [Process.input 1 0 4, Process.input 2 1 2] 1 with
        quantum_length := q }
      = executeAndEnqueueC (dispatchStepC
          (enqueueArrivalsC { mainInit [Process.input 1 0 4, Process.input 2 1 2] 1 with
            quantum_length := q }) 0 [] (toInt q)) 1 true := rfl
  have e2 : advanceClockC (workStepC (dispatchStepC
        (enqueueArrivalsC { mainInit [Process.input 1 0 4, Process.input 2 1 2] 1 with
          quantum_length := q }) 0 [] (toInt q)) 0)
      = { examplePair (toInt q) with quantum_left := toInt (toInt (toInt q) - 1) } := rfl
  have e3 : { examplePair (toInt q) with quantum_left := toInt (toInt q - 1) }
      = examplePair (toInt q) := rfl
  rw [e1, executeAndEnqueueC_fresh _ 0 1 true rfl (by show (4 : Int) ≠ 0; decide) rfl rfl
    (toInt_toInt _) (toInt_toInt _)]
  simp only [Bool.true_eq_false, if_false]
  rw [e2, toInt_toInt, e3]

theorem runLoopC_work (n : Nat) (s : State) (i : Nat) (hp : s.p = some i)
    (hr : (getP s.procs i).remaining_time ≠ 0) (hq : s.quantum_left ≠ 0) :
    runLoopC (n + 1) s = runLoopC n (advanceClockC (enqueueArrivalsC (workStepC s i))) :=
  runLoopC_step n s _ (Or.inr (Or.inl (by rw [hp]; simp))) (tickC_work s i hp hr hq)

theorem runLoopC_finish (n : Nat) (s : State) (i : Nat) (hp : s.p = some i)
    (hr : (getP s.procs i).remaining_time = 0) :
    runLoopC (n + 1) s = runLoopC n (advanceClockC (enqueueArrivalsC (finishStep s i))) :=
  runLoopC_step n s _ (Or.inr (Or.inl (by rw [hp]; simp))) (tickC_finish s i hp hr)

theorem runLoopC_dispatch_last (n : Nat) (s : State) (h : Nat) (hp : s.p = none)
    (hl : s.list = [h]) (hm : s.median_mode = false)
    (hr : (getP s.procs h).remaining_time ≠ 0) :
    runLoopC (n + 1) s = runLoopC n (advanceClockC (enqueueArrivalsC
      (workStepC (dispatchStepC s h [] (toInt s.quantum_length)) h))) :=
  runLoopC_step n s _ (Or.inl (by rw [hl]; simp)) (tickC_dispatch_last s h hp hl hm hr)

theorem runLoopC_exit (n : Nat) (s : State) (h : ¬ loopCond s) :
    runLoopC (n + 1) s = .done s := by
  rw [runLoopC, if_neg h]

theorem pair_step1 (n : Nat) (ql qlen : Int) (h : ql ≠ 0) :
    runLoopC (n + 1)
      (⟨[⟨1, 0, 4, 3, 0, 0, 0, 0⟩, ⟨2, 1, 2, 2, -1, 0, 0, 0⟩], [], some 0, 1, 1, ql, qlen, false,
        [Event.enq 0 0, Event.deq 0 0]⟩ : State)
    = runLoopC n
      (⟨[⟨1, 0, 4, 2, 0, 0, 0, 0⟩, ⟨2, 1, 2, 2, -1, 0, 0, 0⟩], [1], some 0, 2, 2, (toInt (ql - 1)),
          qlen, false,
        [Event.enq 0 0, Event.deq 0 0, Event.enq 1 1]⟩ : State) :=
  runLoopC_work n _ 0 rfl (by show (3 : Int) ≠ 0; decide) h

theorem pair_step2 (n : Nat) (ql qlen : Int) (h : ql ≠ 0) :
    runLoopC (n + 1)
      (⟨[⟨1, 0, 4, 2, 0, 0, 0, 0⟩, ⟨2, 1, 2, 2, -1, 0, 0, 0⟩], [1], some 0, 2, 2, ql, qlen, false,
        [Event.enq 0 0, Event.deq 0 0, Event.enq 1 1]⟩ : State)
    = runLoopC n
      (⟨[⟨1, 0, 4, 1, 0, 0, 0, 0⟩, ⟨2, 1, 2, 2, -1, 0, 0, 0⟩], [1], some 0, 3, 2, (toInt (ql - 1)),
          qlen, false,
        [Event.enq 0 0, Event.deq 0 0, Event.enq 1 1]⟩ : State) :=
  runLoopC_work n _ 0 rfl (by show (2 : Int) ≠ 0; decide) h

theorem pair_step3 (n : Nat) (ql qlen : Int) (h : ql ≠ 0) :
    runLoopC (n + 1)
      (⟨[⟨1, 0, 4, 1, 0, 0, 0, 0⟩, ⟨2, 1, 2, 2, -1, 0, 0, 0⟩], [1], some 0, 3, 2, ql, qlen, false,
        [Event.enq 0 0, Event.deq 0 0, Event.enq 1 1]⟩ : State)
    = runLoopC n
      (⟨[⟨1, 0, 4, 0, 0, 0, 0, 0⟩, ⟨2, 1, 2, 2, -1, 0, 0, 0⟩], [1], some 0, 4, 2, (toInt (ql - 1)),
          qlen, false,
        [Event.enq 0 0, Event.deq 0 0, Event.enq 1 1]⟩ : State) :=
  runLoopC_work n _ 0 rfl (by show (1 : Int) ≠ 0; decide) h

theorem pair_step4 (n : Nat) (ql qlen : Int) :
    runLoopC (n + 1)
      (⟨[⟨1, 0, 4, 0, 0, 0, 0, 0⟩, ⟨2, 1, 2, 2, -1, 0, 0, 0⟩], [1], some 0, 4, 2, ql, qlen, false,
        [Event.enq 0 0, Event.deq 0 0, Event.enq 1 1]⟩ : State)
    = runLoopC n
      (⟨[⟨1, 0, 4, 0, 0, 0, 0, 4⟩, ⟨2, 1, 2, 2, -1, 0, 0, 0⟩], [1], none, 5, 2, ql, qlen, false,
        [Event.enq 0 0, Event.deq 0 0, Event.enq 1 1, Event.fin 0 4]⟩ : State) :=
  runLoopC_finish n _ 0 rfl rfl

theorem pair_step5 (n : Nat) (ql qlen : Int) :
    runLoopC (n + 1)
      (⟨[⟨1, 0, 4, 0, 0, 0, 0, 4⟩, ⟨2, 1, 2, 2, -1, 0, 0, 0⟩], [1], none, 5, 2, ql, qlen, false,
        [Event.enq 0 0, Event.deq 0 0, Event.enq 1 1, Event.fin 0 4]⟩ : State)
    = runLoopC n
      (⟨[⟨1, 0, 4, 0, 0, 0, 0, 4⟩, ⟨2, 1, 2, 1, 5, 0, 0, 0⟩], [], some 1, 6, 2, (toInt (toInt (toInt
          qlen) - 1)), (toInt qlen), false,
        [Event.enq 0 0, Event.deq 0 0, Event.enq 1 1, Event.fin 0 4, Event.deq 1 5]⟩ : State) :=
  runLoopC_dispatch_last n _ 1 rfl rfl rfl (by show (2 : Int) ≠ 0; decide)

theorem pair_step6 (n : Nat) (ql qlen : Int) (h : ql ≠ 0) :
    runLoopC (n + 1)
      (⟨[⟨1, 0, 4, 0, 0, 0, 0, 4⟩, ⟨2, 1, 2, 1, 5, 0, 0, 0⟩], [], some 1, 6, 2, ql, qlen, false,
        [Event.enq 0 0, Event.deq 0 0, Event.enq 1 1, Event.fin 0 4, Event.deq 1 5]⟩ : State)
    = runLoopC n
      (⟨[⟨1, 0, 4, 0, 0, 0, 0, 4⟩, ⟨2, 1, 2, 0, 5, 0, 0, 0⟩], [], some 1, 7, 2, (toInt (ql - 1)),
          qlen, false,
        [Event.enq 0 0, Event.deq 0 0, Event.enq 1 1, Event.fin 0 4, Event.deq 1 5]⟩ : State) :=
  runLoopC_work n _ 1 rfl (by show (1 : Int) ≠ 0; decide) h

theorem pair_step7 (n : Nat) (ql qlen : Int) :
    runLoopC (n + 1)
      (⟨[⟨1, 0, 4, 0, 0, 0, 0, 4⟩, ⟨2, 1, 2, 0, 5, 0, 0, 0⟩], [], some 1, 7, 2, ql, qlen, false,
        [Event.enq 0 0, Event.deq 0 0, Event.enq 1 1, Event.fin 0 4, Event.deq 1 5]⟩ : State)
    = runLoopC n
      (⟨[⟨1, 0, 4, 0, 0, 0, 0, 4⟩, ⟨2, 1, 2, 0, 5, 0, 0, 7⟩], [], none, 8, 2, ql, qlen, false,
        [Event.enq 0 0, Event.deq 0 0, Event.enq 1 1, Event.fin 0 4, Event.deq 1 5, Event.fin 1 7]⟩
            : State) :=
  runLoopC_finish n _ 1 rfl rfl

theorem pair_step8 (n : Nat) (ql qlen : Int) :
    runLoopC (n + 1)
      (⟨[⟨1, 0, 4, 0, 0, 0, 0, 4⟩, ⟨2, 1, 2, 0, 5, 0, 0, 7⟩], [], none, 8, 2, ql, qlen, false,
        [Event.enq 0 0, Event.deq 0 0, Event.enq 1 1, Event.fin 0 4, Event.deq 1 5, Event.fin 1 7]⟩
            : State)
    = .done
      (⟨[⟨1, 0, 4, 0, 0, 0, 0, 4⟩, ⟨2, 1, 2, 0, 5, 0, 0, 7⟩], [], none, 8, 2, ql, qlen, false,
        [Event.enq 0 0, Event.deq 0 0, Event.enq 1 1, Event.fin 0 4, Event.deq 1 5, Event.fin 1 7]⟩
            : State) :=
  runLoopC_exit n _ (by
    intro h
    rcases h with h | h | h
    · exact h rfl
    · exact h rfl
    · exact absurd h (by show ¬ ((2 : Int) < ((2 : Nat) : Int)); decide))

/-- The run from `examplePair v` when the quantum counter is not 0 at the ticks 1, 2 and 3:
the first process runs to its end, then the second. -/
theorem examplePair_fcfs (v : Int) (hv : toInt v = v) (h1 : v ≠ 1) (h2 : v ≠ 2)
    (h3 : v ≠ 3) :
    ∃ s, runLoopC 8 (examplePair v) = .done s ∧
      finalizeC s.procs = [⟨1, 0, 4, 0, 0, 0, 0, 4⟩, ⟨2, 1, 2, 0, 5, 4, 4, 7⟩] := by
  have hr := toInt_range v
  rw [hv] at hr
  have k1 : toInt (v - 1) ≠ 0 := fun h =>
    h1 ((toInt_eq_zero v hr.1 hr.2 1 (by decide) (by decide)).mp h)
  have k2 : toInt (toInt (v - 1) - 1) ≠ 0 := fun h =>
    h2 ((toInt_eq_zero v hr.1 hr.2 2 (by decide) (by decide)).mp
      (by rw [show v - 2 = v - 1 - 1 by ring, ← toInt_pred]; exact h))
  have k3 : toInt (toInt (toInt (v - 1) - 1) - 1) ≠ 0 := fun h =>
    h3 ((toInt_eq_zero v hr.1 hr.2 3 (by decide) (by decide)).mp
      (by rw [show v - 3 = v - 1 - 1 - 1 by ring, ← toInt_pred (v - 1 - 1),
        ← toInt_pred (v - 1)]; exact h))
  have k6 : toInt (toInt (toInt v) - 1) ≠ 0 := by
    rw [hv, hv]
    exact k1
  have run := (pair_step1 7 _ v k1).trans <| (pair_step2 6 _ v k2).trans <|
    (pair_step3 5 _ v k3).trans <| (pair_step4 4 _ v).trans <|
    (pair_step5 3 _ v).trans <| (pair_step6 2 _ (toInt v) k6).trans <|
    (pair_step7 1 _ (toInt v)).trans (pair_step8 0 _ (toInt v))
  exact ⟨_, run, rfl⟩

/-- C13. There is a valid input with two processes, `(1, 0, 4)` and `(2, 1, 2)`, on which the
simulation with the widths of the types ends in median mode with a sum of the waiting times
(9) that differs from the sum at the end of the simulation with the fixed quantum `q`, for
every `q ≥ 1`: `calculateQuantum` narrows `q` to an `int`, and the sum is 11 when that `int`
is 1, 6 when it is 2, 7 when it is 3, and 4 for every other value, for which the first
process runs to its end before the second starts. -/
theorem median_differs_from_every_fixed :
    ∃ ps : List Process, ValidInput ps ∧ 2 ≤ ps.length ∧
      ∃ rm, (∀ k, simulateC (fuelBound ps + k) ps (-1) = some rm) ∧
        ∀ q : Int, 1 ≤ q →
          ∃ rq, (∀ k, simulateC (fuelBound ps + k) ps q = some rq) ∧
            total_wait_timeC rm ≠ total_wait_timeC rq := by
  refine ⟨[Process.input 1 0 4, Process.input 2 1 2], by decide, by decide,
    [⟨1, 0, 4, 0, 0, 3, 0, 7⟩, ⟨2, 1, 2, 0, 3, 6, 2, 9⟩],
    fun k => simulateC_add k _ _ _ _ (by decide), fun q hq => ?_⟩
  obtain ⟨hc, ht⟩ := examplePair_start q hq
  have hfirst := fun n => simulateC_first n _ q _ hc ht
  by_cases h1 : toInt q = 1
  · rw [h1] at hfirst
    exact ⟨[⟨1, 0, 4, 0, 0, 6, 0, 10⟩, ⟨2, 1, 2, 0, 3, 5, 2, 8⟩],
      fun k => simulateC_add k _ _ _ _ ((hfirst 16).trans (by decide)), by decide⟩
  by_cases h2 : toInt q = 2
  · rw [h2] at hfirst
    exact ⟨[⟨1, 0, 4, 0, 0, 4, 0, 8⟩, ⟨2, 1, 2, 0, 3, 2, 2, 5⟩],
      fun k => simulateC_add k _ _ _ _ ((hfirst 16).trans (by decide)), by decide⟩
  by_cases h3 : toInt q = 3
  · rw [h3] at hfirst
    exact ⟨[⟨1, 0, 4, 0, 0, 4, 0, 8⟩, ⟨2, 1, 2, 0, 4, 3, 3, 6⟩],
      fun k => simulateC_add k _ _ _ _ ((hfirst 16).trans (by decide)), by decide⟩
  obtain ⟨s, hrun, hfin⟩ := examplePair_fcfs (toInt q) (toInt_toInt q) h1 h2 h3
  have h9 : simulateC 9 [Process.input 1 0 4, Process.input 2 1 2] q
      = some [⟨1, 0, 4, 0, 0, 0, 0, 4⟩, ⟨2, 1, 2, 0, 5, 4, 4, 7⟩] := by
    rw [hfirst 8, hrun]
    exact congrArg some hfin
  refine ⟨[⟨1, 0, 4, 0, 0, 0, 0, 4⟩, ⟨2, 1, 2, 0, 5, 4, 4, 7⟩], fun k => ?_, by decide⟩
  have hf : fuelBound [Process.input 1 0 4, Process.input 2 1 2] + k = 9 + (8 + k) := by
    have : fuelBound [Process.input 1 0 4, Process.input 2 1 2] = 17 := by decide
    omega
  rw [hf]
  exact simulateC_add (8 + k) 9 _ _ _ h9
/-! ## A single process under any fixed quantum, with the widths of the types -/

/-- C2 fails as stated. The table of one process with arrival time `INT_MAX` and burst time 1
is valid; with fixed quantum 1 the `int` clock overflows in the iteration of the dispatch, so
that `finish_time` is `INT_MIN`, below `arrival_time + burst_time`, and `waiting_time` is
`-4294967296`. And on two processes that arrive at tick 0, with the quantum argument
4294967296, which `calculateQuantum` narrows to 0, the simulation does not end at all. -/
theorem times_nonneg_counterexample :
    (ValidInput [Process.input 1 2147483647 1] ∧ ValidQuantum 1 ∧
    ∃ res, simulateC (2147483647 + 3) [Process.input 1 2147483647 1] 1 = some res ∧
      (getP res 0).waiting_time = -4294967296 ∧ (getP res 0).waiting_time < 0 ∧
      (getP res 0).finish_time < (getP res 0).arrival_time + (getP res 0).burst_time) ∧
    (ValidInput [Process.input 1 0 1, Process.input 2 0 1] ∧ ValidQuantum 4294967296 ∧
    ∀ fuel, simulateC fuel [Process.input 1 0 1, Process.input 2 0 1] 4294967296 = none) :=
  ⟨⟨by decide, by decide, _, simulateC_late_arrival, by decide, by decide, by decide⟩,
    by decide, by decide, fun fuel => by unfold simulateC; rw [exampleLivelock_run fuel]⟩

/-- C2, as amended. On every valid input and for every quantum mode in range (the bound
`fuelBound` on the iterations and the fixed quantum are at most `INT_MAX`, so that no `int`
overflows), the simulation with the widths of the types ends, and in its result every process
has `response_time ≥ 0` and `waiting_time ≥ 0`, that is `start_exec_time ≥ arrival_time` and
`finish_time ≥ arrival_time + burst_time`. -/
theorem times_nonneg_in_range (ps : List Process) (q : Int) (hv : ValidInput ps)
    (hq : ValidQuantum q) (hin : InRange ps q) :
    ∃ res, (∀ k, simulateC (fuelBound ps + k) ps q = some res) ∧ res.length = ps.length ∧
      ∀ i, i < ps.length →
        (getP res i).arrival_time = (getP ps i).arrival_time ∧
        (getP res i).burst_time = (getP ps i).burst_time ∧
        0 ≤ (getP res i).response_time ∧ 0 ≤ (getP res i).waiting_time ∧
        (getP res i).arrival_time ≤ (getP res i).start_exec_time ∧
        (getP res i).arrival_time + (getP res i).burst_time ≤ (getP res i).finish_time := by
  obtain ⟨res, h1, h2⟩ := times_nonneg ps q hv hq
  exact ⟨res, fun k => by rw [simulateC_eq ps q hv hq hin]; exact h1 k, h2⟩

/-- C2 as amended, on two processes (arrival 0 burst 3, arrival 1 burst 2) with fixed
quantum 2. -/
theorem times_nonneg_in_range_witness :
    ∃ res, (∀ k, simulateC (fuelBound [Process.input 1 0 3, Process.input 2 1 2] + k)
        [Process.input 1 0 3, Process.input 2 1 2] 2 = some res) ∧
      res.length = [Process.input 1 0 3, Process.input 2 1 2].length ∧
      ∀ i, i < [Process.input 1 0 3, Process.input 2 1 2].length →
        (getP res i).arrival_time
          = (getP [Process.input 1 0 3, Process.input 2 1 2] i).arrival_time ∧
        (getP res i).burst_time
          = (getP [Process.input 1 0 3, Process.input 2 1 2] i).burst_time ∧
        0 ≤ (getP res i).response_time ∧ 0 ≤ (getP res i).waiting_time ∧
        (getP res i).arrival_time ≤ (getP res i).start_exec_time ∧
        (getP res i).arrival_time + (getP res i).burst_time ≤ (getP res i).finish_time :=
  times_nonneg_in_range [Process.input 1 0 3, Process.input 2 1 2] 2 (by decide) (by decide)
    (by decide)

/-! ## A run in which the clock comes back to 0 -/

theorem toInt_add_left (x y : Int) : toInt (toInt x + y) = toInt (x + y) := by
  unfold toInt
  omega

/-- Idle iterations with the `int` clock, across its overflow: while nothing runs, the list is
empty and no process arrives, `n` iterations only advance the clock. -/
theorem idle_wrap_runC (n : Nat) : ∀ (fuel : Nat) (s : State), s.list = [] → s.p = none →
    s.num_arrived < (s.procs.length : Int) → toInt s.t = s.t →
    (∀ k : Nat, k < n → countArrivalsC s.procs (toInt (s.t + (k : Int))) = 0) →
    runLoopC (n + fuel) s = runLoopC fuel { s with t := toInt (s.t + (n : Int)) } := by
  induction n with
  | zero =>
    intro fuel s _ _ _ ht _
    simp [ht]
  | succ n ih =>
    intro fuel s hl hp hn ht ha
    have hc : loopCond s := Or.inr (Or.inr hn)
    have h0 : countArrivalsC s.procs s.t = 0 := by
      have := ha 0 (by omega)
      simpa [ht] using this
    have hstep : tickC s = .ok { s with t := toInt (s.t + 1) } := by
      rw [tickC_idle s hl hp h0]
      rfl
    rw [show n + 1 + fuel = (n + fuel) + 1 by omega, runLoopC_step (n + fuel) _ _ hc hstep]
    rw [ih fuel { s with t := toInt (s.t + 1) } hl hp hn (toInt_toInt _)
      (fun k hk => by
        have := ha (k + 1) (by omega)
        dsimp only
        rw [toInt_add_left]
        rw [show s.t + 1 + (k : Int) = s.t + ((k + 1 : Nat) : Int) by push_cast; omega]
        exact this)]
    dsimp only
    rw [toInt_add_left]
    rw [show s.t + 1 + (n : Int) = s.t + ((n + 1 : Nat) : Int) by push_cast; omega]

theorem idle_wrap_reachC (s0 : State) (n : Nat) : ∀ (s : State), ReachC s0 s → s.list = [] →
    s.p = none → s.num_arrived < (s.procs.length : Int) → toInt s.t = s.t →
    (∀ k : Nat, k < n → countArrivalsC s.procs (toInt (s.t + (k : Int))) = 0) →
    ReachC s0 { s with t := toInt (s.t + (n : Int)) } := by
  induction n with
  | zero =>
    intro s hr _ _ _ ht _
    simpa [ht] using hr
  | succ n ih =>
    intro s hr hl hp hn ht ha
    have hc : loopCond s := Or.inr (Or.inr hn)
    have h0 : countArrivalsC s.procs s.t = 0 := by
      have := ha 0 (by omega)
      simpa [ht] using this
    have hstep : tickC s = .ok { s with t := toInt (s.t + 1) } := by
      rw [tickC_idle s hl hp h0]
      rfl
    have := ih { s with t := toInt (s.t + 1) } (ReachC.step hr hc hstep) hl hp hn
      (toInt_toInt _)
      (fun k hk => by
        have := ha (k + 1) (by omega)
        dsimp only
        rw [toInt_add_left]
        rw [show s.t + 1 + (k : Int) = s.t + ((k + 1 : Nat) : Int) by push_cast; omega]
        exact this)
    dsimp only at this
    rw [toInt_add_left,
      show s.t + 1 + (n : Int) = s.t + ((n + 1 : Nat) : Int) by push_cast; omega] at this
    exact this

theorem exampleReleased_idle (k : Nat) (hk : k < 4294967294) :
    countArrivalsC exampleReleased.procs (toInt (exampleReleased.t + (k : Int))) = 0 := by
  apply countArrivalsC_none
  intro i hi
  have hi0 : i = 0 ∨ i = 1 := by
    have : exampleReleased.procs.length = 2 := rfl
    omega
  have ht : exampleReleased.t = 2 := rfl
  rw [ht]
  rcases hi0 with rfl | rfl
  · show (0 : Int) ≠ toInt (2 + (k : Int))
    unfold toInt
    omega
  · show (2147483648 : Int) ≠ toInt (2 + (k : Int))
    unfold toInt
    omega

theorem exampleReleased_reachC :
    ReachC (mainInit [Process.input 1 0 1, Process.input 2 2147483648 1] 1)
      exampleReleased :=
  reachC_ticksC 2 _ _ (by decide)

theorem exampleReadmitted_reachC :
    ReachC (mainInit [Process.input 1 0 1, Process.input 2 2147483648 1] 1)
      exampleReadmitted := by
  have h := idle_wrap_reachC
    (mainInit [Process.input 1 0 1, Process.input 2 2147483648 1] 1) 4294967294
    exampleReleased exampleReleased_reachC rfl rfl (by decide) (by decide)
    exampleReleased_idle
  exact ReachC.step h (by decide) rfl

theorem exampleReadmitted_run :
    runLoopC (4294967294 + 2 + 1 + 1)
      (mainInit [Process.input 1 0 1, Process.input 2 2147483648 1] 1)
      = .done exampleReadmitted := by
  have h1 : runLoopC (4294967294 + 2 + 1 + 1)
      (mainInit [Process.input 1 0 1, Process.input 2 2147483648 1] 1)
      = runLoopC (4294967294 + 2) exampleReleased := by
    rw [runLoopC_step (4294967294 + 2 + 1)
      (mainInit [Process.input 1 0 1, Process.input 2 2147483648 1] 1)
      { procs := [⟨1, 0, 1, 0, 0, 0, 0, 0⟩, ⟨2, 2147483648, 1, 1, -1, 0, 0, 0⟩], list := [],
        p := some 0, t := 1, num_arrived := 1, quantum_left := 0, quantum_length := 1,
        median_mode := false, log := [Event.enq 0 0, Event.deq 0 0] }
      (by decide) rfl]
    exact runLoopC_step (4294967294 + 2) _ exampleReleased (by decide) rfl
  rw [h1, idle_wrap_runC 4294967294 2 exampleReleased rfl rfl (by decide) (by decide)
    exampleReleased_idle]
  decide

theorem simulateC_readmitted :
    simulateC (4294967294 + 2 + 1 + 1) [Process.input 1 0 1, Process.input 2 2147483648 1] 1
      = some [⟨1, 0, 1, 0, 0, -1, 0, 0⟩,
          ⟨2, 2147483648, 1, 1, -1, -2147483649, -2147483649, 0⟩] :=
  (simulateC_of_run _ _ _ _ exampleReadmitted_run).trans (by decide)
/-! ## The marks of start and finish: the claim with the widths of the types -/

/-- C9 fails as stated, in two ways. The table of two processes that arrive at tick 0 with
burst time 1 is valid, and 4294967296 is a quantum argument of at least 1, which
`calculateQuantum` narrows to 0: every iteration dispatches the head of the list and puts it
back without any work done, so that the loop never ends and no `finish_time` is ever
assigned. And on the valid table of the processes (arrival 0, burst 1) and (arrival
2147483648, burst 1), with fixed quantum 1, the second process never arrives, the `int` clock
runs through its whole range and comes back to 0, where the first process, finished at tick
1, is inserted and dispatched again: its `finish_time` is assigned a second time, and the loop
ends with the second process never run. -/
theorem start_finish_once_counterexample :
    (ValidInput [Process.input 1 0 1, Process.input 2 0 1] ∧ ValidQuantum 4294967296 ∧
    (∀ fuel, runLoopC fuel (mainInit [Process.input 1 0 1, Process.input 2 0 1] 4294967296)
      = .outOfFuel) ∧
    (∀ fuel, simulateC fuel [Process.input 1 0 1, Process.input 2 0 1] 4294967296 = none) ∧
    ∀ s, ReachC (mainInit [Process.input 1 0 1, Process.input 2 0 1] 4294967296) s →
      ∀ i, finTimes s.log i = []) ∧
    (ValidInput [Process.input 1 0 1, Process.input 2 2147483648 1] ∧ ValidQuantum 1 ∧
    ReachC (mainInit [Process.input 1 0 1, Process.input 2 2147483648 1] 1)
      exampleReadmitted ∧
    runLoopC (4294967294 + 2 + 1 + 1)
      (mainInit [Process.input 1 0 1, Process.input 2 2147483648 1] 1)
      = .done exampleReadmitted ∧
    finTimes exampleReadmitted.log 0 = [1, 0] ∧
    deqTimes exampleReadmitted.log 1 = [] ∧
    (getP exampleReadmitted.procs 1).remaining_time = 1) := by
  have ht : tickC (mainInit [Process.input 1 0 1, Process.input 2 0 1] 4294967296)
      = .ok exampleLivelock := rfl
  refine ⟨⟨by decide, by decide, exampleLivelock_run, fun fuel => ?_, fun s hr i => ?_⟩,
    by decide, by decide, exampleReadmitted_reachC, exampleReadmitted_run, by decide,
    by decide, by decide⟩
  · unfold simulateC
    rw [exampleLivelock_run fuel]
  · rcases reachC_first hr with rfl | ⟨s1, _, ht1, hr1⟩
    · rfl
    · rw [ht] at ht1
      injection ht1 with ht1
      subst ht1
      exact (exampleLivelock_livelock.reach hr1).unfinished i

/-- C9, as amended. Along a run on a valid input in range (the bound `fuelBound` on the
iterations and the fixed quantum are at most `INT_MAX`), with the widths of the types, in
every state reached: `start_exec_time` of a process is -1 as long as the process was never
dispatched, and is the tick of its first dispatch afterwards; an iteration leaves a
`start_exec_time` other than -1 as it is, and sets one that is -1 only by a dispatch, to the
tick of the dispatch; `finish_time` has been assigned at most once, and if so
`remaining_time` is 0 and the table holds the value assigned; an iteration assigns
`finish_time` only to a process whose `remaining_time` is 0. And the run ends in a state in
which `finish_time` of every process has been assigned exactly once. -/
theorem start_finish_once_in_range (ps : List Process) (q : Int) (hv : ValidInput ps)
    (hq : ValidQuantum q) (hin : InRange ps q) :
    (∀ s, ReachC (mainInit ps q) s →
      (∀ i, i < s.procs.length →
        ((deqTimes s.log i = [] ∧ (getP s.procs i).start_exec_time = -1) ∨
          (∃ τ rest, deqTimes s.log i = τ :: rest ∧
            (getP s.procs i).start_exec_time = τ ∧ 0 ≤ τ)) ∧
        (finTimes s.log i = [] ∨
          (finTimes s.log i = [(getP s.procs i).finish_time] ∧
            (getP s.procs i).remaining_time = 0))) ∧
      ∀ s', loopCond s → tickC s = .ok s' → ∀ i,
        ((getP s.procs i).start_exec_time ≠ -1 →
          (getP s'.procs i).start_exec_time = (getP s.procs i).start_exec_time) ∧
        ((getP s.procs i).start_exec_time = -1 →
          ((getP s'.procs i).start_exec_time = -1 ∧ deqTimes s'.log i = deqTimes s.log i) ∨
          ((getP s'.procs i).start_exec_time = s.t ∧
            deqTimes s'.log i = deqTimes s.log i ++ [s.t])) ∧
        ((finTimes s'.log i = finTimes s.log i ∧
            (getP s'.procs i).finish_time = (getP s.procs i).finish_time) ∨
          ((getP s.procs i).remaining_time = 0 ∧ (getP s'.procs i).remaining_time = 0 ∧
            finTimes s'.log i = finTimes s.log i ++ [s.t] ∧
            (getP s'.procs i).finish_time = s.t))) ∧
    ∃ s', (∀ k, runLoopC (fuelBound ps + k) (mainInit ps q) = .done s') ∧
      s'.procs.length = ps.length ∧
      ∀ i, i < ps.length → finTimes s'.log i = [(getP s'.procs i).finish_time] := by
  obtain ⟨h1, s', h2, h3⟩ := start_finish_once ps q hv hq
  refine ⟨fun s hr => ?_, s', fun k => ?_, h3⟩
  · have h := h1 s (reach_of_reachC ps q hv hq hin s hr)
    rw [tickC_of_reach ps q hv hq hin s hr]
    exact h
  · rw [runLoopC_eq ps q hv hq hin _ _ Reach.start]
    exact h2 k

/-- C9 as amended, on two processes (arrival 0 burst 3, arrival 1 burst 2) with fixed
quantum 2. -/
theorem start_finish_once_in_range_witness :
    (∀ s, ReachC (mainInit [Process.input 1 0 3, Process.input 2 1 2] 2) s →
      (∀ i, i < s.procs.length →
        ((deqTimes s.log i = [] ∧ (getP s.procs i).start_exec_time = -1) ∨
          (∃ τ rest, deqTimes s.log i = τ :: rest ∧
            (getP s.procs i).start_exec_time = τ ∧ 0 ≤ τ)) ∧
        (finTimes s.log i = [] ∨
          (finTimes s.log i = [(getP s.procs i).finish_time] ∧
            (getP s.procs i).remaining_time = 0))) ∧
      ∀ s', loopCond s → tickC s = .ok s' → ∀ i,
        ((getP s.procs i).start_exec_time ≠ -1 →
          (getP s'.procs i).start_exec_time = (getP s.procs i).start_exec_time) ∧
        ((getP s.procs i).start_exec_time = -1 →
          ((getP s'.procs i).start_exec_time = -1 ∧ deqTimes s'.log i = deqTimes s.log i) ∨
          ((getP s'.procs i).start_exec_time = s.t ∧
            deqTimes s'.log i = deqTimes s.log i ++ [s.t])) ∧
        ((finTimes s'.log i = finTimes s.log i ∧
            (getP s'.procs i).finish_time = (getP s.procs i).finish_time) ∨
          ((getP s.procs i).remaining_time = 0 ∧ (getP s'.procs i).remaining_time = 0 ∧
            finTimes s'.log i = finTimes s.log i ++ [s.t] ∧
            (getP s'.procs i).finish_time = s.t))) ∧
    ∃ s', (∀ k, runLoopC (fuelBound [Process.input 1 0 3, Process.input 2 1 2] + k)
        (mainInit [Process.input 1 0 3, Process.input 2 1 2] 2) = .done s') ∧
      s'.procs.length = [Process.input 1 0 3, Process.input 2 1 2].length ∧
      ∀ i, i < [Process.input 1 0 3, Process.input 2 1 2].length →
        finTimes s'.log i = [(getP s'.procs i).finish_time] :=
  start_finish_once_in_range [Process.input 1 0 3, Process.input 2 1 2] 2 (by decide)
    (by decide) (by decide)
/-! ## Runs that never end, and a run that overflows the clock while a process works -/

theorem Stuck.stuck_step {s : State} (h : Stuck s) :
    loopCond s ∧ ∃ s', tickC s = .ok s' ∧ Stuck s' := by
  obtain ⟨hp, hq, hm, htwo⟩ := h
  match hl : s.list with
  | [] => rw [hl] at htwo; simp at htwo
  | a :: rest =>
    have hne : s.list ≠ [] := by rw [hl]; simp
    refine ⟨Or.inl hne, ?_⟩
    have h1 := tickC_dispatch_fixed s a rest hp hl hm
    have hq0 : (dispatchStepC s a rest (toInt s.quantum_length)).quantum_left = 0 := by
      simp only [dispatchStepC]
      rw [hq]
      rfl
    have hp1 : (dispatchStepC s a rest (toInt s.quantum_length)).p = some a := rfl
    have hql : (dispatchStepC s a rest (toInt s.quantum_length)).quantum_length = 0 := by
      simp only [dispatchStepC]
      rw [hq]
      rfl
    rw [hl] at htwo
    by_cases hr : (getP s.procs a).remaining_time = 0
    · have hr1 : (getP (dispatchStepC s a rest (toInt s.quantum_length)).procs
          a).remaining_time = 0 := by
        simp only [dispatchStepC, markStart_remaining]
        exact hr
      have h2 : executeAndEnqueueC (dispatchStepC s a rest (toInt s.quantum_length))
          (countArrivalsC s.procs s.t) false
          = .ok (advanceClockC (enqueueArrivalsC
              (finishStep (dispatchStepC s a rest (toInt s.quantum_length)) a))) := by
        unfold executeAndEnqueueC executeC
        simp [hp1, hr1]
      refine ⟨_, h1.trans h2, by simp [advanceClockC, finishStep, dispatchStepC],
        by simpa [advanceClockC, finishStep] using hql,
        by simpa [advanceClockC, finishStep, dispatchStepC] using hm, ?_⟩
      simp only [advanceClockC, enqueueArrivalsC_list, enqueueArrivalsC_procs, finishStep,
        dispatchStepC, finishProc_remaining, markStart_remaining, List.filter_append,
        List.length_append]
      rw [List.filter_cons] at htwo
      simp only [hr, ne_eq, not_true_eq_false, decide_False, Bool.false_eq_true,
        if_false] at htwo
      simp only [ne_eq] at htwo ⊢
      omega
    · have hr1 : (getP (dispatchStepC s a rest (toInt s.quantum_length)).procs
          a).remaining_time ≠ 0 := by
        simp only [dispatchStepC, markStart_remaining]
        exact hr
      have hrest : rest ≠ [] := by
        intro he
        rw [he] at htwo
        simp [List.filter_cons] at htwo
        split_ifs at htwo
        simp at htwo
      have hl1 : (dispatchStepC s a rest (toInt s.quantum_length)).list ≠ [] := by
        simpa [dispatchStepC] using hrest
      have h2 : executeAndEnqueueC (dispatchStepC s a rest (toInt s.quantum_length))
          (countArrivalsC s.procs s.t) false
          = .ok (advanceClockC (enqueueArrivalsC
              (preemptStep (dispatchStepC s a rest (toInt s.quantum_length)) a))) := by
        unfold executeAndEnqueueC executeC
        simp [hp1, hr1, hq0, hl1]
      refine ⟨_, h1.trans h2, by simp [advanceClockC, preemptStep, dispatchStepC],
        by simpa [advanceClockC, preemptStep] using hql,
        by simpa [advanceClockC, preemptStep, dispatchStepC] using hm, ?_⟩
      simp only [advanceClockC, enqueueArrivalsC_list, enqueueArrivalsC_procs, preemptStep,
        dispatchStepC, markStart_remaining, List.filter_append, List.length_append]
      rw [List.filter_cons] at htwo
      simp only [hr, ne_eq, not_false_eq_true, decide_True, if_true,
        List.length_cons] at htwo
      simp only [ne_eq, List.filter_cons, hr, not_false_eq_true, decide_True, if_true,
        List.filter_nil, List.length_cons, List.length_nil] at htwo ⊢
      omega

theorem Stuck.stuck_run {s : State} (h : Stuck s) (fuel : Nat) :
    runLoopC fuel s = .outOfFuel := by
  induction fuel generalizing s with
  | zero => rfl
  | succ n ih =>
    obtain ⟨hc, s', ht, h'⟩ := h.stuck_step
    rw [runLoopC_step n s s' hc ht]
    exact ih h'

/-- With the quantum argument 4294967296 on three processes (arrival 0, burst 1; two with
arrival 1, burst 1) the loop with the widths of the types never ends: the simulation has no
result. -/
theorem exampleCrowded_run (fuel : Nat) :
    simulateC fuel [Process.input 1 0 1, Process.input 2 1 1, Process.input 3 1 1] 4294967296
      = none := by
  have h1 : tickC (mainInit [Process.input 1 0 1, Process.input 2 1 1, Process.input 3 1 1]
      4294967296) = .ok exampleCrowded := rfl
  have h2 : tickC exampleCrowded = .ok
      { procs := [⟨1, 0, 1, 0, 0, 0, 0, 1⟩, ⟨2, 1, 1, 1, -1, 0, 0, 0⟩,
          ⟨3, 1, 1, 1, -1, 0, 0, 0⟩],
        list := [1, 2], p := none, t := 2, num_arrived := 3, quantum_left := -1,
        quantum_length := 0, median_mode := false,
        log := [Event.enq 0 0, Event.deq 0 0, Event.fin 0 1, Event.enq 1 1,
          Event.enq 2 1] } := rfl
  have hs : Stuck
      { procs := [⟨1, 0, 1, 0, 0, 0, 0, 1⟩, ⟨2, 1, 1, 1, -1, 0, 0, 0⟩,
          ⟨3, 1, 1, 1, -1, 0, 0, 0⟩],
        list := [1, 2], p := none, t := 2, num_arrived := 3, quantum_left := -1,
        quantum_length := 0, median_mode := false,
        log := [Event.enq 0 0, Event.deq 0 0, Event.fin 0 1, Event.enq 1 1,
          Event.enq 2 1] } := ⟨rfl, rfl, rfl, by decide⟩
  have hrun : runLoopC fuel
      (mainInit [Process.input 1 0 1, Process.input 2 1 1, Process.input 3 1 1] 4294967296)
      = .outOfFuel := by
    cases fuel with
    | zero => rfl
    | succ n =>
      rw [runLoopC_step n _ _ (by decide) h1]
      cases n with
      | zero => rfl
      | succ m =>
        rw [runLoopC_step m _ _ (by decide) h2]
        exact hs.stuck_run m
  unfold simulateC
  rw [hrun]

/-- C18 fails as stated, in two ways. On two processes (pid 1: arrival `INT_MAX - 1`,
burst 1; pid 2: arrival `INT_MAX`, burst 1) with fixed quantum 1, the iteration of tick
`t = INT_MAX` finds the first process with `remaining_time == 0` while the list is empty, and
the second process is the lowest-index process with `arrival_time == t`. The `int` clock
overflows at the end of that iteration: the second process is dispatched at tick `INT_MIN`,
not `t + 1`, and its `response_time` is `-4294967295`, not 1. And on three processes (pid 1:
arrival 0, burst 1; pids 2 and 3: arrival 1, burst 1) with the quantum argument 4294967296,
which `calculateQuantum` narrows to 0, the iteration of tick 1 finds the first process with
`remaining_time == 0` and the list empty, the second process is dispatched at tick 2 and
goes back to the list at once, and the simulation never ends: no `response_time` is ever
computed. -/
theorem arrival_at_release_counterexample :
    (ValidInput [Process.input 1 2147483646 1, Process.input 2 2147483647 1] ∧
    ValidQuantum 1 ∧
    ReachC (mainInit [Process.input 1 2147483646 1, Process.input 2 2147483647 1] 1)
      exampleLateRelease ∧
    exampleLateRelease.list = [] ∧ exampleLateRelease.p = some 0 ∧
    (getP exampleLateRelease.procs 0).remaining_time = 0 ∧
    (getP exampleLateRelease.procs 1).arrival_time = exampleLateRelease.t ∧
    (∀ j, j < 1 → (getP exampleLateRelease.procs j).arrival_time ≠ exampleLateRelease.t) ∧
    ∃ s' s'' res, tickC exampleLateRelease = .ok s' ∧
      (getP s'.procs 0).finish_time = exampleLateRelease.t ∧ s'.p = none ∧
      s'.t = -2147483648 ∧
      tickC s' = .ok s'' ∧ s''.p = some 1 ∧
      (getP s''.procs 1).start_exec_time = -2147483648 ∧
      (getP s''.procs 1).start_exec_time ≠ exampleLateRelease.t + 1 ∧
      simulateC (2147483646 + 5)
        [Process.input 1 2147483646 1, Process.input 2 2147483647 1] 1 = some res ∧
      (getP res 1).start_exec_time = -2147483648 ∧
      (getP res 1).response_time = -4294967295 ∧ (getP res 1).response_time ≠ 1) ∧
    (ValidInput [Process.input 1 0 1, Process.input 2 1 1, Process.input 3 1 1] ∧
    ValidQuantum 4294967296 ∧
    ReachC (mainInit [Process.input 1 0 1, Process.input 2 1 1, Process.input 3 1 1]
      4294967296) exampleCrowded ∧
    exampleCrowded.list = [] ∧ exampleCrowded.p = some 0 ∧
    (getP exampleCrowded.procs 0).remaining_time = 0 ∧
    (getP exampleCrowded.procs 1).arrival_time = exampleCrowded.t ∧
    (∀ j, j < 1 → (getP exampleCrowded.procs j).arrival_time ≠ exampleCrowded.t) ∧
    (∃ s' s'', tickC exampleCrowded = .ok s' ∧
      (getP s'.procs 0).finish_time = exampleCrowded.t ∧ s'.p = none ∧
      tickC s' = .ok s'' ∧ (getP s''.procs 1).start_exec_time = exampleCrowded.t + 1 ∧
      s''.p = none ∧ s''.list = [2, 1]) ∧
    ∀ fuel, simulateC fuel [Process.input 1 0 1, Process.input 2 1 1, Process.input 3 1 1]
      4294967296 = none) :=
  ⟨⟨by decide, by decide, exampleLateRelease_reachC, rfl, rfl, rfl, rfl, by decide,
    _, _, _, rfl, rfl, rfl, rfl, rfl, rfl, rfl, by decide, simulateC_late_release, rfl, rfl,
    by decide⟩,
    by decide, by decide, reachC_ticksC 1 _ _ (by decide), rfl, rfl, rfl, rfl, by decide,
    ⟨_, _, rfl, rfl, rfl, rfl, rfl, rfl, rfl⟩, exampleCrowded_run⟩

/-- C18, as amended. In a run on a valid input in range (the bound `fuelBound` on the
iterations and the fixed quantum are at most `INT_MAX`), with the widths of the types, let
`X` be the lowest-index process with `arrival_time == t`, at a tick `t` at whose head the
list is empty. If the running process is found with `remaining_time == 0` (so that
`finish_time = t` and the CPU is released), then `X` is dispatched at tick `t + 1`:
`start_exec_time` of `X` is `t + 1` and its `response_time` is 1. If no process is running,
`X` is dispatched in the tick `t` itself and its `response_time` is 0. -/
theorem arrival_at_release_in_range (ps : List Process) (q : Int) (hv : ValidInput ps)
    (hq : ValidQuantum q) (hin : InRange ps q) (s : State)
    (hr : ReachC (mainInit ps q) s) (X : Nat)
    (hX : X < s.procs.length) (harr : (getP s.procs X).arrival_time = s.t)
    (hmin : ∀ j, j < X → (getP s.procs j).arrival_time ≠ s.t) (hl : s.list = []) :
    (∀ i, s.p = some i → (getP s.procs i).remaining_time = 0 →
      ∃ s' s'' res, tickC s = .ok s' ∧ (getP s'.procs i).finish_time = s.t ∧ s'.p = none ∧
        s'.t = s.t + 1 ∧ (getP s'.procs X).start_exec_time = -1 ∧
        tickC s' = .ok s'' ∧ s''.p = some X ∧
        (getP s''.procs X).start_exec_time = s.t + 1 ∧
        (∀ k, simulateC (fuelBound ps + k) ps q = some res) ∧
        (getP res X).start_exec_time = s.t + 1 ∧ (getP res X).response_time = 1) ∧
    (s.p = none →
      ∃ s' res, tickC s = .ok s' ∧ s'.p = some X ∧ (getP s'.procs X).start_exec_time = s.t ∧
        (∀ k, simulateC (fuelBound ps + k) ps q = some res) ∧
        (getP res X).start_exec_time = s.t ∧ (getP res X).response_time = 0) := by
  have hr' := reach_of_reachC ps q hv hq hin s hr
  obtain ⟨h1, h2⟩ := arrival_at_release ps q hv hq s hr' X hX harr hmin hl
  have hts := tickC_of_reach ps q hv hq hin s hr
  constructor
  · intro i hp hrem
    obtain ⟨s', s'', res, a1, a2, a3, a4, a5, a6, a7, a8, a9, a10, a11⟩ := h1 i hp hrem
    have hc : loopCond s := Or.inr (Or.inl (by rw [hp]; simp))
    have hr1 : Reach (mainInit ps q) s' := Reach.step hr' hc a1
    refine ⟨s', s'', res, hts.trans a1, a2, a3, a4, a5, ?_, a7, a8, fun k => ?_, a10, a11⟩
    · rw [tickC_eq_tick (fits_of_reach ps q hv hq hin s' hr1)]
      exact a6
    · rw [simulateC_eq ps q hv hq hin]
      exact a9 k
  · intro hp
    obtain ⟨s', res, a1, a2, a3, a4, a5, a6⟩ := h2 hp
    refine ⟨s', res, hts.trans a1, a2, a3, fun k => ?_, a5, a6⟩
    rw [simulateC_eq ps q hv hq hin]
    exact a4 k

/-- C18 as amended, at two states of the run with fixed quantum 2 on two processes (pid 1:
arrival 0, burst 2; pid 2: arrival 2, burst 1): `exampleRelease`, where the first process is
found finished at tick 2 and the second arrives at tick 2, and the initial state, where the
first process arrives at tick 0 while the CPU is idle. -/
theorem arrival_at_release_in_range_witness :
    ((∀ i, exampleRelease.p = some i → (getP exampleRelease.procs i).remaining_time = 0 →
      ∃ s' s'' res, tickC exampleRelease = .ok s' ∧
        (getP s'.procs i).finish_time = exampleRelease.t ∧ s'.p = none ∧
        s'.t = exampleRelease.t + 1 ∧ (getP s'.procs 1).start_exec_time = -1 ∧
        tickC s' = .ok s'' ∧ s''.p = some 1 ∧
        (getP s''.procs 1).start_exec_time = exampleRelease.t + 1 ∧
        (∀ k, simulateC (fuelBound [Process.input 1 0 2, Process.input 2 2 1] + k)
          [Process.input 1 0 2, Process.input 2 2 1] 2 = some res) ∧
        (getP res 1).start_exec_time = exampleRelease.t + 1 ∧
        (getP res 1).response_time = 1) ∧
    (exampleRelease.p = none →
      ∃ s' res, tickC exampleRelease = .ok s' ∧ s'.p = some 1 ∧
        (getP s'.procs 1).start_exec_time = exampleRelease.t ∧
        (∀ k, simulateC (fuelBound [Process.input 1 0 2, Process.input 2 2 1] + k)
          [Process.input 1 0 2, Process.input 2 2 1] 2 = some res) ∧
        (getP res 1).start_exec_time = exampleRelease.t ∧
        (getP res 1).response_time = 0)) ∧
    ((∀ i, (mainInit [Process.input 1 0 2, Process.input 2 2 1] 2).p = some i →
      (getP (mainInit [Process.input 1 0 2, Process.input 2 2 1] 2).procs i).remaining_time
        = 0 →
      ∃ s' s'' res, tickC (mainInit [Process.input 1 0 2, Process.input 2 2 1] 2) = .ok s' ∧
        (getP s'.procs i).finish_time
          = (mainInit [Process.input 1 0 2, Process.input 2 2 1] 2).t ∧ s'.p = none ∧
        s'.t = (mainInit [Process.input 1 0 2, Process.input 2 2 1] 2).t + 1 ∧
        (getP s'.procs 0).start_exec_time = -1 ∧
        tickC s' = .ok s'' ∧ s''.p = some 0 ∧
        (getP s''.procs 0).start_exec_time
          = (mainInit [Process.input 1 0 2, Process.input 2 2 1] 2).t + 1 ∧
        (∀ k, simulateC (fuelBound [Process.input 1 0 2, Process.input 2 2 1] + k)
          [Process.input 1 0 2, Process.input 2 2 1] 2 = some res) ∧
        (getP res 0).start_exec_time
          = (mainInit [Process.input 1 0 2, Process.input 2 2 1] 2).t + 1 ∧
        (getP res 0).response_time = 1) ∧
    ((mainInit [Process.input 1 0 2, Process.input 2 2 1] 2).p = none →
      ∃ s' res, tickC (mainInit [Process.input 1 0 2, Process.input 2 2 1] 2) = .ok s' ∧
        s'.p = some 0 ∧
        (getP s'.procs 0).start_exec_time
          = (mainInit [Process.input 1 0 2, Process.input 2 2 1] 2).t ∧
        (∀ k, simulateC (fuelBound [Process.input 1 0 2, Process.input 2 2 1] + k)
          [Process.input 1 0 2, Process.input 2 2 1] 2 = some res) ∧
        (getP res 0).start_exec_time
          = (mainInit [Process.input 1 0 2, Process.input 2 2 1] 2).t ∧
        (getP res 0).response_time = 0)) :=
  ⟨arrival_at_release_in_range [Process.input 1 0 2, Process.input 2 2 1] 2 (by decide)
      (by decide) (by decide) exampleRelease (reachC_ticksC 2 _ _ (by decide)) 1 (by decide)
      (by decide) (by decide) (by decide),
    arrival_at_release_in_range [Process.input 1 0 2, Process.input 2 2 1] 2 (by decide)
      (by decide) (by decide) _ ReachC.start 0 (by decide) (by decide) (by decide)
      (by decide)⟩

end RR
